import Mathlib

/-!
Adaptive Huffman codec: bit stream, binary heap, symbol model.

A shallow embedding of the Go packages `bits`, `heap` and `main` of the
repository, followed by theorems about them.

Conventions of the embedding.

* Machine integers are natural numbers; every operation that can wrap in Go
  is followed by an explicit reduction (`byte` for `uint8`/`byte`, `u64` for
  `uint64`, `sub8` for `uint8` subtraction).
* The buffered byte sink of a `bits.Writer` is the list of bytes handed to it,
  in order; it never fails.  The byte source of a `bits.Reader` is the list of
  bytes not yet consumed; reading from the empty list is `io.EOF`.
* Go pointers to `Node` are positions in a list of nodes (`Mem`); `new` appends.
* A Go panic (index out of range, nil dereference) and a loop that runs out of
  fuel are both `none`.
-/

set_option autoImplicit false

/-! ## Package `bits` -/

namespace bits

/-- Conversion to `byte` / `uint8`: keep the low 8 bits. -/
def byte (x : Nat) : Nat := x % 256

/-- Conversion to `uint64`: keep the low 64 bits. -/
def u64 (x : Nat) : Nat := x % 2 ^ 64

/-- Subtraction of `uint8` (and `byte`) values, wrapping modulo 256. -/
def sub8 (a b : Nat) : Nat := (a + 256 - b % 256) % 256

/-- Subtraction of `uint64` values, wrapping modulo 2^64. -/
def sub64 (a b : Nat) : Nat := (a + 2 ^ 64 - b % 2 ^ 64) % 2 ^ 64

/-- State of a `bits.Writer`: the bytes written to `out` so far, the bit
buffer `buf` and the number `count` of bits held in the buffer. -/
structure Writer where
  out : List Nat
  buf : Nat
  count : Nat
deriving DecidableEq, Repr

/-- `NewWriter`: nothing written, empty buffer. -/
def NewWriter : Writer := { out := [], buf := 0, count := 0 }

/-- `Writer.writeUnalignedByte`: emit `buf | b>>count`, keep the low `count`
bits of `b` in the top of the buffer; `count` is unchanged. -/
def Writer.writeUnalignedByte (w : Writer) (b : Nat) : Writer :=
  let count := w.count
  { w with
    out := w.out ++ [w.buf ||| (b >>> count)],
    buf := byte ((b &&& sub8 (byte (1 <<< count)) 1) <<< sub8 8 count) }

/-- `Writer.WriteByte`. -/
def Writer.WriteByte (w : Writer) (b : Nat) : Writer :=
  if w.count = 0 then { w with out := w.out ++ [b] }
  else w.writeUnalignedByte b

/-- The loop `for n >= 8 { n -= 8; out.WriteByte(byte(r >> n)) }` of
`WriteBitsUnsafe`; returns the bytes written and the final `n`.  The first
argument bounds the number of iterations. -/
def writeBytesLoop : Nat → List Nat → Nat → Nat → List Nat × Nat
  | 0, out, _, n => (out, n)
  | fuel + 1, out, r, n =>
    if n ≥ 8 then
      let n1 := sub8 n 8
      writeBytesLoop fuel (out ++ [byte (r >>> n1)]) r n1
    else (out, n)

/-- `Writer.WriteBitsUnsafe(r, n)`. -/
def Writer.WriteBitsUnsafe (w : Writer) (r n : Nat) : Writer :=
  let totalCount := byte (w.count + n)
  if totalCount < 8 then
    { w with
      buf := w.buf ||| byte (byte r <<< sub8 8 totalCount),
      count := totalCount }
  else if totalCount > 8 then
    let free := sub8 8 w.count
    let out1 := w.out ++ [w.buf ||| byte (r >>> sub8 n free)]
    let n1 := sub8 n free
    let res := writeBytesLoop (n1 / 8) out1 r n1
    let n2 := res.2
    if n2 > 0 then
      { out := res.1,
        buf := byte ((byte r &&& sub8 (byte (1 <<< n2)) 1) <<< sub8 8 n2),
        count := n2 }
    else
      { out := res.1, buf := 0, count := 0 }
  else
    { out := w.out ++ [w.buf ||| byte r], buf := 0, count := 0 }

/-- `Writer.WriteBits(r, n)`: mask `r` with `1<<n - 1` (computed in `uint64`,
so the mask is all ones for `n = 64`) and call `WriteBitsUnsafe`. -/
def Writer.WriteBits (w : Writer) (r n : Nat) : Writer :=
  w.WriteBitsUnsafe (r &&& sub64 (u64 (1 <<< n)) 1) n

/-- `Writer.WriteOneBit`. -/
def Writer.WriteOneBit (w : Writer) (b : Bool) : Writer :=
  if w.count = 7 then
    if b then { out := w.out ++ [w.buf ||| 1], buf := 0, count := 0 }
    else { out := w.out ++ [w.buf], buf := 0, count := 0 }
  else
    let count := byte (w.count + 1)
    if b then { w with buf := w.buf ||| byte (1 <<< sub8 8 count), count := count }
    else { w with count := count }

/-- `Writer.Align`: returns the number of unset bits of the flushed byte. -/
def Writer.Align (w : Writer) : Nat × Writer :=
  if w.count > 0 then
    (sub8 8 w.count, { out := w.out ++ [w.buf], buf := 0, count := 0 })
  else (0, w)

/-- `Writer.Close`: align, then flush the sink. -/
def Writer.Close (w : Writer) : Writer := w.Align.2

/-- The error values returned by the readers. -/
inductive Error where
  | EOF : Error
deriving DecidableEq, Repr

/-- State of a `bits.Reader`: `src` is the part of the underlying byte source
that has not been consumed (the Go field is named `in`). -/
structure Reader where
  src : List Nat
  buf : Nat
  count : Nat
deriving DecidableEq, Repr

/-- `NewReader`. -/
def NewReader (src : List Nat) : Reader := { src := src, buf := 0, count := 0 }

/-- `Reader.readUnalignedByte`.  On a read error the buffer has already been
overwritten with the zero byte that `bufio.Reader.ReadByte` returns. -/
def Reader.readUnalignedByte (r : Reader) : Except Error Nat × Reader :=
  let count := r.count
  let b := byte (r.buf <<< sub8 8 count)
  match r.src with
  | [] => (.error .EOF, { r with buf := 0 })
  | x :: rest =>
    (.ok (b ||| (x >>> count)),
     { r with src := rest, buf := x &&& sub8 (byte (1 <<< count)) 1 })

/-- `Reader.ReadByte`. -/
def Reader.ReadByte (r : Reader) : Except Error Nat × Reader :=
  if r.count = 0 then
    match r.src with
    | [] => (.error .EOF, r)
    | x :: rest => (.ok x, { r with src := rest })
  else r.readUnalignedByte

/-- The loop `for n >= 8 { b, err := in.ReadByte(); ...; u = u<<8 + b; n -= 8 }`
of `ReadBits`; `none` is the early `return 0, err`.  Returns the remaining
source, `u` and `n`. -/
def readBytesLoop : Nat → List Nat → Nat → Nat → Option (List Nat × Nat × Nat)
  | 0, src, u, n => some (src, u, n)
  | fuel + 1, src, u, n =>
    if n ≥ 8 then
      match src with
      | [] => none
      | b :: rest => readBytesLoop fuel rest (u64 (u64 (u <<< 8) + b)) (sub8 n 8)
    else some (src, u, n)

/-- `Reader.ReadBits(n)`.  The source tests `err != nil` after the read of the
last, partial byte, so the final bits are merged into `u` only when that read
failed, and the error of that read is dropped by the final `return u, nil`. -/
def Reader.ReadBits (r : Reader) (n : Nat) : Except Error Nat × Reader :=
  if n < r.count then
    let shift := sub8 r.count n
    (.ok (r.buf >>> shift), { r with buf := r.buf &&& sub8 (byte (1 <<< shift)) 1 })
  else if n > r.count then
    let u0 := if r.count > 0 then r.buf else 0
    let n0 := if r.count > 0 then sub8 n r.count else n
    match readBytesLoop (n0 / 8) r.src u0 n0 with
    | none => (.error .EOF, { r with src := [] })
    | some (src1, u1, n1) =>
      if n1 > 0 then
        match src1 with
        | [] =>
          let shift := sub8 8 n1
          (.ok (u64 (u64 (u1 <<< n1) + (0 >>> shift))),
           { src := [], buf := 0 &&& sub8 (byte (1 <<< shift)) 1, count := shift })
        | x :: rest => (.ok u1, { r with src := rest, buf := x })
      else (.ok u1, { r with src := src1, count := 0 })
  else
    (.ok r.buf, { r with count := 0 })

/-- `Reader.ReadOneBit`. -/
def Reader.ReadOneBit (r : Reader) : Except Error Bool × Reader :=
  if r.count = 0 then
    match r.src with
    | [] => (.error .EOF, { r with buf := 0 })
    | x :: rest =>
      (.ok (x &&& (1 <<< 7) != 0),
       { src := rest, buf := x &&& (1 <<< 7 - 1), count := 7 })
  else
    let count := sub8 r.count 1
    (.ok (r.buf &&& byte (1 <<< count) != 0),
     { r with buf := r.buf &&& sub8 (byte (1 <<< count)) 1, count := count })

/-- `Reader.Align`: returns the number of unread bits. -/
def Reader.Align (r : Reader) : Nat × Reader := (r.count, { r with count := 0 })

end bits

/-! ## Package `heap` -/

namespace heap

/-- The Go interface `heap.Interface` (`sort.Interface` with `Push` and `Pop`)
over a container state `σ` holding elements of type `α`.  Every method that
indexes the container may panic, which is `none`. -/
structure Interface (σ : Type) (α : Type) where
  Len : σ → Nat
  Less : σ → Nat → Nat → Option Bool
  Swap : σ → Nat → Nat → Option σ
  Push : σ → α → Option σ
  Pop : σ → Option (α × σ)

variable {σ α : Type}

/-- The loop of `down(h, i0, n)`, returning the container and the final `i`.
Indices are natural numbers, so the overflow guard `j1 < 0` of the source is
never true.  The first argument bounds the number of iterations. -/
def downLoop (I : Interface σ α) (n : Nat) : Nat → σ → Nat → Option (σ × Nat)
  | 0, _, _ => none
  | fuel + 1, s, i =>
    let j1 := 2 * i + 1
    if j1 ≥ n then some (s, i)
    else do
      let j2 := j1 + 1
      let cmp := if j2 < n then I.Less s j2 j1 else some false
      let c ← cmp
      let j := if c then j2 else j1
      let lt ← I.Less s j i
      if !lt then some (s, i)
      else do
        let s1 ← I.Swap s i j
        downLoop I n fuel s1 j

/-- `down(h, i0, n)`: sift the element at `i0` down inside the first `n`
positions; the boolean is `i > i0`. -/
def down (I : Interface σ α) (s : σ) (i0 n : Nat) : Option (σ × Bool) := do
  let r ← downLoop I n (n + 1) s i0
  some (r.1, decide (r.2 > i0))

/-- The loop of `up(h, j)`.  The parent `(j - 1) / 2` of `j = 0` is `0` both
with Go's truncating division and with natural-number subtraction. -/
def upLoop (I : Interface σ α) : Nat → σ → Nat → Option σ
  | 0, _, _ => none
  | fuel + 1, s, j =>
    let i := (j - 1) / 2
    if i = j then some s
    else do
      let lt ← I.Less s j i
      if !lt then some s
      else do
        let s1 ← I.Swap s i j
        upLoop I fuel s1 i

/-- `up(h, j)`. -/
def up (I : Interface σ α) (s : σ) (j : Nat) : Option σ := upLoop I (j + 1) s j

/-- The loop `for i := length/2 - 1; i > 0; i-- { down(h, i, length) }` of
`Init`, as a recursion on `i`: it stops at `i = 0` without calling `down`. -/
def initLoop (I : Interface σ α) (length : Nat) : Nat → σ → Option σ
  | 0, s => some s
  | i + 1, s => do
    let r ← down I s (i + 1) length
    initLoop I length i r.1

/-- `Init(h)`.  For `length < 2` the Go start value `length/2 - 1` is `-1`
and the loop body does not run; here it is `0`, with the same effect. -/
def Init (I : Interface σ α) (s : σ) : Option σ :=
  let length := I.Len s
  initLoop I length (length / 2 - 1) s

/-- `Push(h, x)`. -/
def Push (I : Interface σ α) (s : σ) (x : α) : Option σ := do
  let s1 ← I.Push s x
  up I s1 (I.Len s1 - 1)

/-- `Pop(h)`.  On an empty container the source calls `Swap(0, -1)` and
panics; here `Swap 0 0` on the empty container panics as well. -/
def Pop (I : Interface σ α) (s : σ) : Option (α × σ) := do
  let n := I.Len s - 1
  let s1 ← I.Swap s 0 n
  let r ← down I s1 0 n
  I.Pop r.1

/-- `Remove(h, i)`. -/
def Remove (I : Interface σ α) (s : σ) (i : Nat) : Option (α × σ) := do
  let n := I.Len s - 1
  if n ≠ i then
    let s1 ← I.Swap s i n
    let r ← down I s1 i n
    if !r.2 then
      let s2 ← up I r.1 i
      I.Pop s2
    else I.Pop r.1
  else I.Pop s

/-- `Fix(h, i)`. -/
def Fix (I : Interface σ α) (s : σ) (i : Nat) : Option σ := do
  let r ← down I s i (I.Len s)
  if !r.2 then up I r.1 i else some r.1

/-- A plain slice of elements ordered by `lt`, with the five methods the
interface asks for: length, comparison of two positions, exchange of two
positions, append, remove-last. -/
def sliceInterface (lt : α → α → Bool) : Interface (List α) α where
  Len s := s.length
  Less s i j := do
    let a ← s[i]?
    let b ← s[j]?
    some (lt a b)
  Swap s i j := do
    let a ← s[i]?
    let b ← s[j]?
    some ((s.set i b).set j a)
  Push s x := some (s ++ [x])
  Pop s := do
    let x ← s.getLast?
    some (x, s.dropLast)

end heap

/-! ## Package `main`: nodes, symbol model, encoder and decoder -/

namespace huffman

/-- The largest value that a Go `int` holds on every platform: `1<<31 - 1`
(`int` is 32 or 64 bits wide). -/
def maxInt : Nat := 2 ^ 31 - 1

/-- The Go struct `Node`.  Pointers are positions in `Mem`; `none` is `nil`.
`Freq` is a Go `int`, which wraps on overflow.  It is kept here as a natural
number and the additions on it (`Freq++` in `update`, `left.Freq + right.Freq`
in `buildTree`) are exact: the field holds the value of the Go field as long
as no `Freq` computed so far exceeds `maxInt`.  The statements about
frequency values bound the frequencies by `maxInt`. -/
structure Node where
  Parent : Option Nat := none
  Left : Option Nat := none
  Right : Option Nat := none
  Freq : Nat := 0
  Char : Nat := 0
  index : Nat := 0
deriving DecidableEq, Repr

/-- The allocated nodes; `&Node{...}` appends and yields the old length. -/
abbrev Mem := List Node

/-- Value representing a new character: `1<<31 - 1`. -/
def newChar : Nat := 2 ^ 31 - 1

/-- Value representing end of data: `1<<31 - 2`. -/
def eof : Nat := 2 ^ 31 - 2

/-- Number of custom characters. -/
def customChars : Nat := 2

/-- Number of possible bytes plus custom characters. -/
def maxChars : Nat := 256 + customChars

/-- Store through a pointer: replace the node at `p`; `none` if `p` is not
allocated. -/
def store (mem : Mem) (p : Nat) (f : Node → Node) : Option Mem := do
  let nd ← mem[p]?
  some (mem.set p (f nd))

/-- The loop of `Node.Code`: `n` is the current node, `parent` its parent
pointer, `r` the `uint64` code and `count` the `uint8` bit count. -/
def codeLoop (mem : Mem) : Nat → Nat → Option Nat → Nat → Nat → Option (Nat × Nat)
  | 0, _, _, _, _ => none
  | _ + 1, _, none, r, count => some (r, count)
  | fuel + 1, n, some parent, r, count => do
    let pn ← mem[parent]?
    let r1 := if pn.Right = some n then r ||| bits.u64 (1 <<< count) else r
    codeLoop mem fuel parent pn.Parent r1 (bits.byte (count + 1))

/-- `Node.Code`: walk the `Parent` pointers up to the root. -/
def Code (mem : Mem) (n : Nat) : Option (Nat × Nat) := do
  let nd ← mem[n]?
  codeLoop mem (mem.length + 1) n nd.Parent 0 0

/-- A `NodeHeap` together with the memory its pointers refer to. -/
structure HeapState where
  mem : Mem
  h : List Nat
deriving DecidableEq, Repr

/-- `NodeHeap.Len`. -/
def NodeHeap.Len (s : HeapState) : Nat := s.h.length

/-- `NodeHeap.Less`: compare the frequencies of the nodes at `i` and `j`. -/
def NodeHeap.Less (s : HeapState) (i j : Nat) : Option Bool := do
  let p ← s.h[i]?
  let q ← s.h[j]?
  let a ← s.mem[p]?
  let b ← s.mem[q]?
  some (decide (a.Freq < b.Freq))

/-- `NodeHeap.Swap`: exchange the pointers at `i` and `j`, then write `i` and
`j` into the `index` field of the nodes now at these positions. -/
def NodeHeap.Swap (s : HeapState) (i j : Nat) : Option HeapState := do
  let p ← s.h[i]?
  let q ← s.h[j]?
  let h1 := (s.h.set i q).set j p
  let x ← h1[i]?
  let mem1 ← store s.mem x (fun nd => { nd with index := i })
  let y ← h1[j]?
  let mem2 ← store mem1 y (fun nd => { nd with index := j })
  some { mem := mem2, h := h1 }

/-- `NodeHeap.Push`: set the `index` of the pushed node to the old length and
append the pointer. -/
def NodeHeap.Push (s : HeapState) (value : Nat) : Option HeapState := do
  let length := s.h.length
  let mem1 ← store s.mem value (fun nd => { nd with index := length })
  some { mem := mem1, h := s.h ++ [value] }

/-- `NodeHeap.Pop`: remove and return the last pointer. -/
def NodeHeap.Pop (s : HeapState) : Option (Nat × HeapState) := do
  let x ← s.h.getLast?
  some (x, { s with h := s.h.dropLast })

/-- `NodeHeap` as a `heap.Interface`. -/
def NodeHeap : heap.Interface HeapState Nat where
  Len := NodeHeap.Len
  Less := NodeHeap.Less
  Swap := NodeHeap.Swap
  Push := NodeHeap.Push
  Pop := NodeHeap.Pop

/-- The Go struct `symbols`, with the memory its pointers refer to.  The map
`chars` is an association list, the newest binding first. -/
structure symbols where
  mem : Mem
  root : Option Nat
  leaves : List Nat
  chars : List (Nat × Nat)
deriving DecidableEq, Repr

/-- The loop `for h.Len() > 1 { ... }` of `buildTree` on the scratch heap.
The sum `left.Freq + right.Freq` is exact, see `Node`. -/
def buildLoop : Nat → HeapState → Option HeapState
  | 0, _ => none
  | fuel + 1, s =>
    if NodeHeap.Len s > 1 then do
      let l ← heap.Pop NodeHeap s
      let r ← heap.Pop NodeHeap l.2
      let left := l.1
      let right := r.1
      let ln ← r.2.mem[left]?
      let rn ← r.2.mem[right]?
      let parent := r.2.mem.length
      let mem1 := r.2.mem ++ [{ Freq := ln.Freq + rn.Freq }]
      let mem2 ← store mem1 left (fun nd => { nd with Parent := some parent })
      let mem3 ← store mem2 right (fun nd => { nd with Parent := some parent })
      let mem4 ← store mem3 parent (fun nd => { nd with Left := some left })
      let mem5 ← store mem4 parent (fun nd => { nd with Right := some right })
      let s1 ← heap.Push NodeHeap { mem := mem5, h := r.2.h } parent
      buildLoop fuel s1
    else some s

/-- `symbols.buildTree`: copy `leaves` into a scratch heap `h` (the pointers
are copied, the nodes are shared), merge, and store the last node as root. -/
def symbols.buildTree (s : symbols) : Option symbols := do
  let st ← buildLoop (s.leaves.length + 1) { mem := s.mem, h := s.leaves }
  let r ← heap.Pop NodeHeap st
  some { s with mem := r.2.mem, root := some r.1 }

/-- `newSymbols`. -/
def newSymbols : Option symbols := do
  let mem : Mem :=
    [{ Freq := 1, Char := newChar, index := 1 }, { Freq := 1, Char := eof, index := 1 }]
  let st ← heap.Init NodeHeap { mem := mem, h := [0, 1] }
  let chars ← st.h.foldlM
    (fun (m : List (Nat × Nat)) node => do
      let nd ← st.mem[node]?
      some ((nd.Char, node) :: m)) []
  symbols.buildTree { mem := st.mem, root := none, leaves := st.h, chars := chars }

/-- `symbols.insert`. -/
def symbols.insert (s : symbols) (char : Nat) : Option symbols := do
  let node := s.mem.length
  let mem1 := s.mem ++ [{ Freq := 1, Char := char, index := s.leaves.length }]
  let st ← heap.Push NodeHeap { mem := mem1, h := s.leaves } node
  symbols.buildTree { s with mem := st.mem, leaves := st.h, chars := (char, node) :: s.chars }

/-- `symbols.update`.  The increment `node.Freq++` is exact, see `Node`. -/
def symbols.update (s : symbols) (node : Nat) : Option symbols := do
  let mem1 ← store s.mem node (fun nd => { nd with Freq := nd.Freq + 1 })
  let nd ← mem1[node]?
  let st ← heap.Fix NodeHeap { mem := mem1, h := s.leaves } nd.index
  symbols.buildTree { s with mem := st.mem, leaves := st.h }

/-- The Huffman `Writer`: the symbol model and the bit writer. -/
structure Writer where
  sym : symbols
  bw : bits.Writer
deriving DecidableEq, Repr

/-- `NewWriter`. -/
def NewWriter : Option Writer := do
  let s ← newSymbols
  some { sym := s, bw := bits.NewWriter }

/-- `Writer.WriteByte`.  The sink never fails, so no error is returned. -/
def Writer.WriteByte (w : Writer) (b : Nat) : Option Writer :=
  let char := b
  match w.sym.chars.lookup char with
  | none => do
    let nc ← w.sym.chars.lookup newChar
    let c ← Code w.sym.mem nc
    let bw1 := w.bw.WriteBits c.1 c.2
    let bw2 := bw1.WriteByte b
    let s1 ← w.sym.insert char
    some { sym := s1, bw := bw2 }
  | some node => do
    let c ← Code w.sym.mem node
    let bw1 := w.bw.WriteBits c.1 c.2
    let s1 ← w.sym.update node
    some { sym := s1, bw := bw1 }

/-- `Writer.Write`: write the bytes of `p` one after the other. -/
def Writer.Write (w : Writer) (p : List Nat) : Option Writer :=
  p.foldlM Writer.WriteByte w

/-- `Writer.Close`: emit the code of `eof` if a byte was ever written, then
close the bit writer. -/
def Writer.Close (w : Writer) : Option Writer := do
  if w.sym.leaves.length > 2 then
    let e ← w.sym.chars.lookup eof
    let c ← Code w.sym.mem e
    some { w with bw := (w.bw.WriteBits c.1 c.2).Close }
  else some { w with bw := w.bw.Close }

/-- The Huffman `Reader`: the symbol model and the bit reader. -/
structure Reader where
  sym : symbols
  br : bits.Reader
deriving DecidableEq, Repr

/-- `NewReader`. -/
def NewReader (src : List Nat) : Option Reader := do
  let s ← newSymbols
  some { sym := s, br := bits.NewReader src }

/-- The loop `for node.Left != nil { ... }` of `Reader.ReadByte`: walk from
`node` to a leaf, one bit per edge.  The result is the error of `ReadOneBit`
or the leaf reached, with the bit reader. -/
def walkLoop (mem : Mem) : Nat → Nat → bits.Reader → Option (Except bits.Error Nat × bits.Reader)
  | 0, _, _ => none
  | fuel + 1, node, br => do
    let nd ← mem[node]?
    match nd.Left with
    | none => some (.ok node, br)
    | some left =>
      match br.ReadOneBit with
      | (.error e, br1) => some (.error e, br1)
      | (.ok right, br1) =>
        if right then do
          let nxt ← nd.Right
          walkLoop mem fuel nxt br1
        else walkLoop mem fuel left br1

/-- `Reader.ReadByte`: `.error .EOF` is `io.EOF`, which the source returns both
when the `eof` leaf is reached and when the bit reader reports it. -/
def Reader.ReadByte (r : Reader) : Option (Except bits.Error Nat × Reader) := do
  let root ← r.sym.root
  let res ← walkLoop r.sym.mem (r.sym.mem.length + 1) root r.br
  match res with
  | (.error e, br1) => some (.error e, { r with br := br1 })
  | (.ok node, br1) =>
    let nd ← r.sym.mem[node]?
    if nd.Char = newChar then
      match br1.ReadByte with
      | (.error e, br2) => some (.error e, { r with br := br2 })
      | (.ok b, br2) => do
        let s1 ← r.sym.insert b
        some (.ok b, { sym := s1, br := br2 })
    else if nd.Char = eof then
      some (.error .EOF, { r with br := br1 })
    else do
      let s1 ← r.sym.update node
      some (.ok (bits.byte nd.Char), { sym := s1, br := br1 })

/-- Call `ReadByte` until it returns an error; the bytes read, the error and
the final reader.  The first argument bounds the number of calls. -/
def Reader.readAll : Nat → Reader → Option (List Nat × bits.Error × Reader)
  | 0, _ => none
  | fuel + 1, r => do
    let res ← r.ReadByte
    match res with
    | (.error e, r1) => some ([], e, r1)
    | (.ok b, r1) => do
      let rest ← Reader.readAll fuel r1
      some (b :: rest.1, rest.2.1, rest.2.2)

/-- `main` in encoding mode: a fresh `Writer` is given all of `data` and is
closed; the result is the bytes it produced. -/
def encode (data : List Nat) : Option (List Nat) := do
  let w ← NewWriter
  let w1 ← w.Write data
  let w2 ← w1.Close
  some w2.bw.out

/-- `main` in decoding mode: a fresh `Reader` over `input` is read until
`ReadByte` returns an error; the result is the bytes read and that error.
Every successful `ReadByte` consumes at least one bit, which bounds the
number of calls. -/
def decode (input : List Nat) : Option (List Nat × bits.Error) := do
  let r ← NewReader input
  let res ← r.readAll (8 * input.length + 2)
  some (res.1, res.2.1)

/-- A byte sequence of length 316 with 72 distinct byte values.  After a
writer has written it the leaf queue holds, in queue order, `newChar` and
`eof` with frequency 1, the bytes `0`, `1`, `2` with frequency 62, the bytes
`3` to `70` with frequency 1 and the byte `71` with frequency 62. -/
def deepInput : List Nat :=
  [0, 1, 2, 3, 4, 5, 6, 7, 8, 9, 10, 11, 12, 13, 14, 15, 16, 17, 18, 19, 20, 21, 22, 23, 24, 25,
   26, 27, 28, 29, 30, 31, 32, 33, 34, 35, 36, 37, 38, 39, 40, 41, 42, 43, 44, 45, 46, 47, 48,
   49, 50, 51, 52, 53, 54, 55, 56, 57, 58, 59, 60, 61, 62, 63, 64, 65, 66, 67, 68, 69, 70, 71, 0,
   0, 0, 0, 0, 0, 0, 0, 1, 1, 1, 1, 1, 1, 1, 1, 1, 0, 1, 0, 1, 0, 1, 0, 1, 0, 2, 71, 2, 71, 2,
   71, 1, 2, 71, 2, 71, 2, 71, 0, 1, 2, 71, 2, 71, 2, 71, 2, 71, 2, 71, 2, 71, 2, 71, 0, 2, 71,
   1, 0, 2, 71, 1, 2, 71, 0, 1, 2, 71, 0, 1, 2, 71, 0, 1, 2, 71, 0, 1, 2, 71, 2, 0, 71, 1, 2, 0,
   71, 1, 2, 0, 71, 1, 2, 0, 71, 1, 2, 0, 71, 1, 2, 0, 71, 1, 2, 0, 71, 1, 2, 0, 71, 1, 2, 0, 71,
   1, 2, 0, 71, 1, 2, 0, 71, 1, 2, 0, 71, 1, 2, 0, 71, 1, 2, 0, 71, 1, 2, 0, 71, 1, 2, 0, 71, 1,
   2, 0, 71, 1, 2, 0, 71, 1, 2, 0, 71, 1, 2, 0, 71, 1, 2, 0, 71, 1, 2, 0, 71, 1, 2, 0, 71, 1, 2,
   0, 71, 1, 2, 0, 71, 1, 2, 0, 71, 1, 2, 0, 71, 1, 2, 0, 71, 1, 2, 0, 71, 1, 2, 0, 71, 1, 2, 0,
   71, 1, 2, 0, 71, 1, 2, 0, 71, 1, 2, 0, 71, 1, 2, 0, 71, 1, 2, 0, 71, 1, 2, 0, 71, 1, 2, 0, 71,
   1, 2, 0, 71, 1, 2, 0, 71, 71, 1, 2, 0]

end huffman

/-! ## Notions used in the statements -/

namespace bits

/-- The bits `n-1` down to `0` of `r`, most significant first. -/
def lowBits (r n : Nat) : List Bool :=
  (List.range n).map (fun i => r.testBit (n - 1 - i))

/-- The bit sequence a writer has emitted: the eight bits of every byte given
to the sink, then the `count` pending bits held in the top of `buf`. -/
def Writer.emitted (w : Writer) : List Bool :=
  w.out.flatMap (fun b => lowBits b 8) ++ (lowBits w.buf 8).take w.count

/-- The states a writer can be in: fewer than 8 pending bits, held in the top
of the byte `buf`, the rest of `buf` zero. -/
def Writer.Valid (w : Writer) : Prop :=
  w.count < 8 ∧ w.buf < 256 ∧ w.buf % 2 ^ (8 - w.count) = 0

end bits

namespace heap

variable {α : Type}

/-- The min-heap property of a sequence under `lt`: no element at a non-root
position `i` is less than the element at its parent position `(i - 1) / 2`. -/
def IsHeap (lt : α → α → Bool) (s : List α) : Prop :=
  ∀ i a b, 0 < i → s[i]? = some a → s[(i - 1) / 2]? = some b → lt a b = false

/-- The order `lt` is the strict part of a total preorder: "not less than"
is transitive and any two elements are comparable. -/
structure TotalPreorder (lt : α → α → Bool) : Prop where
  trans : ∀ a b c, lt b a = false → lt c b = false → lt c a = false
  total : ∀ a b, lt a b = false ∨ lt b a = false

/-- The order of the natural numbers, as a comparison function. -/
def natLt (a b : Nat) : Bool := decide (a < b)

/-- The element at position `p` is not greater than the element at position
`k` (when both positions exist): `v[k]` is not less than `v[p]`. -/
def LeAt (lt : α → α → Bool) (v : List α) (p k : Nat) : Prop :=
  ∀ a b, v[p]? = some a → v[k]? = some b → lt b a = false

/-- The heap property restricted to the first `n` positions. -/
def HeapUpTo (lt : α → α → Bool) (v : List α) (n : Nat) : Prop :=
  ∀ k, 0 < k → k < n → LeAt lt v ((k - 1) / 2) k

/-- The first `n` positions are a heap except for the comparisons that involve
position `i`, and the children of `i` are not less than the parent of `i`. -/
def FixInv (lt : α → α → Bool) (v : List α) (n i : Nat) : Prop :=
  (∀ k, 0 < k → k < n → k ≠ i → (k - 1) / 2 ≠ i → LeAt lt v ((k - 1) / 2) k) ∧
    (∀ k, 0 < k → k < n → (k - 1) / 2 = i → 0 < i → LeAt lt v ((i - 1) / 2) k)

/-- The children of `i` among the first `n` positions are not less than the
element at `i`. -/
def ChildrenOK (lt : α → α → Bool) (v : List α) (n i : Nat) : Prop :=
  ∀ k, 0 < k → k < n → (k - 1) / 2 = i → LeAt lt v i k

/-- The first `n` positions are a heap except for the comparison of `j` with
its parent, and the children of `j` are not less than the parent of `j`. -/
def UpInv (lt : α → α → Bool) (v : List α) (n j : Nat) : Prop :=
  (∀ k, 0 < k → k < n → k ≠ j → LeAt lt v ((k - 1) / 2) k) ∧
    (∀ k, 0 < k → k < n → (k - 1) / 2 = j → 0 < j → LeAt lt v ((j - 1) / 2) k)

/-- How the state of an implementation of the interface is read: the
container is the list `view` ordered by `lt`; `inv` holds of the states under
consideration, `rel` relates a state to the states the methods reach from it,
and `pushable` is what `Push` asks of its argument. -/
structure View (σ α : Type) where
  view : σ → List α
  lt : α → α → Bool
  inv : σ → Prop
  rel : σ → σ → Prop
  pushable : σ → α → Prop

/-- What the heap algorithms need from an implementation of the interface:
on the states that satisfy `inv`, the five methods act on the list `view` as
length, comparison, exchange, append and remove-last. -/
structure Lawful {σ : Type} (I : Interface σ α) (M : View σ α) : Prop where
  len : ∀ s, M.inv s → I.Len s = (M.view s).length
  less : ∀ s i j a b, M.inv s → (M.view s)[i]? = some a → (M.view s)[j]? = some b →
    I.Less s i j = some (M.lt a b)
  swap : ∀ s i j a b, M.inv s → (M.view s)[i]? = some a → (M.view s)[j]? = some b →
    ∃ s1, I.Swap s i j = some s1 ∧ M.inv s1 ∧ M.rel s s1 ∧
      M.view s1 = ((M.view s).set i b).set j a
  push : ∀ s x, M.inv s → M.pushable s x →
    ∃ s1, I.Push s x = some s1 ∧ M.inv s1 ∧ M.rel s s1 ∧ M.view s1 = M.view s ++ [x]
  pop : ∀ s t x, M.inv s → M.view s = t ++ [x] →
    ∃ s1, I.Pop s = some (x, s1) ∧ M.inv s1 ∧ M.rel s s1 ∧ M.view s1 = t
  rel_refl : ∀ s, M.rel s s
  rel_trans : ∀ s1 s2 s3, M.rel s1 s2 → M.rel s2 s3 → M.rel s1 s3

/-- A plain slice read as itself. -/
def sliceView (lt : α → α → Bool) : View (List α) α where
  view := id
  lt := lt
  inv := fun _ => True
  rel := fun _ _ => True
  pushable := fun _ _ => True

end heap

namespace huffman

/-- The frequency stored in the node at `p`. -/
def symbols.freq (s : symbols) (p : Nat) : Nat := (s.mem.getD p {}).Freq

/-- The symbol stored in the node at `p`. -/
def symbols.char (s : symbols) (p : Nat) : Nat := (s.mem.getD p {}).Char

/-- The leaf queue satisfies the index invariant: every leaf's `index` field
is its position in the queue. -/
def symbols.IndexOK (s : symbols) : Prop :=
  ∀ p ∈ s.leaves, s.leaves[(s.mem.getD p {}).index]? = some p

/-- The memory `mem1` holds the nodes of `mem`, unchanged except for `index`
fields, each of which is unchanged or below `N`. -/
def Frame (N : Nat) (mem mem1 : Mem) : Prop :=
  mem1.length = mem.length ∧
    ∀ (p : Nat) (a : Node), mem[p]? = some a → ∃ b : Node, mem1[p]? = some b ∧
      b.Parent = a.Parent ∧ b.Left = a.Left ∧ b.Right = a.Right ∧
      b.Freq = a.Freq ∧ b.Char = a.Char ∧ (b.index = a.index ∨ b.index < N)

/-- The memory `mem1` extends `mem`: the nodes of `mem` keep their frequency
and symbol, and their `index` fields are unchanged or below `N`. -/
def Ext (N : Nat) (mem mem1 : Mem) : Prop :=
  mem.length ≤ mem1.length ∧
    ∀ (p : Nat) (a : Node), mem[p]? = some a → ∃ b : Node, mem1[p]? = some b ∧
      b.Freq = a.Freq ∧ b.Char = a.Char ∧ (b.index = a.index ∨ b.index < N)

/-- Every `Parent` pointer is allocated and points to a node allocated later
than its child. -/
def ParentInc (mem : Mem) : Prop :=
  ∀ (p : Nat) (a : Node) (q : Nat), mem[p]? = some a → a.Parent = some q →
    p < q ∧ q < mem.length

/-- How a `NodeHeap` over a memory is read: the list of pointers, ordered by
the frequencies `f`; the pointers are allocated, the memory stores the
frequencies `f`, and the heap has at most `N` entries. -/
def nodeView (f : Nat → Nat) (N : Nat) : heap.View HeapState Nat where
  view := fun s => s.h
  lt := fun p q => decide (f p < f q)
  inv := fun s =>
    (∀ p ∈ s.h, p < s.mem.length) ∧ (∀ (p : Nat) (a : Node), s.mem[p]? = some a → a.Freq = f p) ∧
      s.h.length ≤ N
  rel := fun s s1 => Frame N s.mem s1.mem
  pushable := fun s x => x < s.mem.length ∧ s.h.length < N

/-- The structural invariant of a symbol model: the leaf queue holds at least
two allocated pointers, every leaf's `index` field is below the length of the
queue, and parent pointers point forward. -/
def symbols.Inv (s : symbols) : Prop :=
  (∀ p ∈ s.leaves, p < s.mem.length) ∧ 2 ≤ s.leaves.length ∧
    (∀ p ∈ s.leaves, (s.mem.getD p {}).index < s.leaves.length) ∧ ParentInc s.mem

/-- The symbol model tracks the byte sequence `S`: the leaves carry pairwise
distinct symbols; every leaf is `newChar` or `eof` with frequency 1, or a byte
of `S` with its number of occurrences; every such symbol has a leaf; and
`chars` maps exactly the symbols of the leaves to their leaves. -/
def symbols.Tracks (s : symbols) (S : List Nat) : Prop :=
  (s.leaves.map s.char).Nodup ∧
    (∀ p ∈ s.leaves, (s.char p = newChar ∧ s.freq p = 1) ∨ (s.char p = eof ∧ s.freq p = 1) ∨
      (s.char p ∈ S ∧ s.freq p = S.count (s.char p))) ∧
    (∀ c, c = newChar ∨ c = eof ∨ c ∈ S → ∃ p ∈ s.leaves, s.char p = c) ∧
    (∀ c p, s.chars.lookup c = some p ↔ p ∈ s.leaves ∧ s.char p = c)

/-- The frequencies of the leaf queue, in queue order. -/
def symbols.leafFreqs (s : symbols) : List Nat :=
  s.leaves.map (fun p => (s.mem.getD p {}).Freq)

/-- The `index` fields of the nodes of the leaf queue, in queue order. -/
def symbols.leafIndices (s : symbols) : List Nat :=
  s.leaves.map (fun p => (s.mem.getD p {}).index)

/-- The symbol and the frequency of every leaf of the queue, in queue order. -/
def symbols.leafTable (s : symbols) : List (Nat × Nat) :=
  s.leaves.map (fun p => ((s.mem.getD p {}).Char, (s.mem.getD p {}).Freq))

end huffman

/-! ## Further parts of the packages and notions for the later statements -/

namespace bits

/-- The loop `for n = range p { p[n], err = r.readUnalignedByte(); ... }` of
the unaligned path of `Read`.  The first argument is the number of positions
of `p` still to be visited, `i` is the position visited next and `n` the value
the loop variable `n` holds.  On an error the source returns `0, err`, after
the assignment to `p[n]` of the zero byte that comes with the error. -/
def readUnalignedLoop : Nat → Nat → Nat → List Nat → Reader →
    Except Error Nat × List Nat × Reader
  | 0, _, n, p, r => (.ok n, p, r)
  | k + 1, i, _, p, r =>
    match r.readUnalignedByte with
    | (.error e, r1) => (.error e, p.set i 0, r1)
    | (.ok b, r1) => readUnalignedLoop k (i + 1) i (p.set i b) r1

/-- `Reader.Read(p)`: the result `n, err`, the buffer `p` after the call and
the reader.  On the aligned path the call is handed to the byte source, which
here delivers as many bytes as `p` has room for while it has them and reports
`io.EOF` when it has none; a `bufio.Reader` may deliver fewer bytes in one
call, so on that path only the unaligned case is stated about. -/
def Reader.Read (r : Reader) (p : List Nat) : Except Error Nat × List Nat × Reader :=
  if r.count = 0 then
    if p.length = 0 then (.ok 0, p, r)
    else
      match r.src with
      | [] => (.error .EOF, p, r)
      | _ :: _ =>
        let k := min p.length r.src.length
        (.ok k, r.src.take k ++ p.drop k, { r with src := r.src.drop k })
  else readUnalignedLoop p.length 0 0 p r

end bits

namespace bits

/-- The bits a reader has still to deliver: the `count` pending bits held in
the low end of `buf`, then the eight bits of every byte left in the source. -/
def Reader.pending (r : Reader) : List Bool :=
  lowBits r.buf r.count ++ r.src.flatMap (fun b => lowBits b 8)

/-- The states a reader can be in: fewer than 8 pending bits, and the source
holds bytes. -/
def Reader.Valid (r : Reader) : Prop :=
  r.count < 8 ∧ ∀ x ∈ r.src, x < 256

end bits

namespace huffman

/-- A binary tree of node pointers: a leaf, or an internal node with its left
and right subtree. -/
inductive Tree where
  | leaf (p : Nat) : Tree
  | node (p : Nat) (l r : Tree) : Tree
deriving DecidableEq, Repr

/-- The pointer at the root of the tree. -/
def Tree.ptr : Tree → Nat
  | .leaf p => p
  | .node p _ _ => p

/-- The leaf pointers, from left to right. -/
def Tree.leaves : Tree → List Nat
  | .leaf p => [p]
  | .node _ l r => l.leaves ++ r.leaves

/-- The pointers of all nodes of the tree. -/
def Tree.nodes : Tree → List Nat
  | .leaf p => [p]
  | .node p l r => p :: (l.nodes ++ r.nodes)

/-- The subtree reached from the root by the turns `π` (`true` is right). -/
def Tree.sub : Tree → List Bool → Option Tree
  | t, [] => some t
  | .leaf _, _ :: _ => none
  | .node _ l r, b :: π => if b then r.sub π else l.sub π

/-- The memory holds the tree: a leaf has neither child; an internal node has
the roots of its subtrees as `Left` and `Right`, its `Freq` is the sum of
theirs, and their `Parent` is the node. -/
def Tree.Built (mem : Mem) : Tree → Prop
  | .leaf p => ∃ a : Node, mem[p]? = some a ∧ a.Left = none ∧ a.Right = none
  | .node p l r => ∃ a la ra : Node, mem[p]? = some a ∧ mem[l.ptr]? = some la ∧
      mem[r.ptr]? = some ra ∧ a.Left = some l.ptr ∧ a.Right = some r.ptr ∧
      a.Freq = la.Freq + ra.Freq ∧ la.Parent = some p ∧ ra.Parent = some p ∧
      Tree.Built mem l ∧ Tree.Built mem r

/-- Follow the turns `π` from the node `p` through the `Left` and `Right`
pointers (`true` is `Right`). -/
def descend (mem : Mem) : Nat → List Bool → Option Nat
  | p, [] => some p
  | p, b :: π => do
    let nd ← mem[p]?
    let q ← if b then nd.Right else nd.Left
    descend mem q π

/-- The built-tree invariant of a symbol model: `root` is the root of a strict
binary tree held in memory whose nodes are pairwise distinct, whose leaves are
the entries of the leaf queue, and whose root has no parent; every leaf
frequency is positive. -/
def symbols.TreeOK (s : symbols) : Prop :=
  ∃ t : Tree, s.root = some t.ptr ∧ t.Built s.mem ∧ t.nodes.Nodup ∧ t.leaves.Perm s.leaves ∧
    (∃ a : Node, s.mem[t.ptr]? = some a ∧ a.Parent = none) ∧ ∀ p ∈ s.leaves, 0 < s.freq p

/-- The symbol models a codec can be in: the result of `newSymbols`, and the
result of `insert` of a symbol or of `update` of a leaf on such a model. -/
inductive symbols.Reachable : symbols → Prop where
  | init (s : symbols) : newSymbols = some s → symbols.Reachable s
  | insert (s : symbols) (c : Nat) (s1 : symbols) :
      symbols.Reachable s → s.insert c = some s1 → symbols.Reachable s1
  | update (s : symbols) (n : Nat) (s1 : symbols) :
      symbols.Reachable s → n ∈ s.leaves → s.update n = some s1 → symbols.Reachable s1

end huffman

namespace heap

variable {σ α : Type}

/-- The map `φ` of container states is respected by the five methods of the
interface: lengths and comparisons agree, and exchange, append and remove-last
commute with `φ`. -/
structure Sim (I : Interface σ α) (φ : σ → σ) : Prop where
  len : ∀ s, I.Len (φ s) = I.Len s
  less : ∀ s i j, I.Less (φ s) i j = I.Less s i j
  swap : ∀ s i j, I.Swap (φ s) i j = (I.Swap s i j).map φ
  push : ∀ s x, I.Push (φ s) x = (I.Push s x).map φ
  pop : ∀ s, I.Pop (φ s) = (I.Pop s).map (fun r => (r.1, φ r.2))

end heap

namespace huffman

/-- The node with its symbol erased. -/
def Node.noChar (nd : Node) : Node := { nd with Char := 0 }

/-- The memory with every symbol erased: the frequencies, the pointers and the
`index` fields are left. -/
def eraseMem (mem : Mem) : Mem := mem.map Node.noChar

/-- The scratch heap over the memory with every symbol erased. -/
def HeapState.shape (s : HeapState) : HeapState := { mem := eraseMem s.mem, h := s.h }

/-- The shape of a symbol model: the symbols of the nodes and the map `chars`
are erased. -/
def symbols.shape (s : symbols) : symbols :=
  { mem := eraseMem s.mem, root := s.root, leaves := s.leaves, chars := [] }

end huffman

namespace huffman

/-- What Huffman merging means for the leaves, read off the built tree.
Pointers are allocated in the order of creation, so a leaf `x` whose parent
`q` was allocated after the internal node `p` of the tree was still in the
scratch queue when `p` was created from `l` and `r`: neither of these may then
have a frequency greater than that of `x`. -/
def symbols.MergesSmallest (s : symbols) : Prop :=
  ∀ (root p l r x q : Nat) (π : List Bool) (a b : Node),
    s.root = some root → descend s.mem root π = some p → s.mem[p]? = some a →
    a.Left = some l → a.Right = some r → x ∈ s.leaves → s.mem[x]? = some b →
    b.Parent = some q → p < q → s.freq l ≤ s.freq x ∧ s.freq r ≤ s.freq x

end huffman

namespace bits

/-- Successive `ReadOneBit` calls, `k` of them, with the results assembled
most significant bit first onto `acc`; the first error ends the reading. -/
def readBitsOneByOne : Nat → Reader → Nat → Except Error Nat × Reader
  | 0, r, acc => (.ok acc, r)
  | k + 1, r, acc =>
    match r.ReadOneBit with
    | (.error e, r1) => (.error e, r1)
    | (.ok b, r1) => readBitsOneByOne k r1 (2 * acc + (if b then 1 else 0))

/-- A byte read as eight successive `ReadOneBit` calls. -/
def Reader.readByteBitwise (r : Reader) : Except Error Nat × Reader :=
  readBitsOneByOne 8 r 0

end bits

/-! ## Theorems about package `bits` -/

namespace bits

theorem lowBits_length (r n : Nat) : (lowBits r n).length = n := by
  simp [lowBits]

theorem lowBits_getElem (r n i : Nat) (h : i < (lowBits r n).length) :
    (lowBits r n)[i] = r.testBit (n - 1 - i) := by
  simp [lowBits]

theorem lowBits_congr {r r1 n : Nat} (h : ∀ i, i < n → r.testBit i = r1.testBit i) :
    lowBits r n = lowBits r1 n := by
  apply List.ext_getElem
  · simp [lowBits_length]
  · intro i h1 h2
    rw [lowBits_getElem, lowBits_getElem]
    rw [lowBits_length] at h1
    exact h _ (by omega)

theorem lowBits_add (r a b : Nat) :
    lowBits r (a + b) = lowBits (r >>> b) a ++ lowBits r b := by
  apply List.ext_getElem
  · simp [lowBits_length]
  · intro i h1 h2
    rw [lowBits_length] at h1
    rw [lowBits_getElem]
    by_cases hi : i < a
    · rw [List.getElem_append_left (by simpa [lowBits_length] using hi), lowBits_getElem,
        Nat.testBit_shiftRight]
      congr 1
      omega
    · rw [List.getElem_append_right (by simpa [lowBits_length] using hi), lowBits_getElem]
      simp only [lowBits_length]
      congr 1
      omega

theorem take_lowBits (r m c : Nat) (h : c ≤ m) :
    (lowBits r m).take c = lowBits (r >>> (m - c)) c := by
  have h1 : lowBits r m = lowBits (r >>> (m - c)) c ++ lowBits r (m - c) := by
    have := lowBits_add r c (m - c)
    rwa [show c + (m - c) = m by omega] at this
  rw [h1, List.take_left' (lowBits_length _ _)]

theorem lowBits_mod (r n : Nat) : lowBits (r % 2 ^ n) n = lowBits r n := by
  apply lowBits_congr
  intro i hi
  simp [Nat.testBit_mod_two_pow, hi]

theorem testBit_eq_false_of_mod_eq_zero {b m j : Nat} (h : b % 2 ^ m = 0) (hj : j < m) :
    b.testBit j = false := by
  have := Nat.testBit_mod_two_pow b m j
  rw [h] at this
  simp [hj] at this
  simpa using this.symm

/-- Filling the free low bits of a buffer byte. -/
theorem lowBits_or (buf y c : Nat) (hc : c ≤ 8) (hb : buf % 2 ^ (8 - c) = 0)
    (hy : y < 2 ^ (8 - c)) :
    lowBits (buf ||| y) 8 = (lowBits buf 8).take c ++ lowBits y (8 - c) := by
  rw [take_lowBits _ _ _ hc]
  have h := lowBits_add (buf ||| y) c (8 - c)
  rw [show c + (8 - c) = 8 by omega] at h
  rw [h]
  congr 1
  · apply lowBits_congr
    intro i _
    simp only [Nat.testBit_shiftRight, Nat.testBit_or]
    rw [Nat.testBit_lt_two_pow (x := y)]
    · simp
    · exact Nat.lt_of_lt_of_le hy (Nat.pow_le_pow_right (by decide) (by omega))
  · apply lowBits_congr
    intro i hi
    simp only [Nat.testBit_or]
    rw [testBit_eq_false_of_mod_eq_zero hb hi]
    simp

end bits

namespace bits

theorem byte_of_lt {x : Nat} (h : x < 256) : byte x = x := Nat.mod_eq_of_lt h

theorem sub8_of_le {a b : Nat} (hb : b ≤ a) (ha : a < 256) : sub8 a b = a - b := by
  unfold sub8
  rw [Nat.mod_eq_of_lt (by omega : b < 256)]
  omega

theorem mask64 (n : Nat) (hn : n ≤ 64) : sub64 (u64 (1 <<< n)) 1 = 2 ^ n - 1 := by
  unfold sub64 u64
  rw [Nat.one_shiftLeft]
  rcases Nat.lt_or_ge n 64 with h | h
  · have h1 : 2 ^ n < 2 ^ 64 := Nat.pow_lt_pow_right (by decide) h
    have h2 : 0 < 2 ^ n := Nat.two_pow_pos _
    rw [Nat.mod_eq_of_lt h1]
    omega
  · have : n = 64 := by omega
    subst this
    decide

theorem mask8 (n : Nat) (hn : n < 8) : sub8 (byte (1 <<< n)) 1 = 2 ^ n - 1 := by
  have h : n = 0 ∨ n = 1 ∨ n = 2 ∨ n = 3 ∨ n = 4 ∨ n = 5 ∨ n = 6 ∨ n = 7 := by omega
  rcases h with h | h | h | h | h | h | h | h <;> subst h <;> decide

theorem flatMap_snoc (out : List Nat) (b : Nat) :
    (out ++ [b]).flatMap (fun b => lowBits b 8) =
      out.flatMap (fun b => lowBits b 8) ++ lowBits b 8 := by
  simp [List.flatMap_append]

theorem lowBits_byte (y : Nat) : lowBits (byte y) 8 = lowBits y 8 := by
  unfold byte
  exact lowBits_mod y 8

theorem writeBytesLoop_spec (x : Nat) :
    ∀ (fuel n : Nat) (out : List Nat), n / 8 = fuel → n < 256 →
      (writeBytesLoop fuel out x n).2 = n % 8 ∧
      (writeBytesLoop fuel out x n).1.flatMap (fun b => lowBits b 8)
          ++ lowBits x (n % 8) =
        out.flatMap (fun b => lowBits b 8) ++ lowBits x n := by
  intro fuel
  induction fuel with
  | zero =>
    intro n out h1 _
    have h2 : n % 8 = n := by omega
    simp [writeBytesLoop, h2]
  | succ fuel ih =>
    intro n out h1 h2
    have h3 : n ≥ 8 := by omega
    have h4 : sub8 n 8 = n - 8 := sub8_of_le h3 h2
    simp only [writeBytesLoop, h3, if_true, h4]
    have h5 := ih (n - 8) (out ++ [byte (x >>> (n - 8))]) (by omega) (by omega)
    have h6 : (n - 8) % 8 = n % 8 := by omega
    rw [h6] at h5
    refine ⟨h5.1, ?_⟩
    rw [h5.2, flatMap_snoc, lowBits_byte, List.append_assoc]
    congr 1
    have := lowBits_add x 8 (n - 8)
    rw [show 8 + (n - 8) = n by omega] at this
    exact this.symm

theorem shiftRight_lt {x n k : Nat} (hx : x < 2 ^ n) (hk : k ≤ n) : x >>> k < 2 ^ (n - k) := by
  rw [Nat.shiftRight_eq_div_pow]
  apply Nat.div_lt_of_lt_mul
  rw [← Nat.pow_add]
  rwa [show k + (n - k) = n by omega]

theorem shiftLeft_lt {x n k : Nat} (hx : x < 2 ^ n) : x <<< k < 2 ^ (n + k) := by
  rw [Nat.shiftLeft_eq, Nat.pow_add]
  exact Nat.mul_lt_mul_of_pos_right hx (Nat.two_pow_pos _)

theorem shiftLeft_mod {x k : Nat} : (x <<< k) % 2 ^ k = 0 := by
  rw [Nat.shiftLeft_eq]
  exact Nat.mul_mod_left _ _

theorem pow_le_256 {m : Nat} (h : m ≤ 8) : 2 ^ m ≤ 256 := by
  have : 2 ^ m ≤ 2 ^ 8 := Nat.pow_le_pow_right (by decide) h
  simpa using this

/-- `WriteBitsUnsafe` on a value that fits `n` bits appends these `n` bits
(`n ≤ 248`, so that `count + n` does not wrap in `uint8`). -/
theorem WriteBitsUnsafe_emitted (w : Writer) (x n : Nat) (hw : w.Valid)
    (hn : n ≤ 248) (hx : x < 2 ^ n) :
    (w.WriteBitsUnsafe x n).emitted = w.emitted ++ lowBits x n ∧
      (w.WriteBitsUnsafe x n).Valid ∧
      (w.WriteBitsUnsafe x n).count = (w.count + n) % 8 := by
  obtain ⟨hc, hb, hz⟩ := hw
  have htc : byte (w.count + n) = w.count + n := byte_of_lt (by omega)
  unfold Writer.WriteBitsUnsafe
  simp only [htc]
  by_cases h1 : w.count + n < 8
  · -- the bits fit the buffer
    simp only [h1, if_true]
    have hk : sub8 8 (w.count + n) = 8 - (w.count + n) := sub8_of_le (by omega) (by decide)
    have hx8 : x < 256 :=
      Nat.lt_of_lt_of_le hx (pow_le_256 (by omega))
    have hy : x <<< (8 - (w.count + n)) < 2 ^ (8 - w.count) := by
      have := shiftLeft_lt (k := 8 - (w.count + n)) hx
      rwa [show n + (8 - (w.count + n)) = 8 - w.count by omega] at this
    have hy8 : x <<< (8 - (w.count + n)) < 256 :=
      Nat.lt_of_lt_of_le hy (pow_le_256 (by omega))
    rw [hk, byte_of_lt hx8, byte_of_lt hy8]
    refine ⟨?_, ⟨?_, ?_, ?_⟩, ?_⟩
    · simp only [Writer.emitted, List.append_assoc]
      congr 1
      rw [lowBits_or w.buf _ w.count (by omega) hz hy]
      rw [List.take_append_eq_append_take]
      have hl : ((lowBits w.buf 8).take w.count).length = w.count := by
        rw [List.length_take, lowBits_length]; omega
      rw [hl, List.take_of_length_le (by omega), show w.count + n - w.count = n by omega]
      congr 1
      rw [take_lowBits _ _ _ (by omega), show 8 - w.count - n = 8 - (w.count + n) by omega]
      rw [Nat.shiftLeft_shiftRight]
    · simpa using h1
    · show w.buf ||| x <<< (8 - (w.count + n)) < 256
      exact Nat.or_lt_two_pow (n := 8) hb hy8
    · show (w.buf ||| x <<< (8 - (w.count + n))) % 2 ^ (8 - (w.count + n)) = 0
      apply Nat.eq_of_testBit_eq
      intro i
      simp only [Nat.testBit_mod_two_pow, Nat.testBit_or, Nat.zero_testBit]
      by_cases hi : i < 8 - (w.count + n)
      · rw [testBit_eq_false_of_mod_eq_zero hz (by omega)]
        rw [testBit_eq_false_of_mod_eq_zero shiftLeft_mod hi]
        simp
      · simp [hi]
    · show w.count + n = (w.count + n) % 8
      omega
  · simp only [h1, if_false]
    by_cases h2 : w.count + n > 8
    · -- the bits span several bytes
      simp only [h2, if_true]
      have hfree : sub8 8 w.count = 8 - w.count := sub8_of_le (by omega) (by decide)
      have hn1 : sub8 n (8 - w.count) = n - (8 - w.count) := sub8_of_le (by omega) (by omega)
      rw [hfree, hn1]
      have hloop := writeBytesLoop_spec x ((n - (8 - w.count)) / 8) (n - (8 - w.count))
        (w.out ++ [w.buf ||| byte (x >>> (n - (8 - w.count)))]) rfl (by omega)
      generalize writeBytesLoop ((n - (8 - w.count)) / 8)
        (w.out ++ [w.buf ||| byte (x >>> (n - (8 - w.count)))]) x (n - (8 - w.count)) = res at hloop
      obtain ⟨hl1, hl2⟩ := hloop
      have hy : x >>> (n - (8 - w.count)) < 2 ^ (8 - w.count) := by
        have := shiftRight_lt (k := n - (8 - w.count)) hx (by omega)
        rwa [show n - (n - (8 - w.count)) = 8 - w.count by omega] at this
      have hy8 : x >>> (n - (8 - w.count)) < 256 :=
        Nat.lt_of_lt_of_le hy (pow_le_256 (by omega))
      rw [byte_of_lt hy8] at hl2
      have hsplit : lowBits x n =
          lowBits (x >>> (n - (8 - w.count))) (8 - w.count) ++ lowBits x (n - (8 - w.count)) := by
        have := lowBits_add x (8 - w.count) (n - (8 - w.count))
        rwa [show 8 - w.count + (n - (8 - w.count)) = n by omega] at this
      have hmain : res.1.flatMap (fun b => lowBits b 8) ++ lowBits x (res.2) =
          w.emitted ++ lowBits x n := by
        rw [hl1, hl2, flatMap_snoc, lowBits_or w.buf _ w.count (by omega) hz hy, hsplit]
        simp [Writer.emitted, List.append_assoc]
      have hr8 : res.2 < 8 := by rw [hl1]; omega
      by_cases h3 : res.2 > 0
      · simp only [h3, if_true]
        have hm := mask8 res.2 hr8
        have hk : sub8 8 res.2 = 8 - res.2 := sub8_of_le (by omega) (by decide)
        rw [hm, hk, Nat.and_pow_two_sub_one_eq_mod]
        have hlt : byte x % 2 ^ res.2 < 2 ^ res.2 := Nat.mod_lt _ (Nat.two_pow_pos _)
        have hs8 : (byte x % 2 ^ res.2) <<< (8 - res.2) < 256 := by
          have := shiftLeft_lt (k := 8 - res.2) hlt
          rw [show res.2 + (8 - res.2) = 8 by omega] at this
          simpa using this
        rw [byte_of_lt hs8]
        refine ⟨?_, ⟨hr8, hs8, shiftLeft_mod⟩, ?_⟩
        · rw [← hmain]
          simp only [Writer.emitted]
          congr 1
          rw [take_lowBits _ _ _ (by omega), Nat.shiftLeft_shiftRight, lowBits_mod]
          apply lowBits_congr
          intro i hi
          unfold byte
          rw [show (256 : Nat) = 2 ^ 8 by decide, Nat.testBit_mod_two_pow]
          simp [show i < 8 by omega]
        · show res.2 = (w.count + n) % 8
          rw [hl1]; omega
      · simp only [h3, if_false]
        have h0 : res.2 = 0 := by omega
        refine ⟨?_, ⟨by simp, by simp, by simp⟩, ?_⟩
        · rw [← hmain, h0]
          simp [Writer.emitted, lowBits]
        · show 0 = (w.count + n) % 8
          rw [← h0, hl1]; omega
    · -- the bits fill the buffer exactly
      simp only [h2, if_false]
      have h8 : w.count + n = 8 := by omega
      have hy : x < 2 ^ (8 - w.count) := by
        rwa [show 8 - w.count = n by omega]
      have hx8 : x < 256 := Nat.lt_of_lt_of_le hy (pow_le_256 (by omega))
      rw [byte_of_lt hx8]
      refine ⟨?_, ⟨by simp, by simp, by simp⟩, ?_⟩
      · simp only [Writer.emitted, flatMap_snoc]
        rw [lowBits_or w.buf _ w.count (by omega) hz hy, show 8 - w.count = n by omega]
        simp [lowBits]
      · show 0 = (w.count + n) % 8
        omega

end bits

namespace bits

/-- A fresh writer is in a valid state. -/
theorem NewWriter_valid : NewWriter.Valid := by
  simp [Writer.Valid, NewWriter]

/-- C3, evaluated on the code: a fresh writer given `WriteBits(1, 1)` and closed
produces the single byte `0x80`, and `ReadBits(1)` on a fresh reader over it
returns `0` with a nil error instead of the written `1`, leaving the pending
bit count at `0`: the bits of the last, partial byte are not merged into the
result when the byte was read successfully. -/
theorem ReadBits_loses_partial_byte :
    (NewWriter.WriteBits 1 1).Close.out = [128] ∧
      (NewReader (NewWriter.WriteBits 1 1).Close.out).ReadBits 1 =
        (.ok 0, { src := [], buf := 128, count := 0 }) :=
  ⟨by decide, rfl⟩

/-- C4: for every valid writer state (at most 7 pending bits, held in the top
of the buffer byte), every `r` and every `n ≤ 64`, `WriteBits(r, n)` leaves an
emitted bit sequence equal to the previous one followed by the bits `n-1`
down to `0` of `r`, most significant first; the new state is valid with
`(count + n) mod 8` pending bits, and the bits of `r` at positions `≥ n` are
ignored. -/
theorem WriteBits_appends_low_bits (w : Writer) (r n : Nat) (hw : w.Valid) (hn : n ≤ 64) :
    (w.WriteBits r n).emitted = w.emitted ++ lowBits r n ∧
      (w.WriteBits r n).Valid ∧
      (w.WriteBits r n).count = (w.count + n) % 8 ∧
      w.WriteBits r n = w.WriteBits (r % 2 ^ n) n := by
  have hmask : ∀ r : Nat, w.WriteBits r n = w.WriteBitsUnsafe (r % 2 ^ n) n := by
    intro r
    unfold Writer.WriteBits
    rw [mask64 n hn, Nat.and_pow_two_sub_one_eq_mod]
  have hlt : r % 2 ^ n < 2 ^ n := Nat.mod_lt _ (Nat.two_pow_pos _)
  obtain ⟨h1, h2, h3⟩ := WriteBitsUnsafe_emitted w (r % 2 ^ n) n hw (by omega) hlt
  rw [hmask r]
  refine ⟨?_, h2, h3, ?_⟩
  · rw [h1, lowBits_mod]
  · rw [hmask (r % 2 ^ n), Nat.mod_mod]

/-- For a width beyond 64 the mask of `WriteBits` is all ones: the 64 bits of
`r` are written below `n - 64` zero bits. -/
theorem WriteBits_wide (w : Writer) (r n : Nat) (hw : w.Valid) (h64 : 64 ≤ n)
    (hn : n ≤ 248) :
    (w.WriteBits r n).emitted = w.emitted ++ lowBits (r % 2 ^ 64) n := by
  have hmask : sub64 (u64 (1 <<< n)) 1 = 2 ^ 64 - 1 := by
    unfold sub64 u64
    rw [Nat.one_shiftLeft]
    have h0 : 2 ^ n % 2 ^ 64 = 0 := by
      have : 2 ^ n = 2 ^ 64 * 2 ^ (n - 64) := by
        rw [← Nat.pow_add]; congr 1; omega
      rw [this]
      exact Nat.mul_mod_right _ _
    rw [h0]
    decide
  have hlt : r % 2 ^ 64 < 2 ^ n :=
    Nat.lt_of_lt_of_le (Nat.mod_lt _ (Nat.two_pow_pos _)) (Nat.pow_le_pow_right (by decide) h64)
  unfold Writer.WriteBits
  rw [hmask, Nat.and_pow_two_sub_one_eq_mod]
  exact (WriteBitsUnsafe_emitted w (r % 2 ^ 64) n hw hn hlt).1

/-- C4 at a concrete input: the example of the source, `WriteBits(0x1234, 8)`
on a fresh writer. -/
theorem WriteBits_appends_low_bits_example :
    (NewWriter.WriteBits 0x1234 8).emitted = NewWriter.emitted ++ lowBits 0x1234 8 ∧
      (NewWriter.WriteBits 0x1234 8).Valid ∧
      (NewWriter.WriteBits 0x1234 8).count = (NewWriter.count + 8) % 8 ∧
      NewWriter.WriteBits 0x1234 8 = NewWriter.WriteBits (0x1234 % 2 ^ 8) 8 :=
  WriteBits_appends_low_bits NewWriter 0x1234 8 NewWriter_valid (by decide)

end bits

/-! ## Theorems about package `heap` -/

namespace heap

variable {σ α : Type}

/-! ### Exchanging two positions of a list -/

theorem getElem?_swap (v : List α) (i j k : Nat) (a b : α)
    (hi : v[i]? = some a) (hj : v[j]? = some b) :
    ((v.set i b).set j a)[k]? =
      if k = j then some a else if k = i then some b else v[k]? := by
  have hil : i < v.length := (List.getElem?_eq_some.1 hi).1
  have hjl : j < v.length := (List.getElem?_eq_some.1 hj).1
  by_cases h1 : k = j
  · subst h1
    simp [hjl]
  · rw [List.getElem?_set_ne (Ne.symm h1)]
    by_cases h2 : k = i
    · subst h2
      simp [h1, hil]
    · rw [List.getElem?_set_ne (Ne.symm h2)]
      simp [h1, h2]

theorem length_swap (v : List α) (i j : Nat) (a b : α) :
    ((v.set i b).set j a).length = v.length := by
  simp

theorem cons_set_perm (x b : α) : ∀ (t : List α) (j : Nat), t[j]? = some b →
    (b :: t.set j x).Perm (x :: t)
  | [], _, h => by simp at h
  | y :: t, 0, h => by
    simp at h
    subst h
    exact List.Perm.swap _ _ _
  | y :: t, j + 1, h => by
    simp at h
    have ih := cons_set_perm x b t j h
    simp only [List.set_cons_succ]
    exact ((List.Perm.swap y b _).trans (ih.cons y)).trans (List.Perm.swap x y _)

theorem swap_perm_lt : ∀ (v : List α) (i j : Nat) (a b : α), i < j →
    v[i]? = some a → v[j]? = some b → ((v.set i b).set j a).Perm v
  | [], _, _, _, _, _, h, _ => by simp at h
  | x :: t, 0, j + 1, a, b, _, hi, hj => by
    simp at hi hj
    subst hi
    simp only [List.set_cons_zero, List.set_cons_succ]
    exact cons_set_perm _ _ t j hj
  | x :: t, i + 1, j + 1, a, b, hlt, hi, hj => by
    simp at hi hj
    simp only [List.set_cons_succ]
    exact (swap_perm_lt t i j a b (by omega) hi hj).cons x

theorem swap_perm (v : List α) (i j : Nat) (a b : α)
    (hi : v[i]? = some a) (hj : v[j]? = some b) : ((v.set i b).set j a).Perm v := by
  rcases Nat.lt_trichotomy i j with h | h | h
  · exact swap_perm_lt v i j a b h hi hj
  · subst h
    have hab : a = b := by rw [hi] at hj; exact Option.some.inj hj
    subst hab
    have : (v.set i a).set i a = v := by
      apply List.ext_getElem?
      intro k
      rw [getElem?_swap v i i k a a hi hi]
      by_cases hk : k = i
      · subst hk; simp [hi]
      · simp [hk]
    rw [this]
  · rw [List.set_comm b a v (by omega : i ≠ j)]
    exact swap_perm_lt v j i b a h hj hi

theorem getElem?_some_of_lt (v : List α) (k : Nat) (h : k < v.length) :
    ∃ a, v[k]? = some a := ⟨v[k], by simp [h]⟩

theorem isHeap_iff (lt : α → α → Bool) (v : List α) :
    IsHeap lt v ↔ HeapUpTo lt v v.length := by
  constructor
  · intro h k hk _ a b ha hb
    exact h k b a hk hb ha
  · intro h i a b hi ha hb
    have hl : i < v.length := (List.getElem?_eq_some.1 ha).1
    exact h i hi hl b a hb ha

theorem leAt_of_vals {lt : α → α → Bool} {v : List α} {p k : Nat} {x y : α}
    (hp : v[p]? = some x) (hk : v[k]? = some y) (h : lt y x = false) : LeAt lt v p k := by
  intro a b ha hb
  rw [hp] at ha
  rw [hk] at hb
  cases ha
  cases hb
  exact h

/-- The choice of the smaller child in `down`. -/
theorem child_choice {I : Interface σ α} {M : View σ α} (L : Lawful I M) (s : σ) (i n : Nat)
    (hinv : M.inv s) (hn : n ≤ (M.view s).length) (h1 : 2 * i + 1 < n) :
    ∃ c j aj,
      (if 2 * i + 1 + 1 < n then I.Less s (2 * i + 1 + 1) (2 * i + 1) else some false) = some c ∧
      j = (if c = true then 2 * i + 1 + 1 else 2 * i + 1) ∧
      j < n ∧ i < j ∧ (j - 1) / 2 = i ∧ (M.view s)[j]? = some aj ∧
      (TotalPreorder M.lt → ∀ k ak, 0 < k → k < n → (k - 1) / 2 = i →
        (M.view s)[k]? = some ak → M.lt ak aj = false) := by
  obtain ⟨a1, ha1⟩ := getElem?_some_of_lt (M.view s) (2 * i + 1) (by omega)
  by_cases h2 : 2 * i + 1 + 1 < n
  · obtain ⟨a2, ha2⟩ := getElem?_some_of_lt (M.view s) (2 * i + 1 + 1) (by omega)
    have hless := L.less s (2 * i + 1 + 1) (2 * i + 1) a2 a1 hinv ha2 ha1
    cases hc : M.lt a2 a1
    · refine ⟨false, 2 * i + 1, a1, ?_, by simp, h1, by omega, by omega, ha1, ?_⟩
      · simp [h2, hless, hc]
      · intro hto k ak hk0 hkn hpar hk
        have hk12 : k = 2 * i + 1 ∨ k = 2 * i + 1 + 1 := by omega
        rcases hk12 with h | h
        · subst h
          rw [ha1] at hk; cases hk
          rcases hto.total a1 a1 with h | h <;> exact h
        · subst h
          rw [ha2] at hk; cases hk
          exact hc
    · refine ⟨true, 2 * i + 1 + 1, a2, ?_, by simp, h2, by omega, by omega, ha2, ?_⟩
      · simp [h2, hless, hc]
      · intro hto k ak hk0 hkn hpar hk
        have hk12 : k = 2 * i + 1 ∨ k = 2 * i + 1 + 1 := by omega
        rcases hk12 with h | h
        · subst h
          rw [ha1] at hk; cases hk
          rcases hto.total a1 a2 with h | h
          · exact h
          · rw [hc] at h; cases h
        · subst h
          rw [ha2] at hk; cases hk
          rcases hto.total a2 a2 with h | h <;> exact h
  · refine ⟨false, 2 * i + 1, a1, ?_, by simp, h1, by omega, by omega, ha1, ?_⟩
    · simp [h2]
    · intro hto k ak hk0 hkn hpar hk
      have hk1 : k = 2 * i + 1 := by omega
      subst hk1
      rw [ha1] at hk; cases hk
      rcases hto.total a1 a1 with h | h <;> exact h

theorem downLoop_spec {I : Interface σ α} {M : View σ α} (L : Lawful I M) (n : Nat) :
    ∀ (fuel : Nat) (s : σ) (i : Nat), M.inv s → n ≤ (M.view s).length →
      0 < fuel → n ≤ fuel + i →
      ∃ s1 i1, downLoop I n fuel s i = some (s1, i1) ∧ M.inv s1 ∧ M.rel s s1 ∧
        (M.view s1).Perm (M.view s) ∧
        (∀ k, n ≤ k → (M.view s1)[k]? = (M.view s)[k]?) ∧
        (∀ k, k < i → (M.view s1)[k]? = (M.view s)[k]?) ∧
        i ≤ i1 ∧ (i1 = i → s1 = s) ∧
        (TotalPreorder M.lt → FixInv M.lt (M.view s) n i →
          (i1 = i ∧ ChildrenOK M.lt (M.view s) n i) ∨
            (i < i1 ∧ HeapUpTo M.lt (M.view s1) n)) := by
  intro fuel
  induction fuel with
  | zero => intro s i _ _ h; omega
  | succ fuel ih =>
    intro s i hinv hn _ hfuel
    unfold downLoop
    by_cases h1 : 2 * i + 1 ≥ n
    · simp only [h1, if_true]
      refine ⟨s, i, rfl, hinv, L.rel_refl s, List.Perm.refl _, fun _ _ => rfl,
        fun _ _ => rfl, Nat.le_refl _, fun _ => rfl, ?_⟩
      intro _ _
      left
      refine ⟨rfl, ?_⟩
      intro k hk0 hkn hpar
      omega
    · simp only [h1, if_false]
      have h1 : 2 * i + 1 < n := by omega
      obtain ⟨c, j, aj, hc, hj, hjn, hij, hpar, haj, hsib⟩ := child_choice L s i n hinv hn h1
      obtain ⟨ai, hai⟩ := getElem?_some_of_lt (M.view s) i (by omega)
      have hless := L.less s j i aj ai hinv haj hai
      rw [hc]
      simp only [Option.bind_eq_bind, Option.some_bind]
      rw [← hj, hless]
      simp only [Option.some_bind]
      cases hlt : M.lt aj ai
      · -- no child is smaller: stop
        simp only [Bool.not_false, if_true]
        refine ⟨s, i, rfl, hinv, L.rel_refl s, List.Perm.refl _, fun _ _ => rfl,
          fun _ _ => rfl, Nat.le_refl _, fun _ => rfl, ?_⟩
        intro hto _
        left
        refine ⟨rfl, ?_⟩
        intro k hk0 hkn hkpar a b ha hb
        rw [hai] at ha
        cases ha
        exact hto.trans _ _ _ hlt (hsib hto k b hk0 hkn hkpar hb)
      · -- exchange with the smaller child and continue from there
        simp only [Bool.not_true, Bool.false_eq_true, if_false]
        obtain ⟨s1, hswap, hinv1, hrel1, hview1⟩ := L.swap s i j ai aj hinv hai haj
        rw [hswap]
        simp only [Option.some_bind]
        have hlen1 : (M.view s1).length = (M.view s).length := by
          rw [hview1]; simp
        have hget : ∀ k, (M.view s1)[k]? =
            if k = j then some ai else if k = i then some aj else (M.view s)[k]? := by
          intro k
          rw [hview1]
          exact getElem?_swap (M.view s) i j k ai aj hai haj
        have hfuel0 : 0 < fuel := by omega
        obtain ⟨s2, i2, hrun, hinv2, hrel2, hperm2, hfr2, hlow2, hji2, _, hheap2⟩ :=
          ih s1 j hinv1 (by omega) hfuel0 (by omega)
        refine ⟨s2, i2, hrun, hinv2, L.rel_trans _ _ _ hrel1 hrel2, ?_, ?_, ?_, by omega,
          fun h => by omega, ?_⟩
        · refine hperm2.trans ?_
          rw [hview1]
          exact swap_perm _ _ _ _ _ hai haj
        · intro k hk
          rw [hfr2 k hk, hget k]
          simp [show k ≠ j by omega, show k ≠ i by omega]
        · intro k hk
          rw [hlow2 k (by omega), hget k]
          simp [show k ≠ j by omega, show k ≠ i by omega]
        · intro hto hfix
          right
          refine ⟨by omega, ?_⟩
          have hji : M.lt ai aj = false := by
            rcases hto.total ai aj with h | h
            · exact h
            · rw [hlt] at h; cases h
          -- every pair whose parent is not `j` is in order after the exchange
          have hA : ∀ k, 0 < k → k < n → (k - 1) / 2 ≠ j →
              LeAt M.lt (M.view s1) ((k - 1) / 2) k := by
            intro k hk0 hkn hkj
            by_cases hki : (k - 1) / 2 = i
            · -- `k` is a child of `i`
              have hp : (M.view s1)[(k - 1) / 2]? = some aj := by
                rw [hget, hki]; simp [show i ≠ j by omega]
              by_cases hkj2 : k = j
              · have hk2 : (M.view s1)[k]? = some ai := by rw [hget]; simp [hkj2]
                exact leAt_of_vals hp hk2 hji
              · obtain ⟨ak, hak⟩ := getElem?_some_of_lt (M.view s) k (by omega)
                have hk2 : (M.view s1)[k]? = some ak := by
                  rw [hget]; simp [hkj2, show k ≠ i by omega, hak]
                exact leAt_of_vals hp hk2 (hsib hto k ak hk0 hkn hki hak)
            · by_cases hk : k = i
              · -- the pair of `i` and its parent
                subst hk
                obtain ⟨ap, hap⟩ := getElem?_some_of_lt (M.view s) ((k - 1) / 2) (by omega)
                have hp : (M.view s1)[(k - 1) / 2]? = some ap := by
                  rw [hget]
                  simp [show (k - 1) / 2 ≠ j by omega, show (k - 1) / 2 ≠ k by omega, hap]
                have hk2 : (M.view s1)[k]? = some aj := by
                  rw [hget]; simp [show k ≠ j by omega]
                exact leAt_of_vals hp hk2 (hfix.2 j (by omega) hjn hpar hk0 ap aj hap haj)
              · -- a pair away from `i` and `j`
                have hkj3 : k ≠ j := by
                  intro h; rw [h] at hki; exact hki hpar
                intro a b ha hb
                rw [hget] at ha hb
                simp only [hkj, hki, hkj3, hk, if_false] at ha hb
                exact hfix.1 k hk0 hkn hk hki a b ha hb
          have hfix1 : FixInv M.lt (M.view s1) n j := by
            refine ⟨fun k hk0 hkn _ hkj => hA k hk0 hkn hkj, ?_⟩
            intro k hk0 hkn hkj _
            rw [hpar]
            obtain ⟨ak, hak⟩ := getElem?_some_of_lt (M.view s) k (by omega)
            have hp : (M.view s1)[i]? = some aj := by
              rw [hget]; simp [show i ≠ j by omega]
            have hk2 : (M.view s1)[k]? = some ak := by
              rw [hget]; simp [show k ≠ j by omega, show k ≠ i by omega, hak]
            refine leAt_of_vals hp hk2 ?_
            exact hfix.1 k hk0 hkn (by omega) (by omega) aj ak (by rw [hkj]; exact haj) hak
          rcases hheap2 hto hfix1 with ⟨hi2, hch⟩ | ⟨_, hh⟩
          · have hs2 : s2 = s1 := by
              have := ‹i2 = j → s2 = s1›
              exact this hi2
            rw [hs2]
            intro k hk0 hkn
            by_cases hkj : (k - 1) / 2 = j
            · have := hch k hk0 hkn hkj
              rwa [hkj]
            · exact hA k hk0 hkn hkj
          · exact hh

theorem upLoop_spec {I : Interface σ α} {M : View σ α} (L : Lawful I M) :
    ∀ (fuel : Nat) (s : σ) (j : Nat), M.inv s → j < (M.view s).length → j < fuel →
      ∃ s1, upLoop I fuel s j = some s1 ∧ M.inv s1 ∧ M.rel s s1 ∧
        (M.view s1).Perm (M.view s) ∧
        (∀ k, j < k → (M.view s1)[k]? = (M.view s)[k]?) ∧
        (∀ n, TotalPreorder M.lt → j < n → n ≤ (M.view s).length →
          UpInv M.lt (M.view s) n j → HeapUpTo M.lt (M.view s1) n) := by
  intro fuel
  induction fuel with
  | zero => intro s j _ _ h; omega
  | succ fuel ih =>
    intro s j hinv hjl hfuel
    unfold upLoop
    by_cases h1 : (j - 1) / 2 = j
    · simp only [h1, if_true]
      refine ⟨s, rfl, hinv, L.rel_refl s, List.Perm.refl _, fun _ _ => rfl, ?_⟩
      intro n _ _ _ hup k hk0 hkn
      exact hup.1 k hk0 hkn (by omega)
    · simp only [h1, if_false]
      obtain ⟨aj, haj⟩ := getElem?_some_of_lt (M.view s) j hjl
      obtain ⟨ai, hai⟩ := getElem?_some_of_lt (M.view s) ((j - 1) / 2) (by omega)
      have hless := L.less s j ((j - 1) / 2) aj ai hinv haj hai
      rw [hless]
      simp only [Option.bind_eq_bind, Option.some_bind]
      cases hlt : M.lt aj ai
      · simp only [Bool.not_false, if_true]
        refine ⟨s, rfl, hinv, L.rel_refl s, List.Perm.refl _, fun _ _ => rfl, ?_⟩
        intro n _ _ _ hup k hk0 hkn
        by_cases hkj : k = j
        · subst hkj
          exact leAt_of_vals hai haj hlt
        · exact hup.1 k hk0 hkn hkj
      · simp only [Bool.not_true, Bool.false_eq_true, if_false]
        obtain ⟨s1, hswap, hinv1, hrel1, hview1⟩ :=
          L.swap s ((j - 1) / 2) j ai aj hinv hai haj
        rw [hswap]
        simp only [Option.some_bind]
        have hlen1 : (M.view s1).length = (M.view s).length := by
          rw [hview1]; simp
        have hget : ∀ k, (M.view s1)[k]? =
            if k = j then some ai else if k = (j - 1) / 2 then some aj
            else (M.view s)[k]? := by
          intro k
          rw [hview1]
          exact getElem?_swap (M.view s) ((j - 1) / 2) j k ai aj hai haj
        obtain ⟨s2, hrun, hinv2, hrel2, hperm2, hfr2, hheap2⟩ :=
          ih s1 ((j - 1) / 2) hinv1 (by omega) (by omega)
        refine ⟨s2, hrun, hinv2, L.rel_trans _ _ _ hrel1 hrel2, ?_, ?_, ?_⟩
        · refine hperm2.trans ?_
          rw [hview1]
          exact swap_perm _ _ _ _ _ hai haj
        · intro k hk
          rw [hfr2 k (by omega), hget k]
          simp [show k ≠ j by omega, show k ≠ (j - 1) / 2 by omega]
        · intro n hto hjn hnl hup
          have hji : M.lt ai aj = false := by
            rcases hto.total ai aj with h | h
            · exact h
            · rw [hlt] at h; cases h
          apply hheap2 n hto (by omega) (by omega)
          constructor
          · intro k hk0 hkn hki
            by_cases hkj : k = j
            · -- the exchanged pair
              subst hkj
              have hp : (M.view s1)[(k - 1) / 2]? = some aj := by
                rw [hget]; simp [h1]
              have hk2 : (M.view s1)[k]? = some ai := by rw [hget]; simp
              exact leAt_of_vals hp hk2 hji
            · obtain ⟨ak, hak⟩ := getElem?_some_of_lt (M.view s) k (by omega)
              have hk2 : (M.view s1)[k]? = some ak := by
                rw [hget]; simp [hkj, hki, hak]
              by_cases hpj : (k - 1) / 2 = j
              · -- a child of `j`
                have hp : (M.view s1)[(k - 1) / 2]? = some ai := by
                  rw [hget]; simp [hpj]
                exact leAt_of_vals hp hk2
                  (hup.2 k hk0 hkn hpj (by omega) ai ak hai hak)
              · by_cases hpi : (k - 1) / 2 = (j - 1) / 2
                · -- the sibling of `j`
                  have hp : (M.view s1)[(k - 1) / 2]? = some aj := by
                    rw [hget, hpi]; simp [h1]
                  refine leAt_of_vals hp hk2 ?_
                  have h3 := hup.1 k hk0 hkn hkj ai ak (by rw [hpi]; exact hai) hak
                  exact hto.trans _ _ _ hji h3
                · intro a b ha hb
                  rw [hget] at ha
                  simp only [hpj, hpi, if_false] at ha
                  rw [hk2] at hb
                  cases hb
                  exact hup.1 k hk0 hkn hkj a _ ha hak
          · intro k hk0 hkn hpi hi0
            obtain ⟨ap, hap⟩ := getElem?_some_of_lt (M.view s) (((j - 1) / 2 - 1) / 2) (by omega)
            have hp : (M.view s1)[((j - 1) / 2 - 1) / 2]? = some ap := by
              rw [hget]
              simp [show ((j - 1) / 2 - 1) / 2 ≠ j by omega,
                show ((j - 1) / 2 - 1) / 2 ≠ (j - 1) / 2 by omega, hap]
            have hpi2 := hup.1 ((j - 1) / 2) hi0 (by omega) h1 ap ai hap hai
            by_cases hkj : k = j
            · have hk2 : (M.view s1)[k]? = some ai := by rw [hget]; simp [hkj]
              exact leAt_of_vals hp hk2 hpi2
            · obtain ⟨ak, hak⟩ := getElem?_some_of_lt (M.view s) k (by omega)
              have hk2 : (M.view s1)[k]? = some ak := by
                rw [hget]; simp [hkj, show k ≠ (j - 1) / 2 by omega, hak]
              refine leAt_of_vals hp hk2 ?_
              have h3 := hup.1 k hk0 hkn hkj ai ak (by rw [hpi]; exact hai) hak
              exact hto.trans _ _ _ hpi2 h3

theorem down_spec {I : Interface σ α} {M : View σ α} (L : Lawful I M) (s : σ) (i n : Nat)
    (hinv : M.inv s) (hn : n ≤ (M.view s).length) :
    ∃ s1 b, down I s i n = some (s1, b) ∧ M.inv s1 ∧ M.rel s s1 ∧
      (M.view s1).Perm (M.view s) ∧
      (∀ k, n ≤ k → (M.view s1)[k]? = (M.view s)[k]?) ∧
      (b = false → s1 = s) ∧
      (TotalPreorder M.lt → FixInv M.lt (M.view s) n i →
        (b = false ∧ ChildrenOK M.lt (M.view s) n i) ∨
          (b = true ∧ HeapUpTo M.lt (M.view s1) n)) := by
  obtain ⟨s1, i1, hrun, hinv1, hrel1, hperm, hfr, _, hle, hsame, hheap⟩ :=
    downLoop_spec L n (n + 1) s i hinv hn (by omega) (by omega)
  refine ⟨s1, decide (i1 > i), ?_, hinv1, hrel1, hperm, hfr, ?_, ?_⟩
  · unfold down
    rw [hrun]
    rfl
  · intro hb
    apply hsame
    have : ¬ i1 > i := by simpa using hb
    omega
  · intro hto hfix
    rcases hheap hto hfix with ⟨h1, h2⟩ | ⟨h1, h2⟩
    · left
      exact ⟨by simp [h1], h2⟩
    · right
      exact ⟨by simpa using h1, h2⟩

theorem up_spec {I : Interface σ α} {M : View σ α} (L : Lawful I M) (s : σ) (j : Nat)
    (hinv : M.inv s) (hj : j < (M.view s).length) :
    ∃ s1, up I s j = some s1 ∧ M.inv s1 ∧ M.rel s s1 ∧
      (M.view s1).Perm (M.view s) ∧
      (∀ k, j < k → (M.view s1)[k]? = (M.view s)[k]?) ∧
      (∀ n, TotalPreorder M.lt → j < n → n ≤ (M.view s).length →
        UpInv M.lt (M.view s) n j → HeapUpTo M.lt (M.view s1) n) :=
  upLoop_spec L (j + 1) s j hinv hj (by omega)

/-- `down` followed, when it did not move the element, by `up`: the common part
of `Fix` and `Remove`. -/
theorem down_up_spec {I : Interface σ α} {M : View σ α} (L : Lawful I M) (s : σ) (i n : Nat)
    (hinv : M.inv s) (hi : i < n) (hn : n ≤ (M.view s).length) :
    ∃ s1 b s2, down I s i n = some (s1, b) ∧
      (if (!b) = true then up I s1 i else some s1) = some s2 ∧
      M.inv s2 ∧ M.rel s s2 ∧ (M.view s2).Perm (M.view s) ∧
      (∀ k, n ≤ k → (M.view s2)[k]? = (M.view s)[k]?) ∧
      (TotalPreorder M.lt → FixInv M.lt (M.view s) n i → HeapUpTo M.lt (M.view s2) n) := by
  obtain ⟨s1, b, hrun, hinv1, hrel1, hperm1, hfr1, hsame, hheap⟩ := down_spec L s i n hinv hn
  cases b
  · have hs1 : s1 = s := hsame rfl
    subst hs1
    obtain ⟨s2, hup, hinv2, hrel2, hperm2, hfr2, hheap2⟩ := up_spec L s1 i hinv (by omega)
    refine ⟨s1, false, s2, hrun, by simpa using hup, hinv2, hrel2, hperm2, ?_, ?_⟩
    · intro k hk
      exact hfr2 k (by omega)
    · intro hto hfix
      apply hheap2 n hto hi hn
      rcases hheap hto hfix with ⟨_, hch⟩ | ⟨h, _⟩
      · constructor
        · intro k hk0 hkn hki
          by_cases hp : (k - 1) / 2 = i
          · have := hch k hk0 hkn hp
            rwa [hp]
          · exact hfix.1 k hk0 hkn hki hp
        · exact hfix.2
      · cases h
  · refine ⟨s1, true, s1, hrun, by simp, hinv1, hrel1, hperm1, hfr1, ?_⟩
    intro hto hfix
    rcases hheap hto hfix with ⟨h, _⟩ | ⟨_, hh⟩
    · cases h
    · exact hh

theorem heapUpTo_append (lt : α → α → Bool) (t : List α) (x : α) :
    HeapUpTo lt (t ++ [x]) t.length → IsHeap lt t := by
  intro h
  rw [isHeap_iff]
  intro k hk0 hkn a b ha hb
  apply h k hk0 hkn a b
  · rw [List.getElem?_append_left (by omega)]; exact ha
  · rw [List.getElem?_append_left (by omega)]; exact hb

theorem eq_dropLast_append {v : List α} {x : α} (h : v[v.length - 1]? = some x) :
    v = v.dropLast ++ [x] := by
  have h1 : v.getLast? = some x := by rw [List.getLast?_eq_getElem?]; exact h
  exact (List.dropLast_append_getLast? x h1).symm

theorem Push_spec {I : Interface σ α} {M : View σ α} (L : Lawful I M) (s : σ) (x : α)
    (hinv : M.inv s) (hx : M.pushable s x) :
    ∃ s1, Push I s x = some s1 ∧ M.inv s1 ∧ M.rel s s1 ∧
      (M.view s1).Perm (x :: M.view s) ∧
      (TotalPreorder M.lt → IsHeap M.lt (M.view s) → IsHeap M.lt (M.view s1)) := by
  obtain ⟨s0, hpush, hinv0, hrel0, hview0⟩ := L.push s x hinv hx
  have hlen0 : I.Len s0 = (M.view s).length + 1 := by
    rw [L.len s0 hinv0, hview0]; simp
  obtain ⟨s1, hup, hinv1, hrel1, hperm1, _, hheap1⟩ :=
    up_spec L s0 (M.view s).length hinv0 (by rw [hview0]; simp)
  refine ⟨s1, ?_, hinv1, L.rel_trans _ _ _ hrel0 hrel1, ?_, ?_⟩
  · unfold Push
    rw [hpush]
    simp only [Option.bind_eq_bind, Option.some_bind, hlen0, Nat.add_sub_cancel]
    exact hup
  · refine hperm1.trans ?_
    rw [hview0]
    exact List.perm_append_singleton x (M.view s)
  · intro hto hheap
    rw [isHeap_iff] at hheap ⊢
    have hl1 : (M.view s1).length = (M.view s).length + 1 := by
      rw [hperm1.length_eq, hview0]; simp
    rw [hl1]
    apply hheap1 _ hto (by omega) (by rw [hview0]; simp)
    rw [hview0]
    constructor
    · intro k hk0 hkn hkj a b ha hb
      rw [List.getElem?_append_left (by omega)] at ha hb
      exact hheap k hk0 (by omega) a b ha hb
    · intro k hk0 hkn hkj _
      omega

theorem Pop_spec {I : Interface σ α} {M : View σ α} (L : Lawful I M) (s : σ)
    (hinv : M.inv s) (hne : M.view s ≠ []) :
    ∃ x s1, Pop I s = some (x, s1) ∧ M.inv s1 ∧ M.rel s s1 ∧
      (M.view s)[0]? = some x ∧ (M.view s).Perm (x :: M.view s1) ∧
      (TotalPreorder M.lt → IsHeap M.lt (M.view s) → IsHeap M.lt (M.view s1)) := by
  have hpos : 0 < (M.view s).length := List.length_pos.2 hne
  obtain ⟨a0, ha0⟩ := getElem?_some_of_lt (M.view s) 0 hpos
  obtain ⟨an, han⟩ := getElem?_some_of_lt (M.view s) ((M.view s).length - 1) (by omega)
  obtain ⟨s0, hswap, hinv0, hrel0, hview0⟩ :=
    L.swap s 0 ((M.view s).length - 1) a0 an hinv ha0 han
  have hlen0 : (M.view s0).length = (M.view s).length := by rw [hview0]; simp
  have hget : ∀ k, (M.view s0)[k]? =
      if k = (M.view s).length - 1 then some a0 else if k = 0 then some an
      else (M.view s)[k]? := by
    intro k
    rw [hview0]
    exact getElem?_swap _ _ _ k _ _ ha0 han
  obtain ⟨s1, b, hdown, hinv1, hrel1, hperm1, hfr1, hsame, hheap1⟩ :=
    down_spec L s0 0 ((M.view s).length - 1) hinv0 (by omega)
  have hlen1 : (M.view s1).length = (M.view s).length := by
    rw [hperm1.length_eq, hlen0]
  have hlast : (M.view s1)[(M.view s1).length - 1]? = some a0 := by
    rw [hlen1, hfr1 _ (Nat.le_refl _), hget]; simp
  have hsplit := eq_dropLast_append hlast
  obtain ⟨s2, hpop, hinv2, hrel2, hview2⟩ := L.pop s1 _ a0 hinv1 hsplit
  refine ⟨a0, s2, ?_, hinv2, L.rel_trans _ _ _ hrel0 (L.rel_trans _ _ _ hrel1 hrel2),
    ha0, ?_, ?_⟩
  · unfold Pop
    simp only [L.len s hinv, hswap, Option.bind_eq_bind, Option.some_bind, hdown]
    exact hpop
  · have h1 : (M.view s).Perm (M.view s1) := by
      refine List.Perm.trans ?_ hperm1.symm
      rw [hview0]
      exact (swap_perm _ _ _ _ _ ha0 han).symm
    refine h1.trans ?_
    rw [hsplit, hview2]
    exact List.perm_append_singleton a0 _
  · intro hto hheap
    rw [isHeap_iff] at hheap
    have hfix : FixInv M.lt (M.view s0) ((M.view s).length - 1) 0 := by
      constructor
      · intro k hk0 hkn hki hpi a c ha hc
        rw [hget] at ha hc
        simp only [show (k - 1) / 2 ≠ (M.view s).length - 1 by omega, hpi,
          show k ≠ (M.view s).length - 1 by omega, hki, if_false] at ha hc
        exact hheap k hk0 (by omega) a c ha hc
      · intro k _ _ _ h
        omega
    have hup : HeapUpTo M.lt (M.view s1) ((M.view s).length - 1) := by
      rcases hheap1 hto hfix with ⟨hb, hch⟩ | ⟨_, hh⟩
      · rw [hsame hb]
        intro k hk0 hkn
        by_cases hp : (k - 1) / 2 = 0
        · have := hch k hk0 hkn hp
          rwa [hp]
        · exact hfix.1 k hk0 hkn (by omega) hp
      · exact hh
    rw [hview2]
    apply heapUpTo_append M.lt _ a0
    rw [← hsplit]
    have hl : (M.view s1).dropLast.length = (M.view s).length - 1 := by
      rw [List.length_dropLast, hlen1]
    rw [hl]
    exact hup

/-- A list that agrees, away from position `i`, with a heap. -/
theorem fixInv_of_agree {lt : α → α → Bool} (hto : TotalPreorder lt) (v w : List α)
    (n i : Nat) (hn : n ≤ v.length) (hi : i < v.length) (hheap : HeapUpTo lt v v.length)
    (hagree : ∀ k, k < n → k ≠ i → w[k]? = v[k]?) : FixInv lt w n i := by
  constructor
  · intro k hk0 hkn hki hpi a b ha hb
    rw [hagree _ (by omega) hpi] at ha
    rw [hagree _ hkn hki] at hb
    exact hheap k hk0 (by omega) a b ha hb
  · intro k hk0 hkn hpi hi0 a b ha hb
    rw [hagree _ (by omega) (by omega)] at ha
    rw [hagree _ hkn (by omega)] at hb
    obtain ⟨ai, hai⟩ := getElem?_some_of_lt v i hi
    have h1 := hheap i hi0 hi a ai ha hai
    have h2 := hheap k hk0 (by omega) ai b (by rw [hpi]; exact hai) hb
    exact hto.trans _ _ _ h1 h2

theorem Fix_spec {I : Interface σ α} {M : View σ α} (L : Lawful I M) (s : σ) (i : Nat)
    (hinv : M.inv s) (hi : i < (M.view s).length) :
    ∃ s1, Fix I s i = some s1 ∧ M.inv s1 ∧ M.rel s s1 ∧
      (M.view s1).Perm (M.view s) ∧
      (TotalPreorder M.lt → FixInv M.lt (M.view s) (M.view s).length i →
        IsHeap M.lt (M.view s1)) := by
  obtain ⟨s1, b, s2, hdown, hup, hinv2, hrel2, hperm2, _, hheap2⟩ :=
    down_up_spec L s i (M.view s).length hinv hi (Nat.le_refl _)
  refine ⟨s2, ?_, hinv2, hrel2, hperm2, ?_⟩
  · unfold Fix
    simp only [L.len s hinv, hdown, Option.bind_eq_bind, Option.some_bind]
    exact hup
  · intro hto hfix
    rw [isHeap_iff, hperm2.length_eq]
    exact hheap2 hto hfix

theorem Remove_spec {I : Interface σ α} {M : View σ α} (L : Lawful I M) (s : σ) (i : Nat)
    (hinv : M.inv s) (hi : i < (M.view s).length) :
    ∃ x s1, Remove I s i = some (x, s1) ∧ M.inv s1 ∧ M.rel s s1 ∧
      (M.view s)[i]? = some x ∧ (M.view s).Perm (x :: M.view s1) ∧
      (TotalPreorder M.lt → IsHeap M.lt (M.view s) → IsHeap M.lt (M.view s1)) := by
  obtain ⟨ai, hai⟩ := getElem?_some_of_lt (M.view s) i hi
  by_cases hni : (M.view s).length - 1 = i
  · -- the last element is removed
    have hsplit := eq_dropLast_append (by rw [hni]; exact hai : (M.view s)[(M.view s).length - 1]? = some ai)
    obtain ⟨s1, hpop, hinv1, hrel1, hview1⟩ := L.pop s _ ai hinv hsplit
    refine ⟨ai, s1, ?_, hinv1, hrel1, hai, ?_, ?_⟩
    · unfold Remove
      simp only [L.len s hinv, hni, ne_eq, not_true_eq_false, if_false]
      exact hpop
    · rw [hview1]
      conv => lhs; rw [hsplit]
      exact List.perm_append_singleton ai _
    · intro _ hheap
      rw [hview1]
      apply heapUpTo_append M.lt _ ai
      rw [← hsplit]
      rw [isHeap_iff] at hheap
      intro k hk0 hkn
      exact hheap k hk0 (by rw [List.length_dropLast] at hkn; omega)
  · obtain ⟨an, han⟩ := getElem?_some_of_lt (M.view s) ((M.view s).length - 1) (by omega)
    obtain ⟨s0, hswap, hinv0, hrel0, hview0⟩ :=
      L.swap s i ((M.view s).length - 1) ai an hinv hai han
    have hlen0 : (M.view s0).length = (M.view s).length := by rw [hview0]; simp
    have hget : ∀ k, (M.view s0)[k]? =
        if k = (M.view s).length - 1 then some ai else if k = i then some an
        else (M.view s)[k]? := by
      intro k
      rw [hview0]
      exact getElem?_swap _ _ _ k _ _ hai han
    obtain ⟨s1, b, s2, hdown, hup, hinv2, hrel2, hperm2, hfr2, hheap2⟩ :=
      down_up_spec L s0 i ((M.view s).length - 1) hinv0 (by omega) (by omega)
    have hlen2 : (M.view s2).length = (M.view s).length := by
      rw [hperm2.length_eq, hlen0]
    have hlast : (M.view s2)[(M.view s2).length - 1]? = some ai := by
      rw [hlen2, hfr2 _ (Nat.le_refl _), hget]; simp
    have hsplit := eq_dropLast_append hlast
    obtain ⟨s3, hpop, hinv3, hrel3, hview3⟩ := L.pop s2 _ ai hinv2 hsplit
    refine ⟨ai, s3, ?_, hinv3, L.rel_trans _ _ _ hrel0 (L.rel_trans _ _ _ hrel2 hrel3),
      hai, ?_, ?_⟩
    · unfold Remove
      simp only [L.len s hinv, hni, ne_eq, not_false_eq_true, if_true, hswap,
        Option.bind_eq_bind, Option.some_bind, hdown]
      cases b
      · simp only [Bool.not_false, if_true] at hup ⊢
        rw [hup]
        exact hpop
      · simp only [Bool.not_true, Bool.false_eq_true, if_false] at hup ⊢
        cases hup
        exact hpop
    · have h1 : (M.view s).Perm (M.view s2) := by
        refine List.Perm.trans ?_ hperm2.symm
        rw [hview0]
        exact (swap_perm _ _ _ _ _ hai han).symm
      refine h1.trans ?_
      rw [hsplit, hview3]
      exact List.perm_append_singleton ai _
    · intro hto hheap
      rw [isHeap_iff] at hheap
      have hfix : FixInv M.lt (M.view s0) ((M.view s).length - 1) i := by
        apply fixInv_of_agree hto (M.view s) (M.view s0) _ i (by omega) hi hheap
        intro k hkn hki
        rw [hget]
        simp [show k ≠ (M.view s).length - 1 by omega, hki]
      rw [hview3]
      apply heapUpTo_append M.lt _ ai
      rw [← hsplit]
      have hl : (M.view s2).dropLast.length = (M.view s).length - 1 := by
        rw [List.length_dropLast, hlen2]
      rw [hl]
      exact hheap2 hto hfix

/-- In a heap no element is less than the root. -/
theorem root_min {lt : α → α → Bool} (hto : TotalPreorder lt) (v : List α) (x : α)
    (hheap : IsHeap lt v) (hx : v[0]? = some x) :
    ∀ (k : Nat) (a : α), v[k]? = some a → lt a x = false := by
  intro k
  induction k using Nat.strong_induction_on with
  | _ k ih =>
    intro a ha
    by_cases hk : k = 0
    · subst hk
      rw [hx] at ha
      cases ha
      rcases hto.total x x with h | h <;> exact h
    · have hl : k < v.length := by
        have h0 := List.getElem?_eq_some.1 ha
        exact h0.1
      obtain ⟨p, hp⟩ := getElem?_some_of_lt v ((k - 1) / 2) (by omega)
      have h1 := ih ((k - 1) / 2) (by omega) p hp
      have h2 := hheap k a p (by omega) ha hp
      exact hto.trans _ _ _ h1 h2

/-- A plain slice implements the interface lawfully. -/
theorem sliceInterface_lawful (lt : α → α → Bool) :
    Lawful (sliceInterface lt) (sliceView lt) where
  len := fun _ _ => rfl
  less := by
    intro s i j a b _ ha hb
    simp only [sliceView, id] at ha hb
    simp [sliceInterface, sliceView, ha, hb]
  swap := by
    intro s i j a b _ ha hb
    simp only [sliceView, id] at ha hb
    exact ⟨(s.set i b).set j a, by simp [sliceInterface, ha, hb], trivial, trivial, rfl⟩
  push := by
    intro s x _ _
    exact ⟨s ++ [x], rfl, trivial, trivial, rfl⟩
  pop := by
    intro s t x _ h
    simp only [sliceView, id] at h
    subst h
    exact ⟨t, by simp [sliceInterface], trivial, trivial, rfl⟩
  rel_refl := fun _ => trivial
  rel_trans := fun _ _ _ _ _ => trivial

/-- The order of the natural numbers is the strict part of a total preorder. -/
theorem natLt_totalPreorder : TotalPreorder natLt where
  trans := by
    intro a b c h1 h2
    simp only [natLt, decide_eq_false_iff_not, Nat.not_lt] at *
    omega
  total := by
    intro a b
    simp only [natLt, decide_eq_false_iff_not, Nat.not_lt]
    omega

theorem example_isHeap : IsHeap natLt [1, 2, 4, 3, 8, 6, 5] := by
  rw [isHeap_iff]
  intro k hk0 hkn a b ha hb
  simp only [List.length_cons, List.length_nil] at hkn
  interval_cases k <;> simp at ha hb <;> subst ha hb <;> decide

/-- C5, evaluated on the code: on the example of the source comment,
`[5, 2, 4, 3, 8, 1]`, `Init` sifts down the positions `2` and `1` and stops
before position `0`, so the root `5` stays above its smaller children; on
`[2, 1]` it does nothing at all.  Neither result is a heap. -/
theorem Init_skips_root :
    Init (sliceInterface natLt) [5, 2, 4, 3, 8, 1] = some [5, 2, 1, 3, 8, 4] ∧
      ¬ IsHeap natLt [5, 2, 1, 3, 8, 4] ∧
      Init (sliceInterface natLt) [2, 1] = some [2, 1] ∧
      ¬ IsHeap natLt [2, 1] := by
  refine ⟨by decide, ?_, by decide, ?_⟩
  · intro h
    have := h 1 2 5 (by decide) rfl rfl
    exact absurd this (by decide)
  · intro h
    have := h 1 1 2 (by decide) rfl rfl
    exact absurd this (by decide)

/-- C6: for every non-empty sequence that is a min-heap under the strict part
`lt` of a total preorder, `Pop` returns an element `x` and a remaining
sequence `s1` such that no element of `s1` is less than `x`, and the original
sequence is a permutation of `x` followed by `s1`. -/
theorem Pop_returns_minimum (lt : α → α → Bool) (s : List α) (hto : TotalPreorder lt)
    (hne : s ≠ []) (hheap : IsHeap lt s) :
    ∃ x s1, Pop (sliceInterface lt) s = some (x, s1) ∧
      (∀ y ∈ s1, lt y x = false) ∧ s.Perm (x :: s1) := by
  obtain ⟨x, s1, hpop, _, _, hx, hperm, _⟩ :=
    Pop_spec (sliceInterface_lawful lt) s trivial hne
  refine ⟨x, s1, hpop, ?_, hperm⟩
  intro y hy
  have hys : y ∈ s := hperm.symm.subset (List.mem_cons_of_mem x hy)
  obtain ⟨k, hk, hky⟩ := List.getElem_of_mem hys
  have hk2 : s[k]? = some y := by rw [List.getElem?_eq_getElem hk, hky]
  exact root_min hto s x hheap hx k y hk2

/-- C6 at a concrete input: the example heap of the source comment. -/
theorem Pop_returns_minimum_example :
    ∃ x s1, Pop (sliceInterface natLt) [1, 2, 4, 3, 8, 6, 5] = some (x, s1) ∧
      (∀ y ∈ s1, natLt y x = false) ∧ [1, 2, 4, 3, 8, 6, 5].Perm (x :: s1) :=
  Pop_returns_minimum natLt [1, 2, 4, 3, 8, 6, 5] natLt_totalPreorder (by simp) example_isHeap

/-- C7: under the strict part `lt` of a total preorder, if a sequence is a
min-heap then it still is after `Push(x)`, after `Pop` (when non-empty) and
after `Remove(i)` for every valid index `i`; and if the element at a valid
index `i` of a min-heap is overwritten with an arbitrary value `v`, the
sequence is a min-heap again after `Fix(i)`.  Each operation returns, and the
elements change only by the pushed or removed one. -/
theorem heap_property_preserved (lt : α → α → Bool) (s : List α) (hto : TotalPreorder lt)
    (hheap : IsHeap lt s) :
    (∀ x, ∃ s1, Push (sliceInterface lt) s x = some s1 ∧ IsHeap lt s1 ∧ s1.Perm (x :: s)) ∧
      (s ≠ [] → ∃ x s1, Pop (sliceInterface lt) s = some (x, s1) ∧ IsHeap lt s1 ∧
        s.Perm (x :: s1)) ∧
      (∀ i, i < s.length → ∃ x s1, Remove (sliceInterface lt) s i = some (x, s1) ∧
        s[i]? = some x ∧ IsHeap lt s1 ∧ s.Perm (x :: s1)) ∧
      (∀ i v, i < s.length → ∃ s1, Fix (sliceInterface lt) (s.set i v) i = some s1 ∧
        IsHeap lt s1 ∧ s1.Perm (s.set i v)) := by
  have L := sliceInterface_lawful lt
  refine ⟨?_, ?_, ?_, ?_⟩
  · intro x
    obtain ⟨s1, h1, _, _, h2, h3⟩ := Push_spec L s x trivial trivial
    exact ⟨s1, h1, h3 hto hheap, h2⟩
  · intro hne
    obtain ⟨x, s1, h1, _, _, _, h2, h3⟩ := Pop_spec L s trivial hne
    exact ⟨x, s1, h1, h3 hto hheap, h2⟩
  · intro i hi
    obtain ⟨x, s1, h1, _, _, hx, h2, h3⟩ := Remove_spec L s i trivial hi
    exact ⟨x, s1, h1, hx, h3 hto hheap, h2⟩
  · intro i v hi
    obtain ⟨s1, h1, _, _, h2, h3⟩ :=
      Fix_spec L (s.set i v) i trivial (by simpa [sliceView] using hi)
    refine ⟨s1, h1, h3 hto ?_, h2⟩
    have hl : (s.set i v).length = s.length := by simp
    show FixInv lt (s.set i v) (s.set i v).length i
    rw [hl]
    apply fixInv_of_agree hto s (s.set i v) _ i (Nat.le_refl _) hi ((isHeap_iff lt s).1 hheap)
    intro k _ hki
    exact List.getElem?_set_ne (Ne.symm hki)

/-- C7 at a concrete input: the example heap of the source comment, with `0`
pushed, the root popped, position `1` removed, and position `2` overwritten
with `9` and fixed. -/
theorem heap_property_preserved_example :
    (∃ s1, Push (sliceInterface natLt) [1, 2, 4, 3, 8, 6, 5] 0 = some s1 ∧ IsHeap natLt s1 ∧
        s1.Perm (0 :: [1, 2, 4, 3, 8, 6, 5])) ∧
      (∃ x s1, Pop (sliceInterface natLt) [1, 2, 4, 3, 8, 6, 5] = some (x, s1) ∧
        IsHeap natLt s1 ∧ [1, 2, 4, 3, 8, 6, 5].Perm (x :: s1)) ∧
      (∃ x s1, Remove (sliceInterface natLt) [1, 2, 4, 3, 8, 6, 5] 1 = some (x, s1) ∧
        [1, 2, 4, 3, 8, 6, 5][1]? = some x ∧ IsHeap natLt s1 ∧
        [1, 2, 4, 3, 8, 6, 5].Perm (x :: s1)) ∧
      (∃ s1, Fix (sliceInterface natLt) ([1, 2, 4, 3, 8, 6, 5].set 2 9) 2 = some s1 ∧
        IsHeap natLt s1 ∧ s1.Perm ([1, 2, 4, 3, 8, 6, 5].set 2 9)) :=
  have h := heap_property_preserved natLt [1, 2, 4, 3, 8, 6, 5] natLt_totalPreorder
    example_isHeap
  ⟨h.1 0, h.2.1 (by simp), h.2.2.1 1 (by simp), h.2.2.2 2 9 (by simp)⟩

end heap

/-! ## Theorems about the symbol model -/

namespace huffman

open heap

/-! ### Stores and frames -/

theorem store_eq (mem : Mem) (p : Nat) (f : Node → Node) (a : Node) (h : mem[p]? = some a) :
    store mem p f = some (mem.set p (f a)) := by
  simp [store, h]

theorem getElem?_of_lt (mem : Mem) (p : Nat) (h : p < mem.length) :
    ∃ a, mem[p]? = some a := ⟨mem[p], by simp [h]⟩

theorem lt_of_getElem? {mem : Mem} {p : Nat} {a : Node} (h : mem[p]? = some a) :
    p < mem.length := by
  have h0 := List.getElem?_eq_some.1 h
  exact h0.1

theorem getD_of_getElem? {mem : Mem} {p : Nat} {a : Node} (h : mem[p]? = some a) :
    mem.getD p {} = a := by
  simp [List.getD_eq_getElem?_getD, h]

theorem Frame.frame_refl (N : Nat) (mem : Mem) : Frame N mem mem :=
  ⟨rfl, fun _ a h => ⟨a, h, rfl, rfl, rfl, rfl, rfl, Or.inl rfl⟩⟩

theorem Frame.frame_trans {N : Nat} {m1 m2 m3 : Mem} (h12 : Frame N m1 m2) (h23 : Frame N m2 m3) :
    Frame N m1 m3 := by
  refine ⟨h23.1.trans h12.1, ?_⟩
  intro p a ha
  obtain ⟨b, hb, e1, e2, e3, e4, e5, e6⟩ := h12.2 p a ha
  obtain ⟨c, hc, g1, g2, g3, g4, g5, g6⟩ := h23.2 p b hb
  refine ⟨c, hc, g1.trans e1, g2.trans e2, g3.trans e3, g4.trans e4, g5.trans e5, ?_⟩
  rcases g6 with g | g
  · rcases e6 with e | e
    · exact Or.inl (g.trans e)
    · exact Or.inr (by rw [g]; exact e)
  · exact Or.inr g

theorem Frame.frame_mono {N N1 : Nat} {m1 m2 : Mem} (h : Frame N m1 m2) (hN : N ≤ N1) :
    Frame N1 m1 m2 := by
  refine ⟨h.1, ?_⟩
  intro p a ha
  obtain ⟨b, hb, e1, e2, e3, e4, e5, e6⟩ := h.2 p a ha
  refine ⟨b, hb, e1, e2, e3, e4, e5, ?_⟩
  rcases e6 with e | e
  · exact Or.inl e
  · exact Or.inr (by omega)

/-- Writing an `index` field below `N` is a frame step. -/
theorem store_index_frame (N : Nat) (mem : Mem) (p k : Nat) (hp : p < mem.length)
    (hk : k < N) :
    ∃ mem1, store mem p (fun nd => { nd with index := k }) = some mem1 ∧ Frame N mem mem1 := by
  obtain ⟨a, ha⟩ := getElem?_of_lt mem p hp
  refine ⟨_, store_eq mem p _ a ha, by simp, ?_⟩
  intro q b hb
  by_cases hq : q = p
  · subst hq
    rw [ha] at hb
    cases hb
    exact ⟨{ a with index := k }, by simp [hp], rfl, rfl, rfl, rfl, rfl, Or.inr hk⟩
  · exact ⟨b, by rw [List.getElem?_set_ne (Ne.symm hq)]; exact hb, rfl, rfl, rfl, rfl, rfl,
      Or.inl rfl⟩

theorem Frame.frame_freq {N : Nat} {m1 m2 : Mem} (h : Frame N m1 m2) (f : Nat → Nat)
    (hf : ∀ (p : Nat) (a : Node), m1[p]? = some a → a.Freq = f p) :
    ∀ (p : Nat) (a : Node), m2[p]? = some a → a.Freq = f p := by
  intro p b hb
  have hp : p < m1.length := by rw [← h.1]; exact lt_of_getElem? hb
  obtain ⟨a, ha⟩ := getElem?_of_lt m1 p hp
  obtain ⟨c, hc, _, _, _, e4, _⟩ := h.2 p a ha
  rw [hb] at hc
  cases hc
  rw [e4]
  exact hf p a ha

/-- `NodeHeap` implements the interface lawfully. -/
theorem NodeHeap_lawful (f : Nat → Nat) (N : Nat) : Lawful NodeHeap (nodeView f N) where
  len := fun _ _ => rfl
  less := by
    intro s i j a b hinv ha hb
    simp only [nodeView] at ha hb hinv
    obtain ⟨na, hna⟩ := getElem?_of_lt s.mem a
      (hinv.1 a (List.getElem?_mem ha))
    obtain ⟨nb, hnb⟩ := getElem?_of_lt s.mem b
      (hinv.1 b (List.getElem?_mem hb))
    simp [NodeHeap, NodeHeap.Less, nodeView, ha, hb, hna, hnb, hinv.2.1 a na hna,
      hinv.2.1 b nb hnb]
  swap := by
    intro s i j a b hinv ha hb
    simp only [nodeView] at ha hb hinv ⊢
    have hil : i < s.h.length := (List.getElem?_eq_some.1 ha).1
    have hjl : j < s.h.length := (List.getElem?_eq_some.1 hb).1
    have hget := getElem?_swap s.h i j
    have hmemv : ∀ (k x : Nat), ((s.h.set i b).set j a)[k]? = some x → x < s.mem.length := by
      intro k x hx
      rw [hget k a b ha hb] at hx
      by_cases h1 : k = j
      · rw [if_pos h1] at hx; cases hx; exact hinv.1 _ (List.getElem?_mem ha)
      · rw [if_neg h1] at hx
        by_cases h2 : k = i
        · rw [if_pos h2] at hx; cases hx; exact hinv.1 _ (List.getElem?_mem hb)
        · rw [if_neg h2] at hx; exact hinv.1 _ (List.getElem?_mem hx)
    obtain ⟨x, hx⟩ := getElem?_some_of_lt ((s.h.set i b).set j a) i (by simpa using hil)
    obtain ⟨y, hy⟩ := getElem?_some_of_lt ((s.h.set i b).set j a) j (by simpa using hjl)
    obtain ⟨mem1, hs1, hf1⟩ := store_index_frame N s.mem x i (hmemv i x hx) (by omega)
    obtain ⟨mem2, hs2, hf2⟩ := store_index_frame N mem1 y j
      (by rw [hf1.1]; exact hmemv j y hy) (by omega)
    have hf := hf1.frame_trans hf2
    refine ⟨{ mem := mem2, h := (s.h.set i b).set j a }, ?_, ⟨?_, ?_, ?_⟩, hf, rfl⟩
    · simp only [NodeHeap, NodeHeap.Swap, ha, hb, Option.bind_eq_bind, Option.some_bind, hx,
        hs1, hy, hs2]
    · intro p hp
      obtain ⟨k, hk, hkp⟩ := List.getElem_of_mem hp
      rw [hf.1]
      exact hmemv k p (by rw [List.getElem?_eq_getElem hk, hkp])
    · exact hf.frame_freq f hinv.2.1
    · simpa using hinv.2.2
  push := by
    intro s x hinv hx
    simp only [nodeView] at hinv hx ⊢
    obtain ⟨mem1, hs1, hf1⟩ := store_index_frame N s.mem x s.h.length hx.1 hx.2
    refine ⟨{ mem := mem1, h := s.h ++ [x] }, ?_, ⟨?_, ?_, ?_⟩, hf1, rfl⟩
    · simp only [NodeHeap, NodeHeap.Push, hs1, Option.bind_eq_bind, Option.some_bind]
    · intro p hp
      rw [hf1.1]
      rcases List.mem_append.1 hp with h | h
      · exact hinv.1 p h
      · simp at h; subst h; exact hx.1
    · exact hf1.frame_freq f hinv.2.1
    · simp; omega
  pop := by
    intro s t x hinv hv
    simp only [nodeView] at hinv hv ⊢
    refine ⟨{ s with h := t }, ?_, ⟨?_, hinv.2.1, ?_⟩, Frame.frame_refl N s.mem, rfl⟩
    · simp [NodeHeap, NodeHeap.Pop, hv]
    · intro p hp
      exact hinv.1 p (by rw [hv]; exact List.mem_append_left _ hp)
    · have := hinv.2.2
      rw [hv] at this
      simp at this
      show t.length ≤ N
      omega
  rel_refl := fun s => Frame.frame_refl N s.mem
  rel_trans := fun _ _ _ h1 h2 => h1.frame_trans h2

theorem Ext.ext_refl (N : Nat) (mem : Mem) : Ext N mem mem :=
  ⟨Nat.le_refl _, fun _ a h => ⟨a, h, rfl, rfl, Or.inl rfl⟩⟩

theorem Ext.ext_trans {N : Nat} {m1 m2 m3 : Mem} (h12 : Ext N m1 m2) (h23 : Ext N m2 m3) :
    Ext N m1 m3 := by
  refine ⟨Nat.le_trans h12.1 h23.1, ?_⟩
  intro p a ha
  obtain ⟨b, hb, e4, e5, e6⟩ := h12.2 p a ha
  obtain ⟨c, hc, g4, g5, g6⟩ := h23.2 p b hb
  refine ⟨c, hc, g4.trans e4, g5.trans e5, ?_⟩
  rcases g6 with g | g
  · rcases e6 with e | e
    · exact Or.inl (g.trans e)
    · exact Or.inr (by rw [g]; exact e)
  · exact Or.inr g

theorem Ext.ext_mono {N N1 : Nat} {m1 m2 : Mem} (h : Ext N m1 m2) (hN : N ≤ N1) :
    Ext N1 m1 m2 := by
  refine ⟨h.1, ?_⟩
  intro p a ha
  obtain ⟨b, hb, e4, e5, e6⟩ := h.2 p a ha
  refine ⟨b, hb, e4, e5, ?_⟩
  rcases e6 with e | e
  · exact Or.inl e
  · exact Or.inr (by omega)

theorem Frame.frame_toExt {N : Nat} {m1 m2 : Mem} (h : Frame N m1 m2) : Ext N m1 m2 := by
  refine ⟨Nat.le_of_eq h.1.symm, ?_⟩
  intro p a ha
  obtain ⟨b, hb, _, _, _, e4, e5, e6⟩ := h.2 p a ha
  exact ⟨b, hb, e4, e5, e6⟩

theorem Frame.frame_parentInc {N : Nat} {m1 m2 : Mem} (h : Frame N m1 m2) (hp : ParentInc m1) :
    ParentInc m2 := by
  intro p b q hb hq
  have hpl : p < m1.length := by rw [← h.1]; exact lt_of_getElem? hb
  obtain ⟨a, ha⟩ := getElem?_of_lt m1 p hpl
  obtain ⟨c, hc, e1, _⟩ := h.2 p a ha
  rw [hb] at hc
  cases hc
  rw [h.1]
  exact hp p a q ha (by rw [← e1]; exact hq)

theorem Ext.ext_append (N : Nat) (mem : Mem) (nd : Node) : Ext N mem (mem ++ [nd]) := by
  refine ⟨by simp, ?_⟩
  intro p a ha
  exact ⟨a, by rw [List.getElem?_append_left (lt_of_getElem? ha)]; exact ha, rfl, rfl,
    Or.inl rfl⟩

theorem ParentInc.parentInc_append {mem : Mem} (h : ParentInc mem) (nd : Node) (hnd : nd.Parent = none) :
    ParentInc (mem ++ [nd]) := by
  intro p a q ha hq
  by_cases hp : p < mem.length
  · rw [List.getElem?_append_left hp] at ha
    have := h p a q ha hq
    simp only [List.length_append, List.length_singleton]
    omega
  · have hp2 : p = mem.length := by
      have := lt_of_getElem? ha
      simp at this
      omega
    subst hp2
    simp at ha
    subst ha
    rw [hnd] at hq
    cases hq

/-- A store that keeps frequency, symbol and index, and sets the parent
pointer, if at all, to an allocated later node. -/
theorem store_keep (N : Nat) (mem : Mem) (p : Nat) (f : Node → Node) (hp : p < mem.length)
    (hf : ∀ a, (f a).Freq = a.Freq ∧ (f a).Char = a.Char ∧ (f a).index = a.index)
    (hpar : ∀ a q, (f a).Parent = some q → a.Parent = some q ∨ (p < q ∧ q < mem.length)) :
    ∃ mem1, store mem p f = some mem1 ∧ mem1.length = mem.length ∧ Ext N mem mem1 ∧
      (ParentInc mem → ParentInc mem1) := by
  obtain ⟨a, ha⟩ := getElem?_of_lt mem p hp
  refine ⟨_, store_eq mem p f a ha, by simp, ⟨by simp, ?_⟩, ?_⟩
  · intro q b hb
    by_cases hq : q = p
    · subst hq
      rw [ha] at hb
      cases hb
      exact ⟨f a, by simp [hp], (hf a).1, (hf a).2.1, Or.inl (hf a).2.2⟩
    · exact ⟨b, by rw [List.getElem?_set_ne (Ne.symm hq)]; exact hb, rfl, rfl, Or.inl rfl⟩
  · intro hinc q b r hb hr
    simp only [List.length_set]
    by_cases hq : q = p
    · subst hq
      simp [hp] at hb
      subst hb
      rcases hpar a r hr with h | h
      · exact hinc q a r ha h
      · exact h
    · rw [List.getElem?_set_ne (Ne.symm hq)] at hb
      exact hinc q b r hb hr

/-- The frequency map stored in a memory. -/
theorem freq_getD (mem : Mem) :
    ∀ (p : Nat) (a : Node), mem[p]? = some a → a.Freq = (mem.getD p {}).Freq := by
  intro p a ha
  rw [getD_of_getElem? ha]

theorem perm_length_cons {l t : List Nat} {x : Nat} (h : l.Perm (x :: t)) :
    l.length = t.length + 1 := by
  rw [h.length_eq]; simp

theorem buildLoop_spec (N : Nat) : ∀ (fuel : Nat) (st : HeapState),
    (∀ p ∈ st.h, p < st.mem.length) → 1 ≤ st.h.length → st.h.length ≤ N →
    st.h.length ≤ fuel → ParentInc st.mem →
    ∃ st1, buildLoop fuel st = some st1 ∧ (∀ p ∈ st1.h, p < st1.mem.length) ∧
      st1.h.length = 1 ∧ Ext N st.mem st1.mem ∧ ParentInc st1.mem := by
  intro fuel
  induction fuel with
  | zero => intro st _ h1 _ h2 _; omega
  | succ fuel ih =>
    intro st hval h1 hN hfuel hinc
    unfold buildLoop
    by_cases hlen : NodeHeap.Len st > 1
    · simp only [hlen, if_true]
      have hlen2 : 1 < st.h.length := hlen
      -- first `Pop`
      have hinv : (nodeView (fun p => (st.mem.getD p {}).Freq) N).inv st :=
        ⟨hval, freq_getD st.mem, hN⟩
      obtain ⟨left, sa, hpopa, hinva, hrela, _, hperma, _⟩ :=
        Pop_spec (NodeHeap_lawful _ N) st hinv
          (by show st.h ≠ []; intro h; rw [h] at hlen2; simp at hlen2)
      have hperma : st.h.Perm (left :: sa.h) := hperma
      have hrela : Frame N st.mem sa.mem := hrela
      have hla := perm_length_cons hperma
      -- second `Pop`
      obtain ⟨right, sb, hpopb, hinvb, hrelb, _, hpermb, _⟩ :=
        Pop_spec (NodeHeap_lawful _ N) sa hinva
          (by show sa.h ≠ []; intro h; rw [h] at hla; simp at hla; omega)
      have hpermb : sa.h.Perm (right :: sb.h) := hpermb
      have hrelb : Frame N sa.mem sb.mem := hrelb
      have hlb := perm_length_cons hpermb
      have hvalb : ∀ p ∈ sb.h, p < sb.mem.length := hinvb.1
      have hleft : left < sb.mem.length := by
        rw [hrelb.1, hrela.1]
        exact hval left (hperma.symm.subset (List.mem_cons_self _ _))
      have hright : right < sb.mem.length := by
        rw [hrelb.1]
        exact hinva.1 right (hpermb.symm.subset (List.mem_cons_self _ _))
      obtain ⟨ln, hln⟩ := getElem?_of_lt sb.mem left hleft
      obtain ⟨rn, hrn⟩ := getElem?_of_lt sb.mem right hright
      have hincb : ParentInc sb.mem := hrelb.frame_parentInc (hrela.frame_parentInc hinc)
      -- allocation of the parent and the four stores
      have hext1 := Ext.ext_append N sb.mem { Freq := ln.Freq + rn.Freq }
      have hinc1 := hincb.parentInc_append { Freq := ln.Freq + rn.Freq } rfl
      have hl1 : (sb.mem ++ [({ Freq := ln.Freq + rn.Freq } : Node)]).length =
          sb.mem.length + 1 := by simp
      obtain ⟨mem2, hs2, hl2, hext2, hinc2⟩ := store_keep N
        (sb.mem ++ [{ Freq := ln.Freq + rn.Freq }]) left
        (fun nd => { nd with Parent := some sb.mem.length }) (by omega)
        (fun a => ⟨rfl, rfl, rfl⟩)
        (fun a q hq => Or.inr (by simp at hq; omega))
      obtain ⟨mem3, hs3, hl3, hext3, hinc3⟩ := store_keep N mem2 right
        (fun nd => { nd with Parent := some sb.mem.length }) (by omega)
        (fun a => ⟨rfl, rfl, rfl⟩)
        (fun a q hq => Or.inr (by simp at hq; omega))
      obtain ⟨mem4, hs4, hl4, hext4, hinc4⟩ := store_keep N mem3 sb.mem.length
        (fun nd => { nd with Left := some left }) (by omega)
        (fun a => ⟨rfl, rfl, rfl⟩)
        (fun a q hq => Or.inl hq)
      obtain ⟨mem5, hs5, hl5, hext5, hinc5⟩ := store_keep N mem4 sb.mem.length
        (fun nd => { nd with Right := some right }) (by omega)
        (fun a => ⟨rfl, rfl, rfl⟩)
        (fun a q hq => Or.inl hq)
      have hinc5 := hinc5 (hinc4 (hinc3 (hinc2 hinc1)))
      have hext15 : Ext N sb.mem mem5 :=
        hext1.ext_trans (hext2.ext_trans (hext3.ext_trans (hext4.ext_trans hext5)))
      -- `Push` of the parent
      have hinvp : (nodeView (fun p => (mem5.getD p {}).Freq) N).inv
          { mem := mem5, h := sb.h } :=
        ⟨fun p hp => by
            have := hvalb p hp
            show p < mem5.length
            omega,
          freq_getD mem5, by show sb.h.length ≤ N; omega⟩
      obtain ⟨sc, hpush, hinvc, hrelc, hpermc, _⟩ :=
        Push_spec (NodeHeap_lawful _ N) { mem := mem5, h := sb.h } sb.mem.length hinvp
          ⟨by show sb.mem.length < mem5.length; omega, by show sb.h.length < N; omega⟩
      have hpermc : sc.h.Perm (sb.mem.length :: sb.h) := hpermc
      have hrelc : Frame N mem5 sc.mem := hrelc
      have hlc := perm_length_cons hpermc
      obtain ⟨st1, hrun, hval1, hlen1, hext1b, hinc1b⟩ :=
        ih sc hinvc.1 (by omega) (by omega) (by omega) (hrelc.frame_parentInc hinc5)
      refine ⟨st1, ?_, hval1, hlen1, ?_, hinc1b⟩
      · simp only [hpopa, hpopb, Option.bind_eq_bind, Option.some_bind, hln, hrn, hs2, hs3,
          hs4, hs5, hpush]
        exact hrun
      · exact hrela.frame_toExt.ext_trans (hrelb.frame_toExt.ext_trans (hext15.ext_trans (hrelc.frame_toExt.ext_trans hext1b)))
    · simp only [hlen, if_false]
      have hl : st.h.length = 1 := by
        have : ¬ (1 < st.h.length) := hlen
        omega
      exact ⟨st, rfl, hval, hl, Ext.ext_refl N _, hinc⟩

theorem buildTree_spec (s : symbols) (hval : ∀ p ∈ s.leaves, p < s.mem.length)
    (h1 : 1 ≤ s.leaves.length) (hinc : ParentInc s.mem) :
    ∃ s1, s.buildTree = some s1 ∧ s1.leaves = s.leaves ∧ s1.chars = s.chars ∧
      Ext s.leaves.length s.mem s1.mem ∧ ParentInc s1.mem ∧ ∃ r, s1.root = some r := by
  obtain ⟨st, hrun, hvalt, hlen, hext, hinct⟩ :=
    buildLoop_spec s.leaves.length (s.leaves.length + 1) { mem := s.mem, h := s.leaves }
      hval h1 (Nat.le_refl _) (Nat.le_succ _) hinc
  have hinv : (nodeView (fun p => (st.mem.getD p {}).Freq) s.leaves.length).inv st :=
    ⟨hvalt, freq_getD st.mem, by rw [hlen]; exact h1⟩
  obtain ⟨r, sa, hpop, _, hrel, _, _, _⟩ :=
    Pop_spec (NodeHeap_lawful _ s.leaves.length) st hinv
      (by show st.h ≠ []; intro h; rw [h] at hlen; simp at hlen)
  have hrel : Frame s.leaves.length st.mem sa.mem := hrel
  refine ⟨{ s with mem := sa.mem, root := some r }, ?_, rfl, rfl, hext.ext_trans hrel.frame_toExt,
    hrel.frame_parentInc hinct, r, rfl⟩
  unfold symbols.buildTree
  simp only [hrun, Option.bind_eq_bind, Option.some_bind, hpop]

theorem Ext.ext_char_freq {N : Nat} {m1 m2 : Mem} (h : Ext N m1 m2) (p : Nat)
    (hp : p < m1.length) :
    (m2.getD p {}).Char = (m1.getD p {}).Char ∧ (m2.getD p {}).Freq = (m1.getD p {}).Freq ∧
      ((m2.getD p {}).index = (m1.getD p {}).index ∨ (m2.getD p {}).index < N) := by
  obtain ⟨a, ha⟩ := getElem?_of_lt m1 p hp
  obtain ⟨b, hb, e4, e5, e6⟩ := h.2 p a ha
  rw [getD_of_getElem? ha, getD_of_getElem? hb]
  exact ⟨e5, e4, e6⟩

theorem getD_append_left (mem : Mem) (nd : Node) (p : Nat) (hp : p < mem.length) :
    (mem ++ [nd]).getD p {} = mem.getD p {} := by
  simp [List.getD_eq_getElem?_getD, List.getElem?_append_left hp]

theorem getD_append_length (mem : Mem) (nd : Node) :
    (mem ++ [nd]).getD mem.length {} = nd := by
  simp [List.getD_eq_getElem?_getD]

theorem insert_spec (s : symbols) (c : Nat) (hinv : s.Inv) :
    ∃ s1, s.insert c = some s1 ∧ s1.Inv ∧ s1.leaves.Perm (s.mem.length :: s.leaves) ∧
      s1.chars = (c, s.mem.length) :: s.chars ∧
      (∀ p, p < s.mem.length → s1.char p = s.char p ∧ s1.freq p = s.freq p) ∧
      s1.char s.mem.length = c ∧ s1.freq s.mem.length = 1 := by
  obtain ⟨hval, h2, hidx, hinc⟩ := hinv
  have hinvp : (nodeView
      (fun p => ((s.mem ++ [({ Freq := 1, Char := c, index := s.leaves.length } : Node)]).getD
        p {}).Freq) (s.leaves.length + 1)).inv
      { mem := s.mem ++ [{ Freq := 1, Char := c, index := s.leaves.length }], h := s.leaves } :=
    ⟨fun p hp => by
        have := hval p hp
        show p < (s.mem ++ [_]).length
        simp; omega,
      freq_getD _, by show s.leaves.length ≤ s.leaves.length + 1; omega⟩
  obtain ⟨st, hpush, hinvst, hrel, hperm, _⟩ :=
    Push_spec (NodeHeap_lawful _ (s.leaves.length + 1)) _ s.mem.length hinvp
      ⟨by show s.mem.length < (s.mem ++ [_]).length; simp,
       by show s.leaves.length < s.leaves.length + 1; omega⟩
  have hperm : st.h.Perm (s.mem.length :: s.leaves) := hperm
  have hrel : Frame (s.leaves.length + 1)
      (s.mem ++ [{ Freq := 1, Char := c, index := s.leaves.length }]) st.mem := hrel
  have hlen := perm_length_cons hperm
  have hincst : ParentInc st.mem := hrel.frame_parentInc (hinc.parentInc_append _ rfl)
  obtain ⟨s1, hbuild, hleaves, hchars, hext, hinc1, _⟩ :=
    buildTree_spec { s with mem := st.mem, leaves := st.h, chars := (c, s.mem.length) :: s.chars }
      hinvst.1 (by show 1 ≤ st.h.length; omega) hincst
  have hext : Ext (s.leaves.length + 1) st.mem s1.mem := by
    have : st.h.length = s.leaves.length + 1 := hlen
    rw [← this]
    exact hext
  have hext2 : Ext (s.leaves.length + 1)
      (s.mem ++ [{ Freq := 1, Char := c, index := s.leaves.length }]) s1.mem :=
    hrel.frame_toExt.ext_trans hext
  have hleaves : s1.leaves = st.h := hleaves
  refine ⟨s1, ?_, ⟨?_, ?_, ?_, hinc1⟩, ?_, hchars, ?_, ?_, ?_⟩
  · unfold symbols.insert
    simp only [hpush, Option.bind_eq_bind, Option.some_bind]
    exact hbuild
  · intro p hp
    rw [hleaves] at hp
    have := hinvst.1 p hp
    have := hext.1
    omega
  · rw [hleaves]; omega
  · intro p hp
    rw [hleaves] at hp ⊢
    rw [hlen]
    have hp2 := hperm.subset hp
    have hpl : p < (s.mem ++ [({ Freq := 1, Char := c, index := s.leaves.length } : Node)]).length := by
      rcases List.mem_cons.1 hp2 with h | h
      · subst h; simp
      · have := hval p h; simp; omega
    obtain ⟨_, _, hi⟩ := hext2.ext_char_freq p hpl
    rcases hi with hi | hi
    · rw [hi]
      rcases List.mem_cons.1 hp2 with h | h
      · subst h
        rw [getD_append_length]
        show s.leaves.length < s.leaves.length + 1
        omega
      · rw [getD_append_left _ _ _ (hval p h)]
        have := hidx p h
        omega
    · exact hi
  · rw [hleaves]; exact hperm
  · intro p hp
    obtain ⟨h1, h2, _⟩ := hext2.ext_char_freq p (by simp; omega)
    rw [getD_append_left _ _ _ hp] at h1 h2
    exact ⟨h1, h2⟩
  · obtain ⟨h1, _, _⟩ := hext2.ext_char_freq s.mem.length (by simp)
    rw [getD_append_length] at h1
    exact h1
  · obtain ⟨_, h2, _⟩ := hext2.ext_char_freq s.mem.length (by simp)
    rw [getD_append_length] at h2
    exact h2

theorem update_spec (s : symbols) (node : Nat) (hinv : s.Inv) (hnode : node ∈ s.leaves) :
    ∃ s1, s.update node = some s1 ∧ s1.Inv ∧ s1.leaves.Perm s.leaves ∧ s1.chars = s.chars ∧
      (∀ p, p < s.mem.length → s1.char p = s.char p) ∧
      s1.freq node = s.freq node + 1 ∧
      (∀ p, p < s.mem.length → p ≠ node → s1.freq p = s.freq p) := by
  obtain ⟨hval, h2, hidx, hinc⟩ := hinv
  have hnl := hval node hnode
  obtain ⟨a, ha⟩ := getElem?_of_lt s.mem node hnl
  have hstore := store_eq s.mem node (fun nd => { nd with Freq := nd.Freq + 1 }) a ha
  have hget1 : ∀ q, (s.mem.set node { a with Freq := a.Freq + 1 }).getD q {} =
      if q = node then { a with Freq := a.Freq + 1 } else s.mem.getD q {} := by
    intro q
    by_cases hq : q = node
    · subst hq; simp [List.getD_eq_getElem?_getD, hnl]
    · simp [List.getD_eq_getElem?_getD, List.getElem?_set_ne (Ne.symm hq), hq]
  have hnd1 : (s.mem.set node { a with Freq := a.Freq + 1 })[node]? =
      some { a with Freq := a.Freq + 1 } := by simp [hnl]
  have hinc1 : ParentInc (s.mem.set node { a with Freq := a.Freq + 1 }) := by
    intro q b r hb hr
    simp only [List.length_set]
    by_cases hq : q = node
    · subst hq
      rw [hnd1] at hb
      cases hb
      exact hinc q a r ha hr
    · rw [List.getElem?_set_ne (Ne.symm hq)] at hb
      exact hinc q b r hb hr
  have haidx : a.index < s.leaves.length := by
    have := hidx node hnode
    rwa [getD_of_getElem? ha] at this
  have hinvp : (nodeView
      (fun p => ((s.mem.set node { a with Freq := a.Freq + 1 }).getD p {}).Freq)
      s.leaves.length).inv
      { mem := s.mem.set node { a with Freq := a.Freq + 1 }, h := s.leaves } :=
    ⟨fun p hp => by
        have := hval p hp
        show p < (s.mem.set node _).length
        simpa using this,
      freq_getD _, Nat.le_refl _⟩
  obtain ⟨st, hfix, hinvst, hrel, hperm, _⟩ :=
    Fix_spec (NodeHeap_lawful _ s.leaves.length) _ a.index hinvp haidx
  have hperm : st.h.Perm s.leaves := hperm
  have hrel : Frame s.leaves.length (s.mem.set node { a with Freq := a.Freq + 1 }) st.mem :=
    hrel
  obtain ⟨s1, hbuild, hleaves, hchars, hext, hincs1, _⟩ :=
    buildTree_spec { s with mem := st.mem, leaves := st.h } hinvst.1
      (by show 1 ≤ st.h.length; rw [hperm.length_eq]; omega) (hrel.frame_parentInc hinc1)
  have hleaves : s1.leaves = st.h := hleaves
  have hext : Ext s.leaves.length st.mem s1.mem := by
    have : st.h.length = s.leaves.length := hperm.length_eq
    rw [← this]
    exact hext
  have hext2 := hrel.frame_toExt.ext_trans hext
  have hcf : ∀ p, p < s.mem.length →
      s1.char p = (if p = node then ({ a with Freq := a.Freq + 1 } : Node) else s.mem.getD p {}).Char ∧
      s1.freq p = (if p = node then ({ a with Freq := a.Freq + 1 } : Node) else s.mem.getD p {}).Freq ∧
      ((s1.mem.getD p {}).index =
          (if p = node then ({ a with Freq := a.Freq + 1 } : Node) else s.mem.getD p {}).index ∨
        (s1.mem.getD p {}).index < s.leaves.length) := by
    intro p hp
    have := hext2.ext_char_freq p (by simpa using hp)
    rw [hget1 p] at this
    exact this
  refine ⟨s1, ?_, ⟨?_, ?_, ?_, hincs1⟩, ?_, hchars, ?_, ?_, ?_⟩
  · unfold symbols.update
    simp only [hstore, Option.bind_eq_bind, Option.some_bind, hnd1]
    rw [hfix]
    exact hbuild
  · intro p hp
    rw [hleaves] at hp
    have := hinvst.1 p hp
    have := hext.1
    omega
  · rw [hleaves, hperm.length_eq]; exact h2
  · intro p hp
    rw [hleaves] at hp ⊢
    rw [hperm.length_eq]
    have hp2 := hperm.subset hp
    obtain ⟨_, _, hi⟩ := hcf p (hval p hp2)
    rcases hi with hi | hi
    · rw [hi]
      by_cases hq : p = node
      · simp only [hq, if_true]; exact haidx
      · simp only [hq, if_false]; exact hidx p hp2
    · exact hi
  · rw [hleaves]; exact hperm
  · intro p hp
    obtain ⟨h1, _, _⟩ := hcf p hp
    rw [h1]
    by_cases hq : p = node
    · subst hq
      simp only [if_true]
      show a.Char = (s.mem.getD p {}).Char
      rw [getD_of_getElem? ha]
    · simp only [hq, if_false]; rfl
  · obtain ⟨_, h1, _⟩ := hcf node hnl
    rw [h1]
    simp only [if_true]
    show a.Freq + 1 = (s.mem.getD node {}).Freq + 1
    rw [getD_of_getElem? ha]
  · intro p hp hq
    obtain ⟨_, h1, _⟩ := hcf p hp
    rw [h1]
    simp only [hq, if_false]; rfl

theorem codeLoop_total (mem : Mem) (hinc : ParentInc mem) :
    ∀ (fuel n : Nat) (parent : Option Nat) (r count : Nat),
      (∃ a, mem[n]? = some a ∧ a.Parent = parent) → mem.length < fuel + n →
      ∃ res, codeLoop mem fuel n parent r count = some res := by
  intro fuel
  induction fuel with
  | zero =>
    intro n parent r count ⟨a, ha, _⟩ h
    have := lt_of_getElem? ha
    omega
  | succ fuel ih =>
    intro n parent r count ⟨a, ha, hpar⟩ h
    cases parent with
    | none => exact ⟨_, rfl⟩
    | some q =>
      obtain ⟨h1, h2⟩ := hinc n a q ha hpar
      obtain ⟨pn, hpn⟩ := getElem?_of_lt mem q h2
      simp only [codeLoop, hpn, Option.bind_eq_bind, Option.some_bind]
      exact ih q pn.Parent _ _ ⟨pn, hpn, rfl⟩ (by omega)

theorem Code_total (mem : Mem) (hinc : ParentInc mem) (n : Nat) (hn : n < mem.length) :
    ∃ res, Code mem n = some res := by
  obtain ⟨a, ha⟩ := getElem?_of_lt mem n hn
  simp only [Code, ha, Option.bind_eq_bind, Option.some_bind]
  exact codeLoop_total mem hinc _ n a.Parent 0 0 ⟨a, ha, rfl⟩ (by omega)

theorem newChar_ge : 256 ≤ newChar := by decide

theorem eof_ge : 256 ≤ eof := by decide

theorem count_append_singleton (S : List Nat) (b c : Nat) :
    (S ++ [b]).count c = S.count c + (if b = c then 1 else 0) := by
  rw [List.count_append, List.count_singleton]
  by_cases h : b = c
  · simp [h]
  · simp [h]

theorem Tracks_insert (s s1 : symbols) (S : List Nat) (b : Nat) (hb : b < 256)
    (hinv : s.Inv) (ht : s.Tracks S) (hlk : s.chars.lookup b = none)
    (hperm : s1.leaves.Perm (s.mem.length :: s.leaves))
    (hchars : s1.chars = (b, s.mem.length) :: s.chars)
    (hold : ∀ p, p < s.mem.length → s1.char p = s.char p ∧ s1.freq p = s.freq p)
    (hcn : s1.char s.mem.length = b) (hfn : s1.freq s.mem.length = 1) :
    s1.Tracks (S ++ [b]) := by
  obtain ⟨t1, t2, t3, t4⟩ := ht
  have hval := hinv.1
  have hno : ∀ p ∈ s.leaves, s.char p ≠ b := by
    intro p hp hc
    have := (t4 b p).2 ⟨hp, hc⟩
    rw [hlk] at this
    cases this
  have hbS : b ∉ S := by
    intro h
    obtain ⟨p, hp, hc⟩ := t3 b (Or.inr (Or.inr h))
    exact hno p hp hc
  have hmem : ∀ p, p ∈ s1.leaves ↔ p = s.mem.length ∨ p ∈ s.leaves := by
    intro p
    rw [hperm.mem_iff, List.mem_cons]
  refine ⟨?_, ?_, ?_, ?_⟩
  · rw [(hperm.map s1.char).nodup_iff, List.map_cons, hcn]
    have hm : s.leaves.map s1.char = s.leaves.map s.char :=
      List.map_congr_left (fun p hp => (hold p (hval p hp)).1)
    rw [hm, List.nodup_cons]
    refine ⟨?_, t1⟩
    intro h
    obtain ⟨p, hp, hc⟩ := List.mem_map.1 h
    exact hno p hp hc
  · intro p hp
    rcases (hmem p).1 hp with h | h
    · subst h
      right; right
      rw [hcn, hfn, count_append_singleton]
      refine ⟨by simp, ?_⟩
      rw [List.count_eq_zero_of_not_mem hbS]
      simp
    · obtain ⟨h1, h2⟩ := hold p (hval p h)
      rw [h1, h2]
      rcases t2 p h with h3 | h3 | h3
      · exact Or.inl h3
      · exact Or.inr (Or.inl h3)
      · right; right
        refine ⟨List.mem_append_left _ h3.1, ?_⟩
        rw [count_append_singleton, h3.2]
        have : b ≠ s.char p := fun e => hno p h e.symm
        simp [this]
  · intro c hc
    by_cases hcb : c = b
    · exact ⟨s.mem.length, (hmem _).2 (Or.inl rfl), by rw [hcn, hcb]⟩
    · have hc2 : c = newChar ∨ c = eof ∨ c ∈ S := by
        rcases hc with h | h | h
        · exact Or.inl h
        · exact Or.inr (Or.inl h)
        · rcases List.mem_append.1 h with h | h
          · exact Or.inr (Or.inr h)
          · simp at h; exact absurd h hcb
      obtain ⟨p, hp, hpc⟩ := t3 c hc2
      exact ⟨p, (hmem p).2 (Or.inr hp), by rw [(hold p (hval p hp)).1]; exact hpc⟩
  · intro c p
    rw [hchars, List.lookup_cons]
    by_cases hcb : c = b
    · subst hcb
      simp only [beq_self_eq_true]
      constructor
      · intro h
        cases h
        exact ⟨(hmem _).2 (Or.inl rfl), hcn⟩
      · intro ⟨h1, h2⟩
        rcases (hmem p).1 h1 with h | h
        · rw [h]
        · rw [(hold p (hval p h)).1] at h2
          exact absurd h2 (hno p h)
    · have : (c == b) = false := by simpa using hcb
      simp only [this]
      rw [t4 c p]
      constructor
      · intro ⟨h1, h2⟩
        exact ⟨(hmem p).2 (Or.inr h1), by rw [(hold p (hval p h1)).1]; exact h2⟩
      · intro ⟨h1, h2⟩
        rcases (hmem p).1 h1 with h | h
        · rw [h, hcn] at h2
          exact absurd h2.symm hcb
        · exact ⟨h, by rw [← (hold p (hval p h)).1]; exact h2⟩

theorem Tracks_update (s s1 : symbols) (S : List Nat) (b node : Nat) (hb : b < 256)
    (hinv : s.Inv) (ht : s.Tracks S) (hlk : s.chars.lookup b = some node)
    (hperm : s1.leaves.Perm s.leaves) (hchars : s1.chars = s.chars)
    (hc : ∀ p, p < s.mem.length → s1.char p = s.char p)
    (hfn : s1.freq node = s.freq node + 1)
    (hfo : ∀ p, p < s.mem.length → p ≠ node → s1.freq p = s.freq p) :
    s1.Tracks (S ++ [b]) := by
  obtain ⟨t1, t2, t3, t4⟩ := ht
  have hval := hinv.1
  obtain ⟨hnode, hcnode⟩ := (t4 b node).1 hlk
  have hmem : ∀ p, p ∈ s1.leaves ↔ p ∈ s.leaves := fun p => hperm.mem_iff
  have hinj : ∀ p ∈ s.leaves, s.char p = b → p = node := by
    intro p hp hpc
    exact List.inj_on_of_nodup_map t1 hp hnode (by rw [hpc, hcnode])
  have hnb : (s.char node ∈ S ∧ s.freq node = S.count (s.char node)) := by
    rcases t2 node hnode with h | h | h
    · have := newChar_ge; rw [← h.1, hcnode] at this; omega
    · have := eof_ge; rw [← h.1, hcnode] at this; omega
    · exact h
  refine ⟨?_, ?_, ?_, ?_⟩
  · rw [(hperm.map s1.char).nodup_iff]
    have hm : s.leaves.map s1.char = s.leaves.map s.char :=
      List.map_congr_left (fun p hp => hc p (hval p hp))
    rw [hm]
    exact t1
  · intro p hp
    have hp2 := (hmem p).1 hp
    rw [hc p (hval p hp2)]
    by_cases hpn : p = node
    · subst hpn
      right; right
      rw [hfn, count_append_singleton, hnb.2, hcnode]
      exact ⟨by simp, by simp⟩
    · rw [hfo p (hval p hp2) hpn]
      rcases t2 p hp2 with h3 | h3 | h3
      · exact Or.inl h3
      · exact Or.inr (Or.inl h3)
      · right; right
        refine ⟨List.mem_append_left _ h3.1, ?_⟩
        rw [count_append_singleton, h3.2]
        have : b ≠ s.char p := fun e => hpn (hinj p hp2 e.symm)
        simp [this]
  · intro c hcc
    have hc2 : c = newChar ∨ c = eof ∨ c ∈ S := by
      rcases hcc with h | h | h
      · exact Or.inl h
      · exact Or.inr (Or.inl h)
      · rcases List.mem_append.1 h with h | h
        · exact Or.inr (Or.inr h)
        · simp at h
          rw [h, ← hcnode]
          exact Or.inr (Or.inr hnb.1)
    obtain ⟨p, hp, hpc⟩ := t3 c hc2
    exact ⟨p, (hmem p).2 hp, by rw [hc p (hval p hp)]; exact hpc⟩
  · intro c p
    rw [hchars, t4 c p]
    constructor
    · intro ⟨h1, h2⟩
      exact ⟨(hmem p).2 h1, by rw [hc p (hval p h1)]; exact h2⟩
    · intro ⟨h1, h2⟩
      have h3 := (hmem p).1 h1
      exact ⟨h3, by rw [← hc p (hval p h3)]; exact h2⟩

theorem WriteByte_tracks (w : Writer) (S : List Nat) (b : Nat) (hb : b < 256)
    (hinv : w.sym.Inv) (ht : w.sym.Tracks S) :
    ∃ w1, w.WriteByte b = some w1 ∧ w1.sym.Inv ∧ w1.sym.Tracks (S ++ [b]) := by
  cases hlk : w.sym.chars.lookup b with
  | none =>
    obtain ⟨p0, hp0, hc0⟩ := ht.2.2.1 newChar (Or.inl rfl)
    have hnew := (ht.2.2.2 newChar p0).2 ⟨hp0, hc0⟩
    obtain ⟨c, hcode⟩ := Code_total w.sym.mem hinv.2.2.2 p0 (hinv.1 p0 hp0)
    obtain ⟨s1, hins, hinv1, hperm, hchars, hold, hcn, hfn⟩ := insert_spec w.sym b hinv
    refine ⟨{ sym := s1, bw := (w.bw.WriteBits c.1 c.2).WriteByte b }, ?_, hinv1,
      Tracks_insert w.sym s1 S b hb hinv ht hlk hperm hchars hold hcn hfn⟩
    unfold Writer.WriteByte
    simp only [hlk, hnew, hcode, hins, Option.bind_eq_bind, Option.some_bind]
  | some node =>
    obtain ⟨hnode, _⟩ := (ht.2.2.2 b node).1 hlk
    obtain ⟨c, hcode⟩ := Code_total w.sym.mem hinv.2.2.2 node (hinv.1 node hnode)
    obtain ⟨s1, hupd, hinv1, hperm, hchars, hc, hfn, hfo⟩ := update_spec w.sym node hinv hnode
    refine ⟨{ sym := s1, bw := w.bw.WriteBits c.1 c.2 }, ?_, hinv1,
      Tracks_update w.sym s1 S b node hb hinv ht hlk hperm hchars hc hfn hfo⟩
    unfold Writer.WriteByte
    simp only [hlk, hcode, hupd, Option.bind_eq_bind, Option.some_bind]

theorem Write_tracks : ∀ (p : List Nat) (w : Writer) (S : List Nat),
    (∀ b ∈ p, b < 256) → w.sym.Inv → w.sym.Tracks S →
    ∃ w1, w.Write p = some w1 ∧ w1.sym.Inv ∧ w1.sym.Tracks (S ++ p)
  | [], w, S, _, hinv, ht => ⟨w, rfl, hinv, by simpa using ht⟩
  | b :: p, w, S, hp, hinv, ht => by
    obtain ⟨w1, h1, hinv1, ht1⟩ :=
      WriteByte_tracks w S b (hp b (List.mem_cons_self _ _)) hinv ht
    obtain ⟨w2, h2, hinv2, ht2⟩ :=
      Write_tracks p w1 (S ++ [b]) (fun x hx => hp x (List.mem_cons_of_mem _ hx)) hinv1 ht1
    refine ⟨w2, ?_, hinv2, by simpa using ht2⟩
    unfold Writer.Write at h2 ⊢
    simp only [List.foldlM_cons, h1, Option.bind_eq_bind, Option.some_bind]
    exact h2

/-- The state of a fresh writer. -/
theorem NewWriter_eq :
    NewWriter = some
      { sym :=
          { mem := [{ Parent := some 2, Freq := 1, Char := newChar, index := 1 },
                    { Parent := some 2, Freq := 1, Char := eof, index := 0 },
                    { Left := some 0, Right := some 1, Freq := 2 }],
            root := some 2, leaves := [0, 1], chars := [(eof, 1), (newChar, 0)] },
        bw := bits.NewWriter } := by
  decide

theorem NewWriter_inv (w0 : Writer) (h : NewWriter = some w0) :
    w0.sym.Inv ∧ w0.sym.Tracks [] := by
  rw [NewWriter_eq] at h
  cases h
  refine ⟨⟨by decide, by decide, by decide, ?_⟩, by decide, by decide, ?_, ?_⟩
  · intro p a q ha hq
    have hp : p < 3 := lt_of_getElem? ha
    interval_cases p <;> simp at ha <;> subst ha <;> simp at hq <;> subst hq <;> decide
  · intro c hc
    rcases hc with h | h | h
    · exact ⟨0, by simp, by rw [h]; rfl⟩
    · exact ⟨1, by simp, by rw [h]; rfl⟩
    · simp at h
  · intro c p
    simp only [List.lookup_cons, List.lookup_nil]
    by_cases h1 : c = eof
    · subst h1
      simp only [beq_self_eq_true]
      constructor
      · intro h; cases h; exact ⟨by simp, rfl⟩
      · intro ⟨h2, h3⟩
        simp at h2
        rcases h2 with h2 | h2
        · subst h2; exact absurd h3 (by decide)
        · rw [h2]
    · have e1 : (c == eof) = false := by simpa using h1
      simp only [e1]
      by_cases h2 : c = newChar
      · subst h2
        simp only [beq_self_eq_true]
        constructor
        · intro h; cases h; exact ⟨by simp, rfl⟩
        · intro ⟨h2, h3⟩
          simp at h2
          rcases h2 with h2 | h2
          · rw [h2]
          · subst h2; exact absurd h3 (by decide)
      · have e2 : (c == newChar) = false := by simpa using h2
        simp only [e2]
        constructor
        · intro h; cases h
        · intro ⟨h3, h4⟩
          simp at h3
          rcases h3 with h3 | h3
          · subst h3; exact absurd h4.symm h2
          · subst h3; exact absurd h4.symm h1

/-- C8, evaluated on the code: right after `newSymbols()` the leaf queue is
`[NEW, END]` while the `index` fields are `1` and `0`, and after one more
`WriteByte(0)` the queue of three leaves has the `index` fields `2, 1, 1`: no
leaf's `index` is its position in `s.leaves`. -/
theorem leaf_index_is_not_position :
    (∃ s, newSymbols = some s ∧ s.leaves = [0, 1] ∧ s.leafIndices = [1, 0] ∧ ¬ s.IndexOK) ∧
      (∃ w, NewWriter.bind (fun w0 => w0.WriteByte 0) = some w ∧ w.sym.leaves = [0, 1, 3] ∧
        w.sym.leafIndices = [2, 1, 1] ∧ ¬ w.sym.IndexOK) := by
  refine ⟨⟨_, rfl, by decide, by decide, ?_⟩, ⟨_, rfl, by decide, by decide, ?_⟩⟩
  · unfold symbols.IndexOK; decide
  · unfold symbols.IndexOK; decide

/-- C9, evaluated on the code: after a fresh writer has written the bytes
`0, 1, 1, 2, 3, 0` the frequencies of the leaf queue are `[1, 1, 2, 2, 1, 1]`
in queue order: the leaf at position 5 has frequency 1, its parent at
position 2 has frequency 2, so the queue is not a min-heap. -/
theorem leaf_queue_loses_heap_order :
    ∃ w, NewWriter.bind (fun w0 => w0.Write [0, 1, 1, 2, 3, 0]) = some w ∧
      w.sym.leafFreqs = [1, 1, 2, 2, 1, 1] ∧ ¬ IsHeap natLt w.sym.leafFreqs := by
  refine ⟨_, rfl, by decide, ?_⟩
  intro h
  have := h 5 1 2 (by decide) (by decide) (by decide)
  exact absurd this (by decide)

/-- C10: after a fresh writer has written a byte sequence `S` short enough for
an `int` to count it (`len(S) + 2` below `maxInt`, so that no `Freq` has
wrapped), the leaves of the queue carry pairwise distinct symbols; the pairs
(symbol, frequency) of the leaves are exactly `newChar` with 1, `eof` with 1,
and every byte of `S` with its number of occurrences in `S`; every leaf
frequency is below `maxInt`; `chars` maps exactly these symbols to their
leaves; and `update` of any leaf returns, permutes the queue, raises the
frequency of that leaf by 1 and changes no other leaf's frequency or symbol. -/
theorem leaves_track_input (S : List Nat) (hS : ∀ b ∈ S, b < 256)
    (hlen : S.length + 2 < maxInt) :
    ∃ w0 w, NewWriter = some w0 ∧ w0.Write S = some w ∧
      (w.sym.leafTable.map Prod.fst).Nodup ∧
      (∀ c f, (c, f) ∈ w.sym.leafTable ↔
        (c = newChar ∧ f = 1) ∨ (c = eof ∧ f = 1) ∨ (c ∈ S ∧ f = S.count c)) ∧
      (∀ p ∈ w.sym.leaves, w.sym.freq p < maxInt) ∧
      (∀ c p, w.sym.chars.lookup c = some p ↔ p ∈ w.sym.leaves ∧ w.sym.char p = c) ∧
      (∀ node ∈ w.sym.leaves, ∃ s1, w.sym.update node = some s1 ∧
        s1.leaves.Perm w.sym.leaves ∧ s1.freq node = w.sym.freq node + 1 ∧
        ∀ p ∈ w.sym.leaves, p ≠ node →
          s1.freq p = w.sym.freq p ∧ s1.char p = w.sym.char p) := by
  obtain ⟨hinv0, ht0⟩ := NewWriter_inv _ NewWriter_eq
  obtain ⟨w, hw, hinv, ht⟩ := Write_tracks S _ [] hS hinv0 ht0
  rw [List.nil_append] at ht
  obtain ⟨t1, t2, t3, t4⟩ := ht
  have hbound : ∀ p ∈ w.sym.leaves, w.sym.freq p < maxInt := by
    intro p hp
    have hcount : S.count (w.sym.char p) ≤ S.length := List.count_le_length _ _
    rcases t2 p hp with h | h | h
    · rw [h.2]; omega
    · rw [h.2]; omega
    · rw [h.2]; omega
  refine ⟨_, w, NewWriter_eq, hw, ?_, ?_, hbound, t4, ?_⟩
  · have : w.sym.leafTable.map Prod.fst = w.sym.leaves.map w.sym.char := by
      simp [symbols.leafTable, symbols.char, List.map_map, Function.comp_def]
    rw [this]
    exact t1
  · intro c f
    have hmem : (c, f) ∈ w.sym.leafTable ↔
        ∃ p ∈ w.sym.leaves, w.sym.char p = c ∧ w.sym.freq p = f := by
      simp [symbols.leafTable, symbols.char, symbols.freq, List.mem_map]
    rw [hmem]
    constructor
    · intro ⟨p, hp, hc, hf⟩
      rw [← hc, ← hf]
      exact t2 p hp
    · intro h
      have hc : c = newChar ∨ c = eof ∨ c ∈ S := by
        rcases h with h | h | h
        · exact Or.inl h.1
        · exact Or.inr (Or.inl h.1)
        · exact Or.inr (Or.inr h.1)
      obtain ⟨p, hp, hpc⟩ := t3 c hc
      refine ⟨p, hp, hpc, ?_⟩
      have hn := newChar_ge
      have he := eof_ge
      have hne : newChar ≠ eof := by decide
      rcases t2 p hp with h1 | h1 | h1 <;> rcases h with h2 | h2 | h2
      · rw [h1.2, h2.2]
      · rw [hpc] at h1; exact absurd (h1.1.symm.trans h2.1) hne
      · have := hS c h2.1; rw [hpc] at h1; omega
      · rw [hpc] at h1; exact absurd (h2.1.symm.trans h1.1) hne
      · rw [h1.2, h2.2]
      · have := hS c h2.1; rw [hpc] at h1; omega
      · have := hS c (by rw [← hpc]; exact h1.1); omega
      · have := hS c (by rw [← hpc]; exact h1.1); omega
      · rw [h1.2, h2.2, hpc]
  · intro node hnode
    obtain ⟨s1, hupd, _, hperm, _, hc, hfn, hfo⟩ := update_spec w.sym node hinv hnode
    refine ⟨s1, hupd, hperm, hfn, ?_⟩
    intro p hp hpn
    exact ⟨hfo p (hinv.1 p hp) hpn, hc p (hinv.1 p hp)⟩

/-- C10 at a concrete input: the byte sequence `0, 1, 1`. -/
theorem leaves_track_input_example :
    ∃ w0 w, NewWriter = some w0 ∧ w0.Write [0, 1, 1] = some w ∧
      (w.sym.leafTable.map Prod.fst).Nodup ∧
      (∀ c f, (c, f) ∈ w.sym.leafTable ↔
        (c = newChar ∧ f = 1) ∨ (c = eof ∧ f = 1) ∨ (c ∈ [0, 1, 1] ∧ f = [0, 1, 1].count c)) ∧
      (∀ p ∈ w.sym.leaves, w.sym.freq p < maxInt) ∧
      (∀ c p, w.sym.chars.lookup c = some p ↔ p ∈ w.sym.leaves ∧ w.sym.char p = c) ∧
      (∀ node ∈ w.sym.leaves, ∃ s1, w.sym.update node = some s1 ∧
        s1.leaves.Perm w.sym.leaves ∧ s1.freq node = w.sym.freq node + 1 ∧
        ∀ p ∈ w.sym.leaves, p ≠ node →
          s1.freq p = w.sym.freq p ∧ s1.char p = w.sym.char p) :=
  leaves_track_input [0, 1, 1] (by decide) (by decide)

end huffman

/-! ## Theorems about the end of the stream and the byte-level calls -/

namespace bits

theorem readUnalignedLoop_result : ∀ (k i n : Nat) (p : List Nat) (r : Reader),
    k ≤ r.src.length →
    (readUnalignedLoop k i n p r).1 = .ok (if k = 0 then n else i + k - 1) := by
  intro k
  induction k with
  | zero => intro i n p r _; rfl
  | succ k ih =>
    intro i n p r hk
    cases hsrc : r.src with
    | nil => rw [hsrc] at hk; simp at hk
    | cons x rest =>
      have hstep : r.readUnalignedByte =
          (.ok (byte (r.buf <<< sub8 8 r.count) ||| (x >>> r.count)),
            { r with src := rest, buf := x &&& sub8 (byte (1 <<< r.count)) 1 }) := by
        simp only [Reader.readUnalignedByte, hsrc]
      rw [readUnalignedLoop, hstep]
      simp only
      rw [ih]
      · by_cases h0 : k = 0
        · simp [h0]
        · simp [h0]
      · rw [hsrc] at hk
        simpa using hk

/-- C20: on the unaligned path `Read(p)` returns the last position written,
`len(p) - 1`, and not the number `len(p)` of bytes read: for every reader with
pending bits and every non-empty buffer that the source can fill. -/
theorem Read_unaligned_returns_last_index (r : Reader) (p : List Nat)
    (hcount : r.count ≠ 0) (hp : p ≠ []) (hsrc : p.length ≤ r.src.length) :
    (r.Read p).1 = .ok (p.length - 1) ∧ (r.Read p).1 ≠ .ok p.length := by
  have hlen : p.length ≠ 0 := by
    intro h; exact hp (List.length_eq_zero.1 h)
  have h1 : (r.Read p).1 = .ok (p.length - 1) := by
    rw [Reader.Read, if_neg hcount, readUnalignedLoop_result _ _ _ _ _ hsrc, if_neg hlen]
    simp
  refine ⟨h1, ?_⟩
  rw [h1]
  intro h
  injection h with h
  omega

/-- C20 at a concrete input: one pending bit, three bytes in the source and a
buffer of two bytes; `Read` fills both bytes and returns `1`. -/
theorem Read_unaligned_returns_last_index_example :
    ({ src := [0xAB, 0xCD, 0xEF], buf := 1, count := 1 } : Reader).Read [0, 0] =
        (.ok 1, [0xD5, 0xE6], { src := [0xEF], buf := 1, count := 1 }) ∧
      (({ src := [0xAB, 0xCD, 0xEF], buf := 1, count := 1 } : Reader).Read [0, 0]).1 = .ok (2 - 1) ∧
      (({ src := [0xAB, 0xCD, 0xEF], buf := 1, count := 1 } : Reader).Read [0, 0]).1 ≠ .ok 2 :=
  ⟨rfl, Read_unaligned_returns_last_index
    { src := [0xAB, 0xCD, 0xEF], buf := 1, count := 1 } [0, 0] (by decide) (by decide)
    (by decide)⟩

/-- C17: `ReadBits(n)` returns no error although fewer than `n` bits remain:
on a reader over the empty source `ReadBits(1)` returns `0` and a nil error,
and with three pending bits and an empty source `ReadBits(5)` returns a value
and a nil error. -/
theorem ReadBits_no_error_on_exhausted_source :
    ((NewReader []).ReadBits 1).1 = .ok 0 ∧
      (({ src := [], buf := 5, count := 3 } : Reader).ReadBits 5).1 = .ok 20 ∧
      ((NewReader []).ReadOneBit).1 = .error .EOF ∧
      ((NewReader []).ReadByte).1 = .error .EOF :=
  ⟨rfl, rfl, rfl, rfl⟩

end bits

namespace bits

theorem lowBits_zero (m : Nat) : lowBits 0 m = List.replicate m false := by
  apply List.ext_getElem
  · simp [lowBits_length]
  · intro i h1 h2
    rw [lowBits_getElem]
    simp

theorem lowBits_split (buf c : Nat) (hc : c ≤ 8) (hb : buf % 2 ^ (8 - c) = 0) :
    lowBits buf 8 = (lowBits buf 8).take c ++ List.replicate (8 - c) false := by
  have h8 : 8 = c + (8 - c) := by omega
  have h1 : lowBits buf 8 = lowBits (buf >>> (8 - c)) c ++ lowBits buf (8 - c) := by
    conv_lhs => rw [h8]
    exact lowBits_add buf c (8 - c)
  have h2 : lowBits buf (8 - c) = List.replicate (8 - c) false := by
    rw [← lowBits_mod, hb, lowBits_zero]
  rw [take_lowBits buf 8 c hc, ← h2]
  exact h1

/-- C18: for every writer state with `K ≤ 7` pending bits held in the top of
the buffer byte, `Align` returns `8 - K` when `K > 0` and `0` when `K = 0`;
when `K > 0` it gives the sink exactly one byte, the buffer, whose top `K`
bits are the pending bits and whose low `8 - K` bits are zero, so that the
emitted bit sequence grows by `8 - K` zero bits; when `K = 0` it changes
nothing; afterwards no bit is pending, and `Close` is this alignment. -/
theorem Align_pads_to_byte (w : Writer) (hw : w.Valid) :
    (0 < w.count →
      w.Align.1 = 8 - w.count ∧ w.Align.2.out = w.out ++ [w.buf] ∧
      lowBits w.buf 8 = (lowBits w.buf 8).take w.count ++ List.replicate (8 - w.count) false ∧
      w.Align.2.emitted = w.emitted ++ List.replicate (8 - w.count) false) ∧
    (w.count = 0 → w.Align = (0, w)) ∧
    w.Align.2.count = 0 ∧ w.Align.2.buf = 0 ∧ w.Close = w.Align.2 := by
  obtain ⟨hc, _, hb⟩ := hw
  have hsplit := lowBits_split w.buf w.count (by omega) hb
  refine ⟨?_, ?_, ?_, ?_, rfl⟩
  · intro hpos
    have hsub : sub8 8 w.count = 8 - w.count := sub8_of_le (by omega) (by decide)
    simp only [Writer.Align, if_pos hpos, hsub, Writer.emitted, flatMap_snoc, List.take_zero,
      List.append_nil, true_and]
    refine ⟨hsplit, ?_⟩
    rw [List.append_assoc, ← hsplit]
  · intro h0
    simp [Writer.Align, h0]
  · unfold Writer.Align
    by_cases h : w.count > 0
    · simp [h]
    · simp only [h, if_false]; omega
  · unfold Writer.Align
    by_cases h : w.count > 0
    · simp [h]
    · simp only [h, if_false]
      have h0 : w.count = 0 := by omega
      rw [h0] at hb
      have : w.buf % 256 = 0 := hb
      omega

/-- C18 at a concrete input: three pending bits `101`. -/
theorem Align_pads_to_byte_example :
    ({ out := [7], buf := 0xA0, count := 3 } : Writer).Valid ∧
      (({ out := [7], buf := 0xA0, count := 3 } : Writer).Align.1 = 8 - 3 ∧
        ({ out := [7], buf := 0xA0, count := 3 } : Writer).Align.2.out = [7] ++ [0xA0] ∧
        ({ out := [7], buf := 0xA0, count := 3 } : Writer).Align.2.emitted =
          ({ out := [7], buf := 0xA0, count := 3 } : Writer).emitted ++
            List.replicate (8 - 3) false) :=
  ⟨⟨by decide, by decide, by decide⟩,
    let h := (Align_pads_to_byte { out := [7], buf := 0xA0, count := 3 }
      ⟨by decide, by decide, by decide⟩).1 (by decide)
    ⟨h.1, h.2.1, h.2.2.2⟩⟩

end bits

namespace huffman

/-- C13: a writer that is created and closed without a write gives the sink
no byte at all, and a reader over the empty input returns `io.EOF` on its
first `ReadByte`, so the decoded sequence is empty. -/
theorem empty_input_round_trip :
    (NewWriter.bind Writer.Close).map (fun w => w.bw.out) = some [] ∧
      encode [] = some [] ∧
      ((NewReader []).bind Reader.ReadByte).map (fun res => res.1) = some (.error .EOF) ∧
      decode [] = some ([], .EOF) :=
  ⟨by decide, by decide, rfl, by decide⟩

end huffman

/-! ## The bit stream seen by a reader -/

namespace bits

theorem lowBits_succ (r n : Nat) : lowBits r (n + 1) = r.testBit n :: lowBits r n := by
  have h := lowBits_add r 1 n
  rw [Nat.add_comm 1 n] at h
  rw [h]
  simp [lowBits, Nat.testBit_shiftRight]

theorem testBit_of_and_two_pow (x c : Nat) : (x &&& 2 ^ c != 0) = x.testBit c := by
  rw [Nat.and_two_pow]
  cases h : x.testBit c
  · simp
  · simp [Nat.pos_iff_ne_zero.1 (Nat.two_pow_pos c)]

theorem lowBits_and_mask (x c : Nat) : lowBits (x &&& (2 ^ c - 1)) c = lowBits x c := by
  rw [Nat.and_pow_two_sub_one_eq_mod, lowBits_mod]

theorem Reader.pending_nil_iff (r : Reader) :
    r.pending = [] ↔ r.count = 0 ∧ r.src = [] := by
  unfold Reader.pending
  constructor
  · intro h
    have h1 := congrArg List.length h
    simp only [List.length_append, lowBits_length, List.length_nil] at h1
    refine ⟨by omega, ?_⟩
    cases hs : r.src with
    | nil => rfl
    | cons x rest =>
      rw [hs] at h1
      simp [lowBits_length] at h1
  · rintro ⟨h1, h2⟩
    simp [h1, h2, lowBits]

/-- `ReadOneBit` delivers the first pending bit. -/
theorem ReadOneBit_spec (r : Reader) (hr : r.Valid) (hne : r.pending ≠ []) :
    ∃ b r1, r.ReadOneBit = (.ok b, r1) ∧ r.pending = b :: r1.pending ∧ r1.Valid := by
  obtain ⟨hc, hsrc⟩ := hr
  by_cases h0 : r.count = 0
  · cases hs : r.src with
    | nil => exact absurd ((Reader.pending_nil_iff r).2 ⟨h0, hs⟩) hne
    | cons x rest =>
      refine ⟨x &&& (1 <<< 7) != 0, { src := rest, buf := x &&& (1 <<< 7 - 1), count := 7 }, ?_,
        ?_, ?_⟩
      · simp only [Reader.ReadOneBit, h0, hs, if_true]
      · simp only [Reader.pending, h0, hs, List.flatMap_cons]
        have e1 : (1 <<< 7 : Nat) = 2 ^ 7 := by decide
        rw [e1, testBit_of_and_two_pow, lowBits_and_mask, lowBits_succ x 7]
        rfl
      · refine ⟨by show 7 < 8; decide, ?_⟩
        intro y hy
        exact hsrc y (by rw [hs]; exact List.mem_cons_of_mem _ hy)
  · obtain ⟨c, hcc⟩ : ∃ c, r.count = c + 1 := ⟨r.count - 1, by omega⟩
    have hsub : sub8 r.count 1 = c := by
      rw [sub8_of_le (by omega) (by omega)]; omega
    have hb : byte (1 <<< c) = 2 ^ c := by
      rw [Nat.one_shiftLeft]
      apply byte_of_lt
      calc 2 ^ c < 2 ^ 8 := Nat.pow_lt_pow_right (by decide) (by omega)
        _ = 256 := by decide
    have hm : sub8 (byte (1 <<< c)) 1 = 2 ^ c - 1 := mask8 c (by omega)
    have hm1 : sub8 (2 ^ c) 1 = 2 ^ c - 1 := by
      have h := hm
      rwa [hb] at h
    refine ⟨r.buf &&& 2 ^ c != 0, { r with buf := r.buf &&& (2 ^ c - 1), count := c }, ?_, ?_, ?_⟩
    · simp only [Reader.ReadOneBit, h0, if_false, hsub, hb, hm1]
    · simp only [Reader.pending, hcc]
      rw [testBit_of_and_two_pow, lowBits_and_mask, lowBits_succ]
      rfl
    · exact ⟨by show c < 8; omega, hsrc⟩

/-- `ReadOneBit` reports `io.EOF` when no bit is pending. -/
theorem ReadOneBit_nil (r : Reader) (h : r.pending = []) :
    ∃ r1, r.ReadOneBit = (.error .EOF, r1) := by
  obtain ⟨h0, hs⟩ := (Reader.pending_nil_iff r).1 h
  exact ⟨{ r with buf := 0 }, by simp only [Reader.ReadOneBit, h0, hs, if_true]⟩

end bits

namespace bits

theorem lowBits_inj {a b n : Nat} (ha : a < 2 ^ n) (hb : b < 2 ^ n)
    (h : lowBits a n = lowBits b n) : a = b := by
  apply Nat.eq_of_testBit_eq
  intro i
  by_cases hi : i < n
  · have h1 : (lowBits a n)[n - 1 - i]? = (lowBits b n)[n - 1 - i]? := by rw [h]
    rw [List.getElem?_eq_getElem (by rw [lowBits_length]; omega),
      List.getElem?_eq_getElem (by rw [lowBits_length]; omega), lowBits_getElem,
      lowBits_getElem] at h1
    have e : n - 1 - (n - 1 - i) = i := by omega
    rw [e] at h1
    exact Option.some.inj h1
  · have hle : 2 ^ n ≤ 2 ^ i := Nat.pow_le_pow_right (by decide) (by omega)
    rw [Nat.testBit_lt_two_pow (Nat.lt_of_lt_of_le ha hle),
      Nat.testBit_lt_two_pow (Nat.lt_of_lt_of_le hb hle)]

theorem Reader.pending_length (r : Reader) :
    r.pending.length = r.count + 8 * r.src.length := by
  unfold Reader.pending
  rw [List.length_append, lowBits_length]
  congr 1
  induction r.src with
  | nil => rfl
  | cons x rest ih => simp [List.flatMap_cons, lowBits_length, ih]; omega

/-- `ReadByte` delivers the next eight pending bits as a byte. -/
theorem ReadByte_spec (r : Reader) (hr : r.Valid) (h8 : 8 ≤ r.pending.length) :
    ∃ v r1, r.ReadByte = (.ok v, r1) ∧ v < 256 ∧ r.pending = lowBits v 8 ++ r1.pending ∧
      r1.Valid ∧ r1.count = r.count := by
  obtain ⟨hc, hsrc⟩ := hr
  rw [Reader.pending_length] at h8
  cases hs : r.src with
  | nil => rw [hs] at h8; simp at h8; omega
  | cons x rest =>
    have hx : x < 256 := hsrc x (by rw [hs]; exact List.mem_cons_self _ _)
    have hrest : ∀ y ∈ rest, y < 256 := fun y hy =>
      hsrc y (by rw [hs]; exact List.mem_cons_of_mem _ hy)
    by_cases h0 : r.count = 0
    · refine ⟨x, { r with src := rest }, ?_, hx, ?_, ⟨hc, hrest⟩, rfl⟩
      · simp only [Reader.ReadByte, h0, hs, if_true]
      · simp only [Reader.pending, h0, hs, List.flatMap_cons]
        rfl
    · have hsub : sub8 8 r.count = 8 - r.count := sub8_of_le (by omega) (by decide)
      have hm : sub8 (byte (1 <<< r.count)) 1 = 2 ^ r.count - 1 := mask8 r.count hc
      have hy : x >>> r.count < 2 ^ (8 - r.count) :=
        shiftRight_lt (n := 8) (by simpa using hx) (by omega)
      have hb0 : byte (r.buf <<< (8 - r.count)) % 2 ^ (8 - r.count) = 0 := by
        unfold byte
        rw [Nat.mod_mod_of_dvd _ (by
          have : (256 : Nat) = 2 ^ (8 - r.count) * 2 ^ r.count := by
            rw [← Nat.pow_add]
            have : 8 - r.count + r.count = 8 := by omega
            rw [this]
          rw [this]
          exact Nat.dvd_mul_right _ _)]
        exact shiftLeft_mod
      refine ⟨byte (r.buf <<< (8 - r.count)) ||| (x >>> r.count),
        { r with src := rest, buf := x &&& (2 ^ r.count - 1) }, ?_, ?_, ?_, ⟨hc, hrest⟩, rfl⟩
      · simp only [Reader.ReadByte, h0, if_false, Reader.readUnalignedByte, hs, hsub, hm]
      · have h1 : byte (r.buf <<< (8 - r.count)) < 2 ^ 8 := Nat.mod_lt _ (by decide)
        have h2 : x >>> r.count < 2 ^ 8 :=
          Nat.lt_of_lt_of_le hy (Nat.pow_le_pow_right (by decide) (by omega))
        exact Nat.or_lt_two_pow h1 h2
      · simp only [Reader.pending, hs, List.flatMap_cons]
        rw [lowBits_or _ _ r.count (by omega) hb0 hy, take_lowBits _ _ _ (by omega : r.count ≤ 8),
          lowBits_and_mask]
        have e1 : lowBits (byte (r.buf <<< (8 - r.count)) >>> (8 - r.count)) r.count =
            lowBits r.buf r.count := by
          apply lowBits_congr
          intro i hi
          unfold byte
          rw [Nat.testBit_shiftRight, show (256 : Nat) = 2 ^ 8 by decide,
            Nat.testBit_mod_two_pow, Nat.testBit_shiftLeft]
          have : 8 - r.count + i < 8 := by omega
          simp [this]
        have e2 : lowBits x 8 = lowBits (x >>> r.count) (8 - r.count) ++ lowBits x r.count := by
          have := lowBits_add x (8 - r.count) r.count
          rwa [show 8 - r.count + r.count = 8 by omega] at this
        rw [e1, e2]
        simp only [List.append_assoc]

/-- `ReadByte` reports `io.EOF` when fewer than eight bits are pending. -/
theorem ReadByte_short (r : Reader) (h8 : r.pending.length < 8) :
    ∃ r1, r.ReadByte = (.error .EOF, r1) := by
  rw [Reader.pending_length] at h8
  have hs : r.src = [] := by
    cases hs : r.src with
    | nil => rfl
    | cons x rest => rw [hs] at h8; simp at h8; omega
  by_cases h0 : r.count = 0
  · exact ⟨r, by simp only [Reader.ReadByte, h0, hs, if_true]⟩
  · exact ⟨{ r with buf := 0 }, by
      simp only [Reader.ReadByte, h0, if_false, Reader.readUnalignedByte, hs]⟩

end bits

namespace bits

theorem WriteByte_eq_WriteBitsUnsafe (w : Writer) (b : Nat) (hw : w.Valid) (hb : b < 256) :
    w.WriteByte b = w.WriteBitsUnsafe b 8 := by
  obtain ⟨hc, hbuf, hz⟩ := hw
  by_cases h0 : w.count = 0
  · have hbuf0 : w.buf = 0 := by
      rw [h0] at hz
      have : w.buf % 256 = 0 := hz
      omega
    have e : w = { out := w.out, buf := 0, count := 0 } := by
      cases w
      simp only [Writer.mk.injEq, true_and]
      exact ⟨hbuf0, h0⟩
    rw [e]
    simp [Writer.WriteByte, Writer.WriteBitsUnsafe, byte, Nat.mod_eq_of_lt hb]
  · have ht : byte (w.count + 8) = w.count + 8 := byte_of_lt (by omega)
    have hfree : sub8 8 w.count = 8 - w.count := sub8_of_le (by omega) (by decide)
    have hn1 : sub8 8 (8 - w.count) = w.count := by
      rw [sub8_of_le (by omega) (by decide)]; omega
    have hdiv : w.count / 8 = 0 := Nat.div_eq_of_lt hc
    have hbb : byte b = b := byte_of_lt hb
    have hsh : byte (b >>> w.count) = b >>> w.count :=
      byte_of_lt (by
        rw [Nat.shiftRight_eq_div_pow]
        exact Nat.lt_of_le_of_lt (Nat.div_le_self _ _) hb)
    simp only [Writer.WriteByte, h0, if_false, Writer.writeUnalignedByte, Writer.WriteBitsUnsafe,
      ht, hfree, hn1, hdiv, writeBytesLoop, hbb, hsh]
    have h1 : ¬ (w.count + 8 < 8) := by omega
    have h2 : w.count + 8 > 8 := by omega
    have h3 : w.count > 0 := by omega
    simp only [h1, h2, h3, if_true, if_false]

/-- `WriteByte` appends the eight bits of the byte. -/
theorem WriteByte_emitted (w : Writer) (b : Nat) (hw : w.Valid) (hb : b < 256) :
    (w.WriteByte b).emitted = w.emitted ++ lowBits b 8 ∧ (w.WriteByte b).Valid := by
  rw [WriteByte_eq_WriteBitsUnsafe w b hw hb]
  obtain ⟨h1, h2, _⟩ := WriteBitsUnsafe_emitted w b 8 hw (by decide) (by simpa using hb)
  exact ⟨h1, h2⟩

/-- `WriteBits` appends the low `n` bits, for `n ≤ 64`. -/
theorem WriteBits_emitted (w : Writer) (r n : Nat) (hw : w.Valid) (hn : n ≤ 64) :
    (w.WriteBits r n).emitted = w.emitted ++ lowBits r n ∧ (w.WriteBits r n).Valid := by
  have hmask : w.WriteBits r n = w.WriteBitsUnsafe (r % 2 ^ n) n := by
    unfold Writer.WriteBits
    rw [mask64 n hn, Nat.and_pow_two_sub_one_eq_mod]
  obtain ⟨h1, h2, _⟩ := WriteBitsUnsafe_emitted w (r % 2 ^ n) n hw (by omega)
    (Nat.mod_lt _ (Nat.two_pow_pos _))
  rw [hmask]
  exact ⟨by rw [h1, lowBits_mod], h2⟩

/-- The bytes of a closed writer hold the emitted bits and fewer than eight
zero bits of padding. -/
theorem Close_out (w : Writer) (hw : w.Valid) :
    ∃ k, k < 8 ∧ w.Close.out.flatMap (fun b => lowBits b 8) =
      w.emitted ++ List.replicate k false := by
  obtain ⟨hc, _, hb⟩ := hw
  by_cases h0 : w.count > 0
  · refine ⟨8 - w.count, by omega, ?_⟩
    simp only [Writer.Close, Writer.Align, if_pos h0, flatMap_snoc, Writer.emitted]
    rw [List.append_assoc, ← lowBits_split w.buf w.count (by omega) hb]
  · refine ⟨0, by decide, ?_⟩
    have : w.count = 0 := by omega
    simp [Writer.Close, Writer.Align, Writer.emitted, this]

theorem NewReader_pending (src : List Nat) :
    (NewReader src).pending = src.flatMap (fun b => lowBits b 8) := by
  simp [NewReader, Reader.pending, lowBits]

theorem writeBytesLoop_bytes (x : Nat) : ∀ (fuel n : Nat) (out : List Nat),
    (∀ y ∈ out, y < 256) → ∀ y ∈ (writeBytesLoop fuel out x n).1, y < 256 := by
  intro fuel
  induction fuel with
  | zero => intro n out h; simpa [writeBytesLoop] using h
  | succ fuel ih =>
    intro n out h
    unfold writeBytesLoop
    by_cases hn : n ≥ 8
    · simp only [hn, if_true]
      apply ih
      intro y hy
      rcases List.mem_append.1 hy with h1 | h1
      · exact h y h1
      · simp only [List.mem_singleton] at h1
        rw [h1]
        exact Nat.mod_lt _ (by decide)
    · simp only [hn, if_false]
      exact h

end bits

namespace bits

theorem or_byte_lt {a b : Nat} (ha : a < 256) (hb : b < 256) : a ||| b < 256 :=
  Nat.or_lt_two_pow (n := 8) ha hb

theorem mem_snoc_lt {out : List Nat} {b : Nat} (h : ∀ y ∈ out, y < 256) (hb : b < 256) :
    ∀ y ∈ out ++ [b], y < 256 := by
  intro y hy
  rcases List.mem_append.1 hy with h1 | h1
  · exact h y h1
  · simp only [List.mem_singleton] at h1
    rw [h1]; exact hb

/-- `WriteBitsUnsafe` hands bytes to the sink. -/
theorem WriteBitsUnsafe_bytes (w : Writer) (x n : Nat) (hw : w.Valid)
    (hout : ∀ y ∈ w.out, y < 256) : ∀ y ∈ (w.WriteBitsUnsafe x n).out, y < 256 := by
  obtain ⟨_, hbuf, _⟩ := hw
  have hbyte : ∀ z, byte z < 256 := fun z => Nat.mod_lt _ (by decide)
  unfold Writer.WriteBitsUnsafe
  simp only
  split
  · exact hout
  · split
    · have h1 := writeBytesLoop_bytes x (sub8 n (sub8 8 w.count) / 8) (sub8 n (sub8 8 w.count))
        (w.out ++ [w.buf ||| byte (x >>> sub8 n (sub8 8 w.count))])
        (mem_snoc_lt hout (or_byte_lt hbuf (hbyte _)))
      split
      · exact h1
      · exact h1
    · exact mem_snoc_lt hout (or_byte_lt hbuf (hbyte _))

theorem WriteBits_bytes (w : Writer) (r n : Nat) (hw : w.Valid)
    (hout : ∀ y ∈ w.out, y < 256) : ∀ y ∈ (w.WriteBits r n).out, y < 256 :=
  WriteBitsUnsafe_bytes w _ n hw hout

theorem WriteByte_bytes (w : Writer) (b : Nat) (hw : w.Valid) (hb : b < 256)
    (hout : ∀ y ∈ w.out, y < 256) : ∀ y ∈ (w.WriteByte b).out, y < 256 := by
  rw [WriteByte_eq_WriteBitsUnsafe w b hw hb]
  exact WriteBitsUnsafe_bytes w b 8 hw hout

theorem Close_bytes (w : Writer) (hw : w.Valid)
    (hout : ∀ y ∈ w.out, y < 256) : ∀ y ∈ w.Close.out, y < 256 := by
  unfold Writer.Close Writer.Align
  split
  · exact mem_snoc_lt hout hw.2.1
  · exact hout

end bits

/-! ## The tree that `buildTree` builds -/

namespace huffman

theorem perm_map_cons {α β : Type} (f : α → β) :
    ∀ (l : List α) (a : β) (r : List β), (l.map f).Perm (a :: r) →
      ∃ x l1, l.Perm (x :: l1) ∧ f x = a ∧ (l1.map f).Perm r := by
  intro l
  induction l with
  | nil =>
    intro a r h
    have := h.length_eq
    simp at this
  | cons y l ih =>
    intro a r h
    by_cases hy : f y = a
    · refine ⟨y, l, List.Perm.refl _, hy, ?_⟩
      rw [List.map_cons, hy] at h
      exact h.cons_inv
    · -- `a` occurs in the tail
      have hmem : a ∈ (y :: l).map f := h.symm.subset (List.mem_cons_self _ _)
      rw [List.map_cons, List.mem_cons] at hmem
      have hmem : a ∈ l.map f := by
        rcases hmem with h1 | h1
        · exact absurd h1.symm hy
        · exact h1
      have hr : f y ∈ r := by
        have : f y ∈ a :: r := h.subset (by simp)
        rcases List.mem_cons.1 this with h1 | h1
        · exact absurd h1 hy
        · exact h1
      obtain ⟨r1, hr1⟩ : ∃ r1, r.Perm (f y :: r1) := by
        obtain ⟨s, t, hst⟩ := List.append_of_mem hr
        exact ⟨s ++ t, by rw [hst]; exact List.perm_middle⟩
      have h2 : (l.map f).Perm (a :: r1) := by
        have h3 : (f y :: l.map f).Perm (f y :: a :: r1) :=
          (by simpa using h : (f y :: l.map f).Perm (a :: r)).trans
            (((List.Perm.cons a hr1)).trans (List.Perm.swap _ _ _))
        exact h3.cons_inv
      obtain ⟨x, l1, hp, hx, hp1⟩ := ih a r1 h2
      refine ⟨x, y :: l1, ?_, hx, ?_⟩
      · exact (List.Perm.cons y hp).trans (List.Perm.swap _ _ _)
      · rw [List.map_cons]
        exact (List.Perm.cons (f y) hp1).trans hr1.symm

theorem Tree.ptr_mem_nodes (t : Tree) : t.ptr ∈ t.nodes := by
  cases t <;> simp [Tree.ptr, Tree.nodes]

theorem Tree.leaves_ne_nil (t : Tree) : t.leaves ≠ [] := by
  induction t with
  | leaf p => simp [Tree.leaves]
  | node p l r ihl _ => simp [Tree.leaves, ihl]

theorem Tree.leaves_subset_nodes (t : Tree) : ∀ p ∈ t.leaves, p ∈ t.nodes := by
  induction t with
  | leaf p => intro q hq; simpa [Tree.leaves, Tree.nodes] using hq
  | node p l r ihl ihr =>
    intro q hq
    simp only [Tree.leaves, List.mem_append] at hq
    simp only [Tree.nodes, List.mem_cons, List.mem_append]
    rcases hq with h | h
    · exact Or.inr (Or.inl (ihl q h))
    · exact Or.inr (Or.inr (ihr q h))

theorem Tree.Built.alloc {mem : Mem} : ∀ {t : Tree}, t.Built mem → ∀ p ∈ t.nodes, p < mem.length := by
  intro t
  induction t with
  | leaf p =>
    rintro ⟨a, ha, _⟩ q hq
    simp only [Tree.nodes, List.mem_singleton] at hq
    subst hq
    exact lt_of_getElem? ha
  | node p l r ihl ihr =>
    rintro ⟨a, la, ra, ha, _, _, _, _, _, _, _, hl, hr⟩ q hq
    simp only [Tree.nodes, List.mem_cons, List.mem_append] at hq
    rcases hq with h | h | h
    · subst h; exact lt_of_getElem? ha
    · exact ihl hl q h
    · exact ihr hr q h

/-- A tree stays built when the fields of its nodes other than `index` and
`Char` are kept, except possibly the `Parent` of its root. -/
theorem Tree.Built.congr {mem mem1 : Mem} : ∀ {t : Tree}, t.Built mem → t.nodes.Nodup →
    (∀ (p : Nat) (a : Node), p ∈ t.nodes → mem[p]? = some a → ∃ b : Node, mem1[p]? = some b ∧
      b.Left = a.Left ∧ b.Right = a.Right ∧ b.Freq = a.Freq ∧
      (p ≠ t.ptr → b.Parent = a.Parent)) →
    t.Built mem1 := by
  intro t
  induction t with
  | leaf p =>
    rintro ⟨a, ha, h1, h2⟩ _ h
    obtain ⟨b, hb, e1, e2, _, _⟩ := h p a (by simp [Tree.nodes]) ha
    exact ⟨b, hb, by rw [e1, h1], by rw [e2, h2]⟩
  | node p l r ihl ihr =>
    rintro ⟨a, la, ra, ha, hla, hra, h1, h2, h3, h4, h5, hl, hr⟩ hnd h
    simp only [Tree.nodes, List.nodup_cons, List.mem_append, not_or] at hnd
    obtain ⟨⟨hpl, hpr⟩, hlr⟩ := hnd
    have hlr2 := List.nodup_append.1 hlr
    have hlp : l.ptr ≠ p := fun e => hpl (e ▸ l.ptr_mem_nodes)
    have hrp : r.ptr ≠ p := fun e => hpr (e ▸ r.ptr_mem_nodes)
    obtain ⟨b, hb, e1, e2, e3, _⟩ := h p a (by simp [Tree.nodes]) ha
    obtain ⟨lb, hlb, _, _, el3, el4⟩ := h l.ptr la
      (by simp [Tree.nodes, l.ptr_mem_nodes]) hla
    obtain ⟨rb, hrb, _, _, er3, er4⟩ := h r.ptr ra
      (by simp [Tree.nodes, r.ptr_mem_nodes]) hra
    refine ⟨b, lb, rb, hb, hlb, hrb, by rw [e1, h1], by rw [e2, h2], by rw [e3, el3, er3, h3],
      by rw [el4 hlp, h4], by rw [er4 hrp, h5], ?_, ?_⟩
    · apply ihl hl hlr2.1
      intro q c hq hc
      obtain ⟨d, hd, f1, f2, f3, f4⟩ := h q c (by simp [Tree.nodes, hq]) hc
      exact ⟨d, hd, f1, f2, f3, fun _ => f4 (fun e => hpl (by
        have e1 : q = p := e
        rw [← e1]; exact hq))⟩
    · apply ihr hr hlr2.2.1
      intro q c hq hc
      obtain ⟨d, hd, f1, f2, f3, f4⟩ := h q c (by simp [Tree.nodes, hq]) hc
      exact ⟨d, hd, f1, f2, f3, fun _ => f4 (fun e => hpr (by
        have e1 : q = p := e
        rw [← e1]; exact hq))⟩

end huffman

namespace huffman

theorem Tree.Built.same {mem mem1 : Mem} : ∀ {t : Tree}, t.Built mem →
    (∀ (p : Nat) (a : Node), p ∈ t.nodes → mem[p]? = some a → ∃ b : Node, mem1[p]? = some b ∧
      b.Left = a.Left ∧ b.Right = a.Right ∧ b.Freq = a.Freq ∧ b.Parent = a.Parent) →
    t.Built mem1 := by
  intro t
  induction t with
  | leaf p =>
    rintro ⟨a, ha, h1, h2⟩ h
    obtain ⟨b, hb, e1, e2, _, _⟩ := h p a (by simp [Tree.nodes]) ha
    exact ⟨b, hb, by rw [e1, h1], by rw [e2, h2]⟩
  | node p l r ihl ihr =>
    rintro ⟨a, la, ra, ha, hla, hra, h1, h2, h3, h4, h5, hl, hr⟩ h
    obtain ⟨b, hb, e1, e2, e3, _⟩ := h p a (by simp [Tree.nodes]) ha
    obtain ⟨lb, hlb, _, _, el3, el4⟩ := h l.ptr la
      (by simp [Tree.nodes, l.ptr_mem_nodes]) hla
    obtain ⟨rb, hrb, _, _, er3, er4⟩ := h r.ptr ra
      (by simp [Tree.nodes, r.ptr_mem_nodes]) hra
    refine ⟨b, lb, rb, hb, hlb, hrb, by rw [e1, h1], by rw [e2, h2], by rw [e3, el3, er3, h3],
      by rw [el4, h4], by rw [er4, h5], ?_, ?_⟩
    · exact ihl hl (fun q c hq hc => h q c (by simp [Tree.nodes, hq]) hc)
    · exact ihr hr (fun q c hq hc => h q c (by simp [Tree.nodes, hq]) hc)

theorem Tree.Built.of_frame {N : Nat} {mem mem1 : Mem} {t : Tree} (h : t.Built mem)
    (hf : Frame N mem mem1) : t.Built mem1 := by
  apply h.same
  intro p a _ ha
  obtain ⟨b, hb, e1, e2, e3, e4, _, _⟩ := hf.2 p a ha
  exact ⟨b, hb, e2, e3, e4, e1⟩

/-- The memory after the allocation of a parent for `left` and `right` and
the four stores of `buildTree`. -/
theorem merge_mem (mem : Mem) (left right : Nat) (ln rn : Node) (hne : left ≠ right)
    (hl : mem[left]? = some ln) (hr : mem[right]? = some rn) :
    ∃ mem2 mem3 mem4 mem5,
      store (mem ++ [{ Freq := ln.Freq + rn.Freq }]) left
        (fun nd => { nd with Parent := some mem.length }) = some mem2 ∧
      store mem2 right (fun nd => { nd with Parent := some mem.length }) = some mem3 ∧
      store mem3 mem.length (fun nd => { nd with Left := some left }) = some mem4 ∧
      store mem4 mem.length (fun nd => { nd with Right := some right }) = some mem5 ∧
      mem5.length = mem.length + 1 ∧
      mem5[left]? = some { ln with Parent := some mem.length } ∧
      mem5[right]? = some { rn with Parent := some mem.length } ∧
      mem5[mem.length]? =
        some { Freq := ln.Freq + rn.Freq, Left := some left, Right := some right } ∧
      (∀ q, q ≠ left → q ≠ right → q ≠ mem.length → mem5[q]? = mem[q]?) := by
  have hll := lt_of_getElem? hl
  have hrl := lt_of_getElem? hr
  have g1 : (mem ++ [({ Freq := ln.Freq + rn.Freq } : Node)])[left]? = some ln := by
    rw [List.getElem?_append_left hll]; exact hl
  have s2 := store_eq _ left (fun nd => { nd with Parent := some mem.length }) ln g1
  have g2 : ((mem ++ [({ Freq := ln.Freq + rn.Freq } : Node)]).set left
      { ln with Parent := some mem.length })[right]? = some rn := by
    rw [List.getElem?_set_ne hne, List.getElem?_append_left hrl]; exact hr
  have s3 := store_eq _ right (fun nd => { nd with Parent := some mem.length }) rn g2
  have g3 : (((mem ++ [({ Freq := ln.Freq + rn.Freq } : Node)]).set left
      { ln with Parent := some mem.length }).set right
      { rn with Parent := some mem.length })[mem.length]? =
      some { Freq := ln.Freq + rn.Freq } := by
    rw [List.getElem?_set_ne (by omega), List.getElem?_set_ne (by omega)]
    simp
  have s4 := store_eq _ mem.length (fun nd => { nd with Left := some left }) _ g3
  have g4 : ((((mem ++ [({ Freq := ln.Freq + rn.Freq } : Node)]).set left
      { ln with Parent := some mem.length }).set right
      { rn with Parent := some mem.length }).set mem.length
      { Freq := ln.Freq + rn.Freq, Left := some left })[mem.length]? =
      some { Freq := ln.Freq + rn.Freq, Left := some left } := by
    rw [List.getElem?_set_self (by simp)]
  have s5 := store_eq _ mem.length (fun nd => { nd with Right := some right }) _ g4
  refine ⟨_, _, _, _, s2, s3, s4, s5, by simp, ?_, ?_, ?_, ?_⟩
  · rw [List.getElem?_set_ne (by omega), List.getElem?_set_ne (by omega),
      List.getElem?_set_ne (Ne.symm hne), List.getElem?_set_self (by simp; omega)]
  · rw [List.getElem?_set_ne (by omega), List.getElem?_set_ne (by omega),
      List.getElem?_set_self (by simp; omega)]
  · rw [List.getElem?_set_self (by simp)]
  · intro q h1 h2 h3
    rw [List.getElem?_set_ne (Ne.symm h3), List.getElem?_set_ne (Ne.symm h3),
      List.getElem?_set_ne (Ne.symm h2), List.getElem?_set_ne (Ne.symm h1)]
    by_cases hq : q < mem.length
    · rw [List.getElem?_append_left hq]
    · rw [List.getElem?_eq_none (by simp; omega), List.getElem?_eq_none (by omega)]

end huffman

namespace huffman

open heap

theorem frame_parent_none {N : Nat} {mem mem1 : Mem} (hf : Frame N mem mem1) {p : Nat}
    (h : ∃ a : Node, mem[p]? = some a ∧ a.Parent = none) :
    ∃ a : Node, mem1[p]? = some a ∧ a.Parent = none := by
  obtain ⟨a, ha, hp⟩ := h
  obtain ⟨b, hb, e1, _⟩ := hf.2 p a ha
  exact ⟨b, hb, by rw [e1, hp]⟩

/-- The loop of `buildTree` turns a forest of built trees, whose roots are the
entries of the scratch heap, into a single built tree with the same leaves. -/
theorem buildLoop_forest (N : Nat) : ∀ (fuel : Nat) (st : HeapState) (ts : List Tree),
    (ts.map Tree.ptr).Perm st.h → (∀ t ∈ ts, t.Built st.mem) →
    (ts.flatMap Tree.nodes).Nodup →
    (∀ t ∈ ts, (∃ p, t = Tree.leaf p) ∨ ∃ a : Node, st.mem[t.ptr]? = some a ∧ a.Parent = none) →
    1 ≤ st.h.length → st.h.length ≤ N → st.h.length ≤ fuel →
    ∃ st1 t, buildLoop fuel st = some st1 ∧ st1.h = [t.ptr] ∧ t.Built st1.mem ∧
      t.nodes.Nodup ∧ t.leaves.Perm (ts.flatMap Tree.leaves) ∧
      ((∃ p, t = Tree.leaf p) ∨ ∃ a : Node, st1.mem[t.ptr]? = some a ∧ a.Parent = none) := by
  intro fuel
  induction fuel with
  | zero => intro st ts _ _ _ _ h1 _ h2; omega
  | succ fuel ih =>
    intro st ts hperm hbuilt hnd hroot h1 hN hfuel
    have hval : ∀ p ∈ st.h, p < st.mem.length := by
      intro p hp
      have hp1 := hperm.symm.subset hp
      obtain ⟨t, ht, rfl⟩ := List.mem_map.1 hp1
      exact (hbuilt t ht).alloc _ t.ptr_mem_nodes
    unfold buildLoop
    by_cases hlen : NodeHeap.Len st > 1
    · simp only [hlen, if_true]
      have hlen2 : 1 < st.h.length := hlen
      have hinv : (nodeView (fun p => (st.mem.getD p {}).Freq) N).inv st :=
        ⟨hval, freq_getD st.mem, hN⟩
      obtain ⟨left, sa, hpopa, hinva, hrela, _, hperma, _⟩ :=
        Pop_spec (NodeHeap_lawful _ N) st hinv
          (by show st.h ≠ []; intro h; rw [h] at hlen2; simp at hlen2)
      have hperma : st.h.Perm (left :: sa.h) := hperma
      have hrela : Frame N st.mem sa.mem := hrela
      have hla := perm_length_cons hperma
      obtain ⟨right, sb, hpopb, hinvb, hrelb, _, hpermb, _⟩ :=
        Pop_spec (NodeHeap_lawful _ N) sa hinva
          (by show sa.h ≠ []; intro h; rw [h] at hla; simp at hla; omega)
      have hpermb : sa.h.Perm (right :: sb.h) := hpermb
      have hrelb : Frame N sa.mem sb.mem := hrelb
      have hlb := perm_length_cons hpermb
      have hrelab : Frame N st.mem sb.mem := hrela.frame_trans hrelb
      -- the two trees popped
      obtain ⟨tl, ts1, hts1, htl, hp1⟩ := perm_map_cons Tree.ptr ts left sa.h (hperm.trans hperma)
      obtain ⟨tr, ts2, hts2, htr, hp2⟩ := perm_map_cons Tree.ptr ts1 right sb.h (hp1.trans hpermb)
      have hts : ts.Perm (tl :: tr :: ts2) := hts1.trans (List.Perm.cons tl hts2)
      have hmem : ∀ t, t ∈ tl :: tr :: ts2 → t ∈ ts := fun t ht => hts.symm.subset ht
      have hnd1 : (tl.nodes ++ (tr.nodes ++ ts2.flatMap Tree.nodes)).Nodup := by
        have := (hts.flatMap_right Tree.nodes).nodup_iff.1 hnd
        simpa [List.flatMap_cons] using this
      obtain ⟨hndl, hndr2, hdisl⟩ := List.nodup_append.1 hnd1
      obtain ⟨hndr, hnd2, hdisr⟩ := List.nodup_append.1 hndr2
      have hbl : tl.Built sb.mem := (hbuilt tl (hmem tl (by simp))).of_frame hrelab
      have hbr : tr.Built sb.mem := (hbuilt tr (hmem tr (by simp))).of_frame hrelab
      have hb2 : ∀ t ∈ ts2, t.Built sb.mem := fun t ht =>
        (hbuilt t (hmem t (by simp [ht]))).of_frame hrelab
      have hne : left ≠ right := by
        intro e
        apply hdisl (a := left)
        · rw [← htl]; exact tl.ptr_mem_nodes
        · rw [e, ← htr]; exact List.mem_append_left _ tr.ptr_mem_nodes
      have hleft : left < sb.mem.length := by rw [← htl]; exact hbl.alloc _ tl.ptr_mem_nodes
      have hright : right < sb.mem.length := by rw [← htr]; exact hbr.alloc _ tr.ptr_mem_nodes
      obtain ⟨ln, hln⟩ := getElem?_of_lt sb.mem left hleft
      obtain ⟨rn, hrn⟩ := getElem?_of_lt sb.mem right hright
      obtain ⟨mem2, mem3, mem4, mem5, hs2, hs3, hs4, hs5, hl5, gl, gr, gp, gq⟩ :=
        merge_mem sb.mem left right ln rn hne hln hrn
      -- the trees in the new memory
      have hkeep : ∀ (q : Nat) (c : Node), q ≠ left → q ≠ right → sb.mem[q]? = some c →
          ∃ b : Node, mem5[q]? = some b ∧ b.Left = c.Left ∧ b.Right = c.Right ∧
            b.Freq = c.Freq ∧ b.Parent = c.Parent := by
        intro q c h1 h2 hc
        have := lt_of_getElem? hc
        exact ⟨c, by rw [gq q h1 h2 (by omega)]; exact hc, rfl, rfl, rfl, rfl⟩
      have hbl5 : tl.Built mem5 := by
        apply hbl.congr hndl
        intro q c hq hc
        by_cases e : q = left
        · subst e
          rw [hln] at hc; cases hc
          exact ⟨_, gl, rfl, rfl, rfl, fun h => absurd htl.symm h⟩
        · have e2 : q ≠ right := by
            intro e2
            exact hdisl hq (by rw [e2, ← htr]; exact List.mem_append_left _ tr.ptr_mem_nodes)
          obtain ⟨b, hb, f1, f2, f3, f4⟩ := hkeep q c e e2 hc
          exact ⟨b, hb, f1, f2, f3, fun _ => f4⟩
      have hbr5 : tr.Built mem5 := by
        apply hbr.congr hndr
        intro q c hq hc
        by_cases e : q = right
        · subst e
          rw [hrn] at hc; cases hc
          exact ⟨_, gr, rfl, rfl, rfl, fun h => absurd htr.symm h⟩
        · have e2 : q ≠ left := by
            intro e2
            exact hdisl (a := left) (by rw [← htl]; exact tl.ptr_mem_nodes)
              (by rw [← e2]; exact List.mem_append_left _ hq)
          obtain ⟨b, hb, f1, f2, f3, f4⟩ := hkeep q c e2 e hc
          exact ⟨b, hb, f1, f2, f3, fun _ => f4⟩
      have hother : ∀ t ∈ ts2, ∀ q ∈ t.nodes, q ≠ left ∧ q ≠ right := by
        intro t ht q hq
        have hq2 : q ∈ ts2.flatMap Tree.nodes := List.mem_flatMap.2 ⟨t, ht, hq⟩
        constructor
        · intro e
          exact hdisl (a := left) (by rw [← htl]; exact tl.ptr_mem_nodes)
            (by rw [← e]; exact List.mem_append_right _ hq2)
        · intro e
          exact hdisr (a := right) (by rw [← htr]; exact tr.ptr_mem_nodes) (by rw [← e]; exact hq2)
      have hb25 : ∀ t ∈ ts2, t.Built mem5 := by
        intro t ht
        apply (hb2 t ht).same
        intro q c hq hc
        exact hkeep q c (hother t ht q hq).1 (hother t ht q hq).2 hc
      have hbn : (Tree.node sb.mem.length tl tr).Built mem5 :=
        ⟨{ Freq := ln.Freq + rn.Freq, Left := some left, Right := some right },
          { ln with Parent := some sb.mem.length }, { rn with Parent := some sb.mem.length },
          gp, by rw [htl]; exact gl, by rw [htr]; exact gr, by rw [htl], by rw [htr],
          rfl, rfl, rfl, hbl5, hbr5⟩
      -- `Push` of the parent
      have hvalb : ∀ p ∈ sb.h, p < sb.mem.length := hinvb.1
      have hinvp : (nodeView (fun p => (mem5.getD p {}).Freq) N).inv
          { mem := mem5, h := sb.h } :=
        ⟨fun p hp => by
            have := hvalb p hp
            show p < mem5.length
            omega,
          freq_getD mem5, by show sb.h.length ≤ N; omega⟩
      obtain ⟨sc, hpush, hinvc, hrelc, hpermc, _⟩ :=
        Push_spec (NodeHeap_lawful _ N) { mem := mem5, h := sb.h } sb.mem.length hinvp
          ⟨by show sb.mem.length < mem5.length; omega, by show sb.h.length < N; omega⟩
      have hpermc : sc.h.Perm (sb.mem.length :: sb.h) := hpermc
      have hrelc : Frame N mem5 sc.mem := hrelc
      have hlc := perm_length_cons hpermc
      have hfresh : ∀ q, q ∈ tl.nodes ++ (tr.nodes ++ ts2.flatMap Tree.nodes) →
          q < sb.mem.length := by
        intro q hq
        rcases List.mem_append.1 hq with h | h
        · exact hbl.alloc q h
        · rcases List.mem_append.1 h with h | h
          · exact hbr.alloc q h
          · obtain ⟨t, ht, hqt⟩ := List.mem_flatMap.1 h
            exact (hb2 t ht).alloc q hqt
      obtain ⟨st1, t, hrun, hh1, hbt, hndt, hlv, hrt⟩ :=
        ih sc (Tree.node sb.mem.length tl tr :: ts2)
          (by
            rw [List.map_cons]
            exact (List.Perm.cons _ hp2).trans hpermc.symm)
          (by
            intro t ht
            rcases List.mem_cons.1 ht with h | h
            · rw [h]; exact hbn.of_frame hrelc
            · exact (hb25 t h).of_frame hrelc)
          (by
            rw [List.flatMap_cons]
            show (sb.mem.length :: (tl.nodes ++ tr.nodes) ++ ts2.flatMap Tree.nodes).Nodup
            rw [List.cons_append, List.nodup_cons, List.append_assoc]
            refine ⟨fun h => ?_, hnd1⟩
            have := hfresh _ h
            omega)
          (by
            intro t ht
            rcases List.mem_cons.1 ht with h | h
            · right
              rw [h]
              exact frame_parent_none hrelc ⟨_, gp, rfl⟩
            · rcases hroot t (hmem t (by simp [h])) with h1 | h1
              · exact Or.inl h1
              · right
                apply frame_parent_none hrelc
                obtain ⟨a, ha, hpa⟩ := frame_parent_none hrelab h1
                obtain ⟨b, hb, _, _, _, f4⟩ := hkeep t.ptr a
                  (hother t h _ t.ptr_mem_nodes).1 (hother t h _ t.ptr_mem_nodes).2 ha
                exact ⟨b, hb, by rw [f4, hpa]⟩)
          (by omega) (by omega) (by omega)
      refine ⟨st1, t, ?_, hh1, hbt, hndt, ?_, hrt⟩
      · simp only [hpopa, hpopb, Option.bind_eq_bind, Option.some_bind, hln, hrn, hs2, hs3,
          hs4, hs5, hpush]
        exact hrun
      · refine hlv.trans ?_
        have h2 := (hts.flatMap_right Tree.leaves).symm
        simpa [List.flatMap_cons, Tree.leaves] using h2
    · simp only [hlen, if_false]
      have hl : st.h.length = 1 := by
        have : ¬ (1 < st.h.length) := hlen
        omega
      obtain ⟨p, hp⟩ : ∃ p, st.h = [p] := by
        match hh : st.h with
        | [p] => exact ⟨p, rfl⟩
        | [] => rw [hh] at hl; simp at hl
        | _ :: _ :: _ => rw [hh] at hl; simp at hl
      have hts : ts.map Tree.ptr = [p] := by
        rw [hp] at hperm
        exact List.perm_singleton.1 hperm
      obtain ⟨t, ht⟩ : ∃ t, ts = [t] := by
        match hh : ts with
        | [t] => exact ⟨t, rfl⟩
        | [] => simp at hts
        | _ :: _ :: _ => simp at hts
      subst ht
      refine ⟨st, t, rfl, ?_, hbuilt t (by simp), ?_, ?_, hroot t (by simp)⟩
      · rw [hp]; simpa using hts.symm
      · simpa using hnd
      · simp

end huffman

namespace huffman

open heap

theorem Tree.leaves_sublist_nodes (t : Tree) : t.leaves.Sublist t.nodes := by
  induction t with
  | leaf p => exact List.Sublist.refl _
  | node p l r ihl ihr => exact List.Sublist.cons _ (List.Sublist.append ihl ihr)

theorem Tree.Built.leaf_shape {mem : Mem} : ∀ {t : Tree}, t.Built mem → ∀ p ∈ t.leaves,
    ∃ a : Node, mem[p]? = some a ∧ a.Left = none ∧ a.Right = none := by
  intro t
  induction t with
  | leaf p =>
    intro h q hq
    simp only [Tree.leaves, List.mem_singleton] at hq
    subst hq
    exact h
  | node p l r ihl ihr =>
    rintro ⟨a, la, ra, _, _, _, _, _, _, _, _, hl, hr⟩ q hq
    simp only [Tree.leaves, List.mem_append] at hq
    rcases hq with h | h
    · exact ihl hl q h
    · exact ihr hr q h

/-- `buildTree` on a queue of at least two distinct leaves builds a tree whose
leaves are the queue. -/
theorem buildTree_tree (s : symbols) (h2 : 2 ≤ s.leaves.length) (hnd : s.leaves.Nodup)
    (hshape : ∀ p ∈ s.leaves, ∃ a : Node, s.mem[p]? = some a ∧ a.Left = none ∧ a.Right = none) :
    ∃ (s1 : symbols) (t : Tree), s.buildTree = some s1 ∧ s1.root = some t.ptr ∧
      t.Built s1.mem ∧ t.nodes.Nodup ∧
      t.leaves.Perm s.leaves ∧ ∃ a : Node, s1.mem[t.ptr]? = some a ∧ a.Parent = none := by
  have e1 : (s.leaves.map Tree.leaf).map Tree.ptr = s.leaves := by
    rw [List.map_map]
    exact List.map_id _
  have e2 : ∀ l : List Nat, (l.map Tree.leaf).flatMap Tree.nodes = l := by
    intro l
    induction l with
    | nil => rfl
    | cons x l ih => simp [List.flatMap_cons, Tree.nodes, ih]
  have e3 : ∀ l : List Nat, (l.map Tree.leaf).flatMap Tree.leaves = l := by
    intro l
    induction l with
    | nil => rfl
    | cons x l ih => simp [List.flatMap_cons, Tree.leaves, ih]
  obtain ⟨st1, t, hrun, hh1, hbt, hndt, hlv, hrt⟩ :=
    buildLoop_forest s.leaves.length (s.leaves.length + 1) { mem := s.mem, h := s.leaves }
      (s.leaves.map Tree.leaf) (by rw [e1])
      (by
        intro t ht
        obtain ⟨p, hp, rfl⟩ := List.mem_map.1 ht
        exact hshape p hp)
      (by rw [e2]; exact hnd)
      (by
        intro t ht
        obtain ⟨p, _, rfl⟩ := List.mem_map.1 ht
        exact Or.inl ⟨p, rfl⟩)
      (by show 1 ≤ s.leaves.length; omega) (Nat.le_refl _) (Nat.le_succ _)
  rw [e3] at hlv
  have hinv : (nodeView (fun p => (st1.mem.getD p {}).Freq) s.leaves.length).inv st1 :=
    ⟨by
      intro p hp
      rw [hh1, List.mem_singleton] at hp
      rw [hp]
      exact hbt.alloc _ t.ptr_mem_nodes,
     freq_getD st1.mem, by rw [hh1]; simp; omega⟩
  obtain ⟨r, sa, hpop, _, hrel, h0, _, _⟩ :=
    Pop_spec (NodeHeap_lawful _ s.leaves.length) st1 hinv
      (by show st1.h ≠ []; rw [hh1]; simp)
  have hrel : Frame s.leaves.length st1.mem sa.mem := hrel
  have h0 : st1.h[0]? = some r := h0
  have hr : r = t.ptr := by
    rw [hh1] at h0
    simpa using h0.symm
  have hnotleaf : ¬ ∃ p, t = Tree.leaf p := by
    rintro ⟨p, rfl⟩
    have := hlv.length_eq
    simp [Tree.leaves] at this
    omega
  have hpar : ∃ a : Node, st1.mem[t.ptr]? = some a ∧ a.Parent = none := by
    rcases hrt with h | h
    · exact absurd h hnotleaf
    · exact h
  refine ⟨{ s with mem := sa.mem, root := some r }, t, ?_, by rw [hr], hbt.of_frame hrel, hndt,
    hlv, frame_parent_none hrel hpar⟩
  unfold symbols.buildTree
  simp only [hrun, Option.bind_eq_bind, Option.some_bind, hpop]

end huffman

namespace huffman

open heap

theorem symbols.TreeOK.leaves_nodup {s : symbols} (h : s.TreeOK) : s.leaves.Nodup := by
  obtain ⟨t, _, _, hnd, hperm, _⟩ := h
  exact hperm.nodup_iff.1 (hnd.sublist t.leaves_sublist_nodes)

theorem symbols.TreeOK.queue_shape {s : symbols} (h : s.TreeOK) : ∀ p ∈ s.leaves,
    ∃ a : Node, s.mem[p]? = some a ∧ a.Left = none ∧ a.Right = none := by
  obtain ⟨t, _, hb, _, hperm, _⟩ := h
  intro p hp
  exact hb.leaf_shape p (hperm.symm.subset hp)

theorem frame_leaf_shape {N : Nat} {mem mem1 : Mem} (hf : Frame N mem mem1) {p : Nat}
    (h : ∃ a : Node, mem[p]? = some a ∧ a.Left = none ∧ a.Right = none) :
    ∃ a : Node, mem1[p]? = some a ∧ a.Left = none ∧ a.Right = none := by
  obtain ⟨a, ha, h1, h2⟩ := h
  obtain ⟨b, hb, _, e2, e3, _⟩ := hf.2 p a ha
  exact ⟨b, hb, by rw [e2, h1], by rw [e3, h2]⟩

theorem buildTree_leaves (s s1 : symbols) (h : s.buildTree = some s1) :
    s1.leaves = s.leaves ∧ s1.chars = s.chars := by
  unfold symbols.buildTree at h
  cases h1 : buildLoop (s.leaves.length + 1) { mem := s.mem, h := s.leaves } with
  | none => simp [h1] at h
  | some x =>
    simp only [h1, Option.bind_eq_bind, Option.some_bind] at h
    cases h2 : Pop NodeHeap x with
    | none => simp [h2] at h
    | some y =>
      simp only [h2, Option.some_bind, Option.some.injEq] at h
      rw [← h]
      exact ⟨rfl, rfl⟩

/-- `insert` keeps the built-tree invariant. -/
theorem insert_tree (s : symbols) (c : Nat) (hinv : s.Inv) (htree : s.TreeOK) :
    ∃ s1, s.insert c = some s1 ∧ s1.Inv ∧ s1.TreeOK := by
  obtain ⟨s1, hins, hinv1, hperm1, _, hold, _, hfn⟩ := insert_spec s c hinv
  refine ⟨s1, hins, hinv1, ?_⟩
  obtain ⟨hval, h2, _, _⟩ := hinv
  have hinvp : (nodeView
      (fun p => ((s.mem ++ [({ Freq := 1, Char := c, index := s.leaves.length } : Node)]).getD
        p {}).Freq) (s.leaves.length + 1)).inv
      { mem := s.mem ++ [{ Freq := 1, Char := c, index := s.leaves.length }], h := s.leaves } :=
    ⟨fun p hp => by
        have := hval p hp
        show p < (s.mem ++ [_]).length
        simp; omega,
      freq_getD _, by show s.leaves.length ≤ s.leaves.length + 1; omega⟩
  obtain ⟨st, hpush, _, hrel, hperm, _⟩ :=
    Push_spec (NodeHeap_lawful _ (s.leaves.length + 1)) _ s.mem.length hinvp
      ⟨by show s.mem.length < (s.mem ++ [_]).length; simp,
       by show s.leaves.length < s.leaves.length + 1; omega⟩
  have hperm : st.h.Perm (s.mem.length :: s.leaves) := hperm
  have hrel : Frame (s.leaves.length + 1)
      (s.mem ++ [{ Freq := 1, Char := c, index := s.leaves.length }]) st.mem := hrel
  have hndl : (s.mem.length :: s.leaves).Nodup := by
    rw [List.nodup_cons]
    refine ⟨fun h => ?_, htree.leaves_nodup⟩
    have := hval _ h
    omega
  obtain ⟨s2, t, hbuild, hroot, hbt, hndt, hlv, hpar⟩ :=
    buildTree_tree { s with mem := st.mem, leaves := st.h, chars := (c, s.mem.length) :: s.chars }
      (by show 2 ≤ st.h.length; rw [hperm.length_eq]; simp; omega)
      (hperm.nodup_iff.2 hndl)
      (by
        intro p hp
        apply frame_leaf_shape hrel
        rcases List.mem_cons.1 (hperm.subset hp) with h | h
        · subst h
          exact ⟨{ Freq := 1, Char := c, index := s.leaves.length }, by simp, rfl, rfl⟩
        · obtain ⟨a, ha, h1, h2⟩ := htree.queue_shape p h
          exact ⟨a, by rw [List.getElem?_append_left (hval p h)]; exact ha, h1, h2⟩)
  have he : s.insert c = some s2 := by
    unfold symbols.insert
    simp only [hpush, Option.bind_eq_bind, Option.some_bind]
    exact hbuild
  rw [hins] at he
  cases he
  have hleaves : s1.leaves = st.h := (buildTree_leaves _ _ hbuild).1
  refine ⟨t, hroot, hbt, hndt, by rw [hleaves]; exact hlv, hpar, ?_⟩
  intro p hp
  rcases List.mem_cons.1 (hperm1.subset hp) with h | h
  · rw [h, hfn]; decide
  · rw [(hold p (hval p h)).2]
    obtain ⟨_, _, _, _, _, _, hpos⟩ := htree
    exact hpos p h

/-- `update` of a leaf keeps the built-tree invariant. -/
theorem update_tree (s : symbols) (node : Nat) (hinv : s.Inv) (htree : s.TreeOK)
    (hnode : node ∈ s.leaves) : ∃ s1, s.update node = some s1 ∧ s1.Inv ∧ s1.TreeOK := by
  obtain ⟨s1, hupd, hinv1, hperm1, _, _, hfn, hfo⟩ := update_spec s node hinv hnode
  refine ⟨s1, hupd, hinv1, ?_⟩
  obtain ⟨hval, h2, hidx, _⟩ := hinv
  have hnl := hval node hnode
  obtain ⟨a, ha⟩ := getElem?_of_lt s.mem node hnl
  have hstore := store_eq s.mem node (fun nd => { nd with Freq := nd.Freq + 1 }) a ha
  have hnd1 : (s.mem.set node { a with Freq := a.Freq + 1 })[node]? =
      some { a with Freq := a.Freq + 1 } := by simp [hnl]
  have haidx : a.index < s.leaves.length := by
    have := hidx node hnode
    rwa [getD_of_getElem? ha] at this
  have hinvp : (nodeView
      (fun p => ((s.mem.set node { a with Freq := a.Freq + 1 }).getD p {}).Freq)
      s.leaves.length).inv
      { mem := s.mem.set node { a with Freq := a.Freq + 1 }, h := s.leaves } :=
    ⟨fun p hp => by
        have := hval p hp
        show p < (s.mem.set node _).length
        simpa using this,
      freq_getD _, Nat.le_refl _⟩
  obtain ⟨st, hfix, _, hrel, hperm, _⟩ :=
    Fix_spec (NodeHeap_lawful _ s.leaves.length) _ a.index hinvp haidx
  have hperm : st.h.Perm s.leaves := hperm
  have hrel : Frame s.leaves.length (s.mem.set node { a with Freq := a.Freq + 1 }) st.mem :=
    hrel
  obtain ⟨s2, t, hbuild, hroot, hbt, hndt, hlv, hpar⟩ :=
    buildTree_tree { s with mem := st.mem, leaves := st.h }
      (by show 2 ≤ st.h.length; rw [hperm.length_eq]; exact h2)
      (hperm.nodup_iff.2 htree.leaves_nodup)
      (by
        intro p hp
        apply frame_leaf_shape hrel
        obtain ⟨b, hb, h1, h2⟩ := htree.queue_shape p (hperm.subset hp)
        by_cases e : p = node
        · subst e
          rw [ha] at hb; cases hb
          exact ⟨_, hnd1, h1, h2⟩
        · exact ⟨b, by rw [List.getElem?_set_ne (Ne.symm e)]; exact hb, h1, h2⟩)
  have he : s.update node = some s2 := by
    unfold symbols.update
    simp only [hstore, Option.bind_eq_bind, Option.some_bind, hnd1]
    rw [hfix]
    exact hbuild
  rw [hupd] at he
  cases he
  have hleaves : s1.leaves = st.h := (buildTree_leaves _ _ hbuild).1
  refine ⟨t, hroot, hbt, hndt, by rw [hleaves]; exact hlv, hpar, ?_⟩
  intro p hp
  have hp1 := hperm1.subset hp
  obtain ⟨_, _, _, _, _, _, hpos⟩ := htree
  by_cases e : p = node
  · rw [e, hfn]; omega
  · rw [hfo p (hval p hp1) e]
    exact hpos p hp1

/-- The symbol model that `newSymbols` returns. -/
theorem newSymbols_eq :
    newSymbols = some
      { mem := [{ Parent := some 2, Freq := 1, Char := newChar, index := 1 },
                { Parent := some 2, Freq := 1, Char := eof, index := 0 },
                { Left := some 0, Right := some 1, Freq := 2 }],
        root := some 2, leaves := [0, 1], chars := [(eof, 1), (newChar, 0)] } := by
  decide

theorem newSymbols_tree (s : symbols) (h : newSymbols = some s) : s.Inv ∧ s.TreeOK := by
  have hw : NewWriter = some { sym := s, bw := bits.NewWriter } := by
    unfold NewWriter
    rw [h]
    rfl
  refine ⟨(NewWriter_inv _ hw).1, ?_⟩
  rw [newSymbols_eq] at h
  cases h
  refine ⟨Tree.node 2 (Tree.leaf 0) (Tree.leaf 1), rfl, ?_, by decide, by decide, ⟨_, rfl, rfl⟩, ?_⟩
  · exact ⟨_, _, _, rfl, rfl, rfl, rfl, rfl, rfl, rfl, rfl, ⟨_, rfl, rfl, rfl⟩, ⟨_, rfl, rfl, rfl⟩⟩
  · decide

/-- Every reachable symbol model satisfies the structural and the built-tree
invariant. -/
theorem Reachable_inv_tree (s : symbols) (h : s.Reachable) : s.Inv ∧ s.TreeOK := by
  induction h with
  | init s h => exact newSymbols_tree s h
  | insert s c s1 _ hins ih =>
    obtain ⟨s2, h2, hi, ht⟩ := insert_tree s c ih.1 ih.2
    rw [hins] at h2
    cases h2
    exact ⟨hi, ht⟩
  | update s n s1 _ hn hupd ih =>
    obtain ⟨s2, h2, hi, ht⟩ := update_tree s n ih.1 ih.2 hn
    rw [hupd] at h2
    cases h2
    exact ⟨hi, ht⟩

end huffman

namespace huffman

theorem Tree.Built.freq_sum {mem : Mem} : ∀ {t : Tree}, t.Built mem →
    (mem.getD t.ptr {}).Freq = (t.leaves.map (fun p => (mem.getD p {}).Freq)).sum := by
  intro t
  induction t with
  | leaf p => intro _; simp [Tree.ptr, Tree.leaves]
  | node p l r ihl ihr =>
    rintro ⟨a, la, ra, ha, hla, hra, _, _, h3, _, _, hl, hr⟩
    have e1 := ihl hl
    have e2 := ihr hr
    rw [getD_of_getElem? hla] at e1
    rw [getD_of_getElem? hra] at e2
    simp only [Tree.ptr, Tree.leaves, List.map_append, List.sum_append]
    rw [getD_of_getElem? ha, h3, e1, e2]

theorem Tree.Built.freq_le_root {mem : Mem} : ∀ {t : Tree}, t.Built mem →
    ∀ q ∈ t.nodes, (mem.getD q {}).Freq ≤ (mem.getD t.ptr {}).Freq := by
  intro t
  induction t with
  | leaf p =>
    intro _ q hq
    simp only [Tree.nodes, List.mem_singleton] at hq
    rw [hq, Tree.ptr]
  | node p l r ihl ihr =>
    rintro ⟨a, la, ra, ha, hla, hra, _, _, h3, _, _, hl, hr⟩ q hq
    have e1 := ihl hl
    have e2 := ihr hr
    rw [getD_of_getElem? hla] at e1
    rw [getD_of_getElem? hra] at e2
    simp only [Tree.nodes, List.mem_cons, List.mem_append] at hq
    simp only [Tree.ptr]
    rw [getD_of_getElem? ha, h3]
    rcases hq with hq | hq | hq
    · rw [hq, getD_of_getElem? ha, h3]
    · exact Nat.le_trans (e1 q hq) (Nat.le_add_right _ _)
    · exact Nat.le_trans (e2 q hq) (Nat.le_add_left _ _)

/-- C11: in every symbol model reached from `newSymbols()` by `insert` and
`update` calls whose leaf frequencies add up to less than `maxInt` (so that no
`Freq` has wrapped, in this model or in one it was reached from), `root` is
the root of a strict binary tree held in memory (every node has two children
or none, and no node occurs twice); its leaves are the entries of the leaf
queue, each once; every leaf frequency is positive; the `Freq` of every
internal node is the sum of its children's, so the root's is the sum of all
leaf frequencies, and every `Freq` of the tree is below `maxInt`; the `Parent`
of every child is the node that has it as `Left` or `Right`; and the root has
no parent.  Moreover `insert` of any symbol and `update` of any leaf return. -/
theorem built_tree_invariant (s : symbols) (hs : s.Reachable)
    (hsum : (s.leaves.map s.freq).sum < maxInt) :
    (∃ t : Tree, s.root = some t.ptr ∧ t.Built s.mem ∧ t.nodes.Nodup ∧
      t.leaves.Perm s.leaves ∧ s.leaves.Nodup ∧ (∀ p ∈ s.leaves, 0 < s.freq p) ∧
      s.freq t.ptr = (s.leaves.map s.freq).sum ∧ (∀ q ∈ t.nodes, s.freq q < maxInt) ∧
      ∃ a : Node, s.mem[t.ptr]? = some a ∧ a.Parent = none) ∧
    (∀ c, ∃ s1, s.insert c = some s1 ∧ s1.Reachable) ∧
    (∀ n ∈ s.leaves, ∃ s1, s.update n = some s1 ∧ s1.Reachable) := by
  obtain ⟨hinv, htree⟩ := Reachable_inv_tree s hs
  refine ⟨?_, ?_, ?_⟩
  · have hnd := htree.leaves_nodup
    obtain ⟨t, hroot, hb, hndt, hperm, hpar, hpos⟩ := htree
    have hroot_sum : s.freq t.ptr = (s.leaves.map s.freq).sum := by
      unfold symbols.freq
      rw [hb.freq_sum]
      exact (hperm.map _).sum_eq
    refine ⟨t, hroot, hb, hndt, hperm, hnd, hpos, hroot_sum, ?_, hpar⟩
    intro q hq
    have hle : s.freq q ≤ s.freq t.ptr := hb.freq_le_root q hq
    omega
  · intro c
    obtain ⟨s1, h1, _, _⟩ := insert_tree s c hinv htree
    exact ⟨s1, h1, symbols.Reachable.insert s c s1 hs h1⟩
  · intro n hn
    obtain ⟨s1, h1, _, _⟩ := update_tree s n hinv htree hn
    exact ⟨s1, h1, symbols.Reachable.update s n s1 hs hn h1⟩

end huffman

namespace huffman

/-- C11 at a concrete model: the symbol model after `newSymbols()` and
`insert(65)`, whose tree is `5 -> (1, 4 -> (0, 3))`. -/
theorem built_tree_invariant_example :
    ∃ s0 s1, newSymbols = some s0 ∧ s0.insert 65 = some s1 ∧ s1.Reachable ∧
      s1.root = some 5 ∧ s1.leaves = [0, 1, 3] ∧ (s1.leaves.map s1.freq).sum < maxInt ∧
      ((∃ t : Tree, s1.root = some t.ptr ∧ t.Built s1.mem ∧ t.nodes.Nodup ∧
        t.leaves.Perm s1.leaves ∧ s1.leaves.Nodup ∧ (∀ p ∈ s1.leaves, 0 < s1.freq p) ∧
        s1.freq t.ptr = (s1.leaves.map s1.freq).sum ∧ (∀ q ∈ t.nodes, s1.freq q < maxInt) ∧
        ∃ a : Node, s1.mem[t.ptr]? = some a ∧ a.Parent = none) ∧
      (∀ c, ∃ s2, s1.insert c = some s2 ∧ s2.Reachable) ∧
      (∀ n ∈ s1.leaves, ∃ s2, s1.update n = some s2 ∧ s2.Reachable)) :=
  ⟨_, _, newSymbols_eq, rfl,
    symbols.Reachable.insert _ 65 _ (symbols.Reachable.init _ newSymbols_eq) rfl, rfl, rfl,
    by decide,
    built_tree_invariant _
      (symbols.Reachable.insert _ 65 _ (symbols.Reachable.init _ newSymbols_eq) rfl)
      (by decide)⟩

end huffman

/-! ## Codes and paths -/

namespace huffman

theorem Tree.sub_append (π ρ : List Bool) : ∀ (t : Tree),
    t.sub (π ++ ρ) = (t.sub π).bind (fun u => u.sub ρ) := by
  induction π with
  | nil => intro t; cases t <;> simp [Tree.sub]
  | cons b π ih =>
    intro t
    cases t with
    | leaf p => simp [Tree.sub]
    | node p l r =>
      simp only [List.cons_append, Tree.sub]
      cases b
      · simpa using ih l
      · simpa using ih r

theorem Tree.sub_nodes : ∀ (π : List Bool) (t u : Tree), t.sub π = some u →
    ∀ q ∈ u.nodes, q ∈ t.nodes := by
  intro π
  induction π with
  | nil =>
    intro t u h q hq
    cases t <;> simp [Tree.sub] at h <;> subst h <;> exact hq
  | cons b π ih =>
    intro t u h q hq
    cases t with
    | leaf p => simp [Tree.sub] at h
    | node p l r =>
      simp only [Tree.sub] at h
      simp only [Tree.nodes, List.mem_cons, List.mem_append]
      cases b
      · exact Or.inr (Or.inl (ih l u (by simpa using h) q hq))
      · exact Or.inr (Or.inr (ih r u (by simpa using h) q hq))

theorem Tree.Built.sub {mem : Mem} : ∀ (π : List Bool) (t u : Tree), t.Built mem →
    t.sub π = some u → u.Built mem := by
  intro π
  induction π with
  | nil =>
    intro t u hb h
    cases t <;> simp [Tree.sub] at h <;> subst h <;> exact hb
  | cons b π ih =>
    intro t u hb h
    cases t with
    | leaf p => simp [Tree.sub] at h
    | node p l r =>
      obtain ⟨_, _, _, _, _, _, _, _, _, _, _, hl, hr⟩ := hb
      simp only [Tree.sub] at h
      cases b
      · exact ih l u hl (by simpa using h)
      · exact ih r u hr (by simpa using h)

theorem Tree.sub_nodup : ∀ (π : List Bool) (t u : Tree), t.nodes.Nodup →
    t.sub π = some u → u.nodes.Nodup := by
  intro π
  induction π with
  | nil =>
    intro t u hb h
    cases t <;> simp [Tree.sub] at h <;> subst h <;> exact hb
  | cons b π ih =>
    intro t u hnd h
    cases t with
    | leaf p => simp [Tree.sub] at h
    | node p l r =>
      simp only [Tree.nodes, List.nodup_cons] at hnd
      have h2 := List.nodup_append.1 hnd.2
      simp only [Tree.sub] at h
      cases b
      · exact ih l u h2.1 (by simpa using h)
      · exact ih r u h2.2.1 (by simpa using h)

/-- Every leaf of a tree is reached by a path from the root. -/
theorem Tree.leaf_path : ∀ (t : Tree) (n : Nat), n ∈ t.leaves →
    ∃ π, t.sub π = some (Tree.leaf n) := by
  intro t
  induction t with
  | leaf p =>
    intro n hn
    simp only [Tree.leaves, List.mem_singleton] at hn
    subst hn
    exact ⟨[], rfl⟩
  | node p l r ihl ihr =>
    intro n hn
    simp only [Tree.leaves, List.mem_append] at hn
    rcases hn with h | h
    · obtain ⟨π, hπ⟩ := ihl n h
      exact ⟨false :: π, by simpa [Tree.sub] using hπ⟩
    · obtain ⟨π, hπ⟩ := ihr n h
      exact ⟨true :: π, by simpa [Tree.sub] using hπ⟩

/-- A path is shorter than the number of leaves. -/
theorem Tree.sub_length : ∀ (π : List Bool) (t u : Tree), t.sub π = some u →
    π.length + u.leaves.length ≤ t.leaves.length := by
  intro π
  induction π with
  | nil =>
    intro t u h
    cases t <;> simp [Tree.sub] at h <;> subst h <;> simp
  | cons b π ih =>
    intro t u h
    cases t with
    | leaf p => simp [Tree.sub] at h
    | node p l r =>
      simp only [Tree.sub] at h
      have hl := List.length_pos.2 l.leaves_ne_nil
      have hr := List.length_pos.2 r.leaves_ne_nil
      simp only [Tree.leaves, List.length_append, List.length_cons]
      cases b
      · have := ih l u (by simpa using h); omega
      · have := ih r u (by simpa using h); omega

/-- Along a path the pointers decrease: a parent is allocated after its
children. -/
theorem Tree.sub_ptr {mem : Mem} (hinc : ParentInc mem) : ∀ (π : List Bool) (t u : Tree),
    t.Built mem → t.sub π = some u → u.ptr + π.length ≤ t.ptr := by
  intro π
  induction π with
  | nil =>
    intro t u _ h
    cases t <;> simp [Tree.sub] at h <;> subst h <;> simp
  | cons b π ih =>
    intro t u hb h
    cases t with
    | leaf p => simp [Tree.sub] at h
    | node p l r =>
      obtain ⟨_, la, ra, _, hla, hra, _, _, _, h4, h5, hl, hr⟩ := hb
      simp only [Tree.sub] at h
      have e1 := (hinc _ la p hla h4).1
      have e2 := (hinc _ ra p hra h5).1
      show u.ptr + (π.length + 1) ≤ p
      cases b
      · have := ih l u hl (by simpa using h); omega
      · have := ih r u hr (by simpa using h); omega

/-- Following the turns of a path through the `Left` and `Right` pointers
arrives at the root of the subtree. -/
theorem Tree.Built.descend {mem : Mem} : ∀ (π : List Bool) (t u : Tree), t.Built mem →
    t.sub π = some u → descend mem t.ptr π = some u.ptr := by
  intro π
  induction π with
  | nil =>
    intro t u _ h
    cases t <;> simp [Tree.sub] at h <;> subst h <;> rfl
  | cons b π ih =>
    intro t u hb h
    cases t with
    | leaf p => simp [Tree.sub] at h
    | node p l r =>
      obtain ⟨a, _, _, ha, _, _, h1, h2, _, _, _, hl, hr⟩ := hb
      simp only [Tree.sub] at h
      simp only [huffman.descend, Tree.ptr, ha, Option.bind_eq_bind, Option.some_bind]
      cases b
      · simp only [Bool.false_eq_true, if_false, h1, Option.some_bind]
        exact ih l u hl (by simpa using h)
      · simp only [if_true, h2, Option.some_bind]
        exact ih r u hr (by simpa using h)

end huffman

namespace bits

theorem lowBits_or_pow (r c : Nat) (hr : r < 2 ^ c) :
    lowBits (r ||| 2 ^ c) (c + 1) = true :: lowBits r c ∧ r ||| 2 ^ c < 2 ^ (c + 1) := by
  constructor
  · rw [lowBits_succ]
    congr 1
    · simp [Nat.testBit_or, Nat.testBit_two_pow_self]
    · apply lowBits_congr
      intro i hi
      rw [Nat.testBit_or, Nat.testBit_two_pow]
      have : c ≠ i := by omega
      simp [this]
  · exact Nat.or_lt_two_pow (Nat.lt_of_lt_of_le hr (Nat.pow_le_pow_right (by decide) (by omega)))
      (Nat.pow_lt_pow_right (by decide) (by omega))

theorem lowBits_top_zero (r c : Nat) (hr : r < 2 ^ c) :
    lowBits r (c + 1) = false :: lowBits r c := by
  rw [lowBits_succ, Nat.testBit_lt_two_pow hr]

end bits

namespace huffman

open bits

/-- The loop of `Code` started at the root of a subtree computes the turns of
the path from the root of the tree to it. -/
theorem codeLoop_path (mem : Mem) (t : Tree) (hb : t.Built mem) (hnd : t.nodes.Nodup)
    (hroot : ∃ a : Node, mem[t.ptr]? = some a ∧ a.Parent = none) :
    ∀ (π : List Bool) (u : Tree), t.sub π = some u → ∀ (au : Node), mem[u.ptr]? = some au →
      ∀ (fuel r c : Nat), π.length < fuel → c + π.length ≤ 64 → r < 2 ^ c →
      ∃ r1, codeLoop mem fuel u.ptr au.Parent r c = some (r1, c + π.length) ∧
        r1 < 2 ^ (c + π.length) ∧ lowBits r1 (c + π.length) = π ++ lowBits r c := by
  intro π
  induction π using List.reverseRecOn with
  | nil =>
    intro u hu au hau fuel r c hf _ hr
    have e : u = t := by cases t <;> simp [Tree.sub] at hu <;> exact hu.symm
    subst e
    obtain ⟨a, ha, hpa⟩ := hroot
    rw [ha] at hau
    cases hau
    obtain ⟨f, rfl⟩ : ∃ f, fuel = f + 1 := ⟨fuel - 1, by simp at hf; omega⟩
    exact ⟨r, by rw [hpa]; rfl, by simpa using hr, by simp⟩
  | append_singleton π b ih =>
    intro u hu au hau fuel r c hf hc hr
    rw [Tree.sub_append] at hu
    cases hv : t.sub π with
    | none => simp [hv] at hu
    | some v =>
      rw [hv] at hu
      simp only [Option.some_bind] at hu
      cases v with
      | leaf p => simp [Tree.sub] at hu
      | node q l r' =>
        have hbv := hb.sub π _ _ hv
        have hndv := Tree.sub_nodup π _ _ hnd hv
        obtain ⟨a, la, ra, ha, hla, hra, h1, h2, _, h4, h5, _, _⟩ := hbv
        simp only [Tree.nodes, List.nodup_cons] at hndv
        have hdis := (List.nodup_append.1 hndv.2).2.2
        have hlr : l.ptr ≠ r'.ptr := fun e =>
          hdis l.ptr_mem_nodes (by rw [e]; exact r'.ptr_mem_nodes)
        have hlen : (π ++ [b]).length = π.length + 1 := by simp
        rw [hlen] at hf hc ⊢
        obtain ⟨f, rfl⟩ : ∃ f, fuel = f + 1 := ⟨fuel - 1, by omega⟩
        have hbyte : byte (c + 1) = c + 1 := byte_of_lt (by omega)
        have hu64 : u64 (1 <<< c) = 2 ^ c := by
          rw [Nat.one_shiftLeft]
          exact Nat.mod_eq_of_lt (Nat.pow_lt_pow_right (by decide) (by omega))
        have hpar : au.Parent = some q ∧ (a.Right = some u.ptr ↔ b = true) := by
          simp only [Tree.sub] at hu
          cases b
          · simp only [Bool.false_eq_true, if_false, Option.some.injEq] at hu
            subst hu
            rw [hla] at hau; cases hau
            refine ⟨h4, ?_⟩
            rw [h2]
            simp [Ne.symm hlr]
          · simp only [if_true, Option.some.injEq] at hu
            subst hu
            rw [hra] at hau; cases hau
            exact ⟨h5, by simp [h2]⟩
        have hstep : codeLoop mem (f + 1) u.ptr au.Parent r c =
            codeLoop mem f q a.Parent (if b = true then r ||| 2 ^ c else r) (c + 1) := by
          rw [hpar.1]
          simp only [codeLoop, ha, Option.bind_eq_bind, Option.some_bind, hbyte, hu64]
          by_cases hbb : b = true
          · rw [if_pos (hpar.2.2 hbb), if_pos hbb]
          · rw [if_neg (fun h => hbb (hpar.2.1 h)), if_neg hbb]
        have hr1 : (if b = true then r ||| 2 ^ c else r) < 2 ^ (c + 1) ∧
            lowBits (if b = true then r ||| 2 ^ c else r) (c + 1) = b :: lowBits r c := by
          cases b
          · simp only [Bool.false_eq_true, if_false]
            exact ⟨Nat.lt_of_lt_of_le hr (Nat.pow_le_pow_right (by decide) (by omega)),
              lowBits_top_zero r c hr⟩
          · simp only [if_true]
            exact ⟨(lowBits_or_pow r c hr).2, (lowBits_or_pow r c hr).1⟩
        obtain ⟨r2, hrun, hlt, hbits⟩ := ih (Tree.node q l r') hv a ha f _ (c + 1) (by omega)
          (by omega) hr1.1
        have e : c + 1 + π.length = c + (π.length + 1) := by omega
        rw [e] at hrun hlt hbits
        refine ⟨r2, by rw [hstep]; exact hrun, hlt, ?_⟩
        rw [hbits, hr1.2]
        simp

end huffman

namespace huffman

open bits

/-- The decoder's walk along the bits of a path arrives at the leaf and
consumes exactly these bits. -/
theorem walkLoop_path (mem : Mem) : ∀ (π : List Bool) (u : Tree) (n : Nat) (br : bits.Reader)
    (rest : List Bool) (fuel : Nat), u.Built mem → u.sub π = some (Tree.leaf n) → br.Valid →
    br.pending = π ++ rest → π.length < fuel →
    ∃ br1, walkLoop mem fuel u.ptr br = some (.ok n, br1) ∧ br1.pending = rest ∧ br1.Valid := by
  intro π
  induction π with
  | nil =>
    intro u n br rest fuel hb hu hv hp hf
    have e : u = Tree.leaf n := by
      cases u <;> simp [Tree.sub] at hu
      simp [hu]
    subst e
    obtain ⟨a, ha, h1, _⟩ := hb
    obtain ⟨f, rfl⟩ : ∃ f, fuel = f + 1 := ⟨fuel - 1, by simp at hf; omega⟩
    refine ⟨br, ?_, by simpa using hp, hv⟩
    simp only [walkLoop, Tree.ptr, ha, Option.bind_eq_bind, Option.some_bind, h1]
  | cons b π ih =>
    intro u n br rest fuel hb hu hv hp hf
    cases u with
    | leaf p => simp [Tree.sub] at hu
    | node q l r =>
      obtain ⟨a, _, _, ha, _, _, h1, h2, _, _, _, hl, hr⟩ := hb
      obtain ⟨f, rfl⟩ : ∃ f, fuel = f + 1 := ⟨fuel - 1, by simp at hf; omega⟩
      obtain ⟨b1, br1, hread, hpend, hv1⟩ := ReadOneBit_spec br hv (by rw [hp]; simp)
      rw [hp] at hpend
      simp only [List.cons_append, List.cons.injEq] at hpend
      obtain ⟨hb1, hp1⟩ := hpend
      subst hb1
      simp only [Tree.sub] at hu
      simp only [List.length_cons] at hf
      have hstep : walkLoop mem (f + 1) (Tree.node q l r).ptr br =
          walkLoop mem f (if b = true then r.ptr else l.ptr) br1 := by
        simp only [walkLoop, Tree.ptr, ha, Option.bind_eq_bind, Option.some_bind, h1, hread, h2]
        cases b <;> simp
      rw [hstep]
      cases b
      · simp only [Bool.false_eq_true, if_false] at hu ⊢
        exact ih l n br1 rest f hl hu hv1 hp1.symm (by omega)
      · simp only [if_true] at hu ⊢
        exact ih r n br1 rest f hr hu hv1 hp1.symm (by omega)

/-- The decoder's walk reports `io.EOF` when the bits end before a leaf is
reached. -/
theorem walkLoop_short (mem : Mem) : ∀ (π : List Bool) (x : Bool) (ρ : List Bool) (u : Tree)
    (n : Nat) (br : bits.Reader) (fuel : Nat), u.Built mem →
    u.sub (π ++ x :: ρ) = some (Tree.leaf n) → br.Valid → br.pending = π → π.length < fuel →
    ∃ br1, walkLoop mem fuel u.ptr br = some (.error .EOF, br1) := by
  intro π
  induction π with
  | nil =>
    intro x ρ u n br fuel hb hu hv hp hf
    cases u with
    | leaf p => simp [Tree.sub] at hu
    | node q l r =>
      obtain ⟨a, _, _, ha, _, _, h1, _, _, _, _, _, _⟩ := hb
      obtain ⟨f, rfl⟩ : ∃ f, fuel = f + 1 := ⟨fuel - 1, by simp at hf; omega⟩
      obtain ⟨br1, hread⟩ := ReadOneBit_nil br hp
      exact ⟨br1, by
        simp only [walkLoop, Tree.ptr, ha, Option.bind_eq_bind, Option.some_bind, h1, hread]⟩
  | cons b π ih =>
    intro x ρ u n br fuel hb hu hv hp hf
    cases u with
    | leaf p => simp [Tree.sub] at hu
    | node q l r =>
      obtain ⟨a, _, _, ha, _, _, h1, h2, _, _, _, hl, hr⟩ := hb
      obtain ⟨f, rfl⟩ : ∃ f, fuel = f + 1 := ⟨fuel - 1, by simp at hf; omega⟩
      obtain ⟨b1, br1, hread, hpend, hv1⟩ := ReadOneBit_spec br hv (by rw [hp]; simp)
      rw [hp] at hpend
      simp only [List.cons.injEq] at hpend
      obtain ⟨hb1, hp1⟩ := hpend
      subst hb1
      simp only [List.cons_append, Tree.sub] at hu
      simp only [List.length_cons] at hf
      have hstep : walkLoop mem (f + 1) (Tree.node q l r).ptr br =
          walkLoop mem f (if b = true then r.ptr else l.ptr) br1 := by
        simp only [walkLoop, Tree.ptr, ha, Option.bind_eq_bind, Option.some_bind, h1, hread, h2]
        cases b <;> simp
      rw [hstep]
      cases b
      · simp only [Bool.false_eq_true, if_false] at hu ⊢
        exact ih x ρ l n br1 f hl hu hv1 hp1.symm (by omega)
      · simp only [if_true] at hu ⊢
        exact ih x ρ r n br1 f hr hu hv1 hp1.symm (by omega)

/-- A node reached through the `Left` and `Right` pointers is the root of the
subtree at that path. -/
theorem Tree.Built.descend_sub {mem : Mem} : ∀ (ρ : List Bool) (t : Tree) (q : Nat),
    t.Built mem → huffman.descend mem t.ptr ρ = some q → ∃ u, t.sub ρ = some u ∧ u.ptr = q := by
  intro ρ
  induction ρ with
  | nil =>
    intro t q _ h
    simp only [huffman.descend, Option.some.injEq] at h
    exact ⟨t, by cases t <;> rfl, h⟩
  | cons b ρ ih =>
    intro t q hb h
    cases t with
    | leaf p =>
      obtain ⟨a, ha, h1, h2⟩ := hb
      simp only [huffman.descend, Tree.ptr, ha, Option.bind_eq_bind, Option.some_bind, h1, h2] at h
      cases b <;> simp at h
    | node p l r =>
      obtain ⟨a, _, _, ha, _, _, h1, h2, _, _, _, hl, hr⟩ := hb
      simp only [huffman.descend, Tree.ptr, ha, Option.bind_eq_bind, Option.some_bind, h1,
        h2] at h
      cases b
      · simp only [Bool.false_eq_true, if_false, Option.some_bind] at h
        obtain ⟨u, hu, hq⟩ := ih l q hl h
        exact ⟨u, by simpa [Tree.sub] using hu, hq⟩
      · simp only [if_true, Option.some_bind] at h
        obtain ⟨u, hu, hq⟩ := ih r q hr h
        exact ⟨u, by simpa [Tree.sub] using hu, hq⟩

/-- In a tree without repeated nodes a node is reached by one path only. -/
theorem Tree.sub_unique : ∀ (π1 π2 : List Bool) (t u1 u2 : Tree), t.nodes.Nodup →
    t.sub π1 = some u1 → t.sub π2 = some u2 → u1.ptr = u2.ptr → π1 = π2 := by
  intro π1
  induction π1 with
  | nil =>
    intro π2 t u1 u2 hnd h1 h2 he
    cases π2 with
    | nil => rfl
    | cons b ρ =>
      exfalso
      have e1 : u1 = t := by cases t <;> simp [Tree.sub] at h1 <;> exact h1.symm
      subst e1
      cases u1 with
      | leaf p => simp [Tree.sub] at h2
      | node p l r =>
        simp only [Tree.nodes, List.nodup_cons, List.mem_append, not_or] at hnd
        simp only [Tree.sub] at h2
        have hmem : u2.ptr ∈ l.nodes ∨ u2.ptr ∈ r.nodes := by
          cases b
          · exact Or.inl (Tree.sub_nodes ρ l u2 (by simpa using h2) _ u2.ptr_mem_nodes)
          · exact Or.inr (Tree.sub_nodes ρ r u2 (by simpa using h2) _ u2.ptr_mem_nodes)
        rw [← he] at hmem
        rcases hmem with h | h
        · exact hnd.1.1 h
        · exact hnd.1.2 h
  | cons b1 π1 ih =>
    intro π2 t u1 u2 hnd h1 h2 he
    cases t with
    | leaf p => simp [Tree.sub] at h1
    | node p l r =>
      simp only [Tree.nodes, List.nodup_cons, List.mem_append, not_or] at hnd
      obtain ⟨⟨hpl, hpr⟩, hlr⟩ := hnd
      obtain ⟨hndl, hndr, hdis⟩ := List.nodup_append.1 hlr
      simp only [Tree.sub] at h1
      have hmem1 : u1.ptr ∈ (if b1 = true then r else l).nodes := by
        cases b1
        · exact Tree.sub_nodes π1 l u1 (by simpa using h1) _ u1.ptr_mem_nodes
        · exact Tree.sub_nodes π1 r u1 (by simpa using h1) _ u1.ptr_mem_nodes
      cases π2 with
      | nil =>
        exfalso
        simp only [Tree.sub, Option.some.injEq] at h2
        subst h2
        rw [he] at hmem1
        cases b1
        · exact hpl (by simpa using hmem1)
        · exact hpr (by simpa using hmem1)
      | cons b2 π2 =>
        simp only [Tree.sub] at h2
        have hmem2 : u2.ptr ∈ (if b2 = true then r else l).nodes := by
          cases b2
          · exact Tree.sub_nodes π2 l u2 (by simpa using h2) _ u2.ptr_mem_nodes
          · exact Tree.sub_nodes π2 r u2 (by simpa using h2) _ u2.ptr_mem_nodes
        cases b1 <;> cases b2
        · rw [ih π2 l u1 u2 hndl (by simpa using h1) (by simpa using h2) he]
        · exfalso
          exact hdis (a := u1.ptr) (by simpa using hmem1) (by rw [he]; simpa using hmem2)
        · exfalso
          exact hdis (a := u1.ptr) (by rw [he]; simpa using hmem2) (by simpa using hmem1)
        · rw [ih π2 r u1 u2 hndr (by simpa using h1) (by simpa using h2) he]

end huffman

namespace huffman

open bits

/-- A path to a leaf of a tree with at least two leaves is not empty. -/
theorem Tree.sub_leaf_ne_nil (t : Tree) (π : List Bool) (n : Nat)
    (h : t.sub π = some (Tree.leaf n)) (h2 : 2 ≤ t.leaves.length) : 1 ≤ π.length := by
  cases π with
  | nil =>
    have e : t = Tree.leaf n := by
      cases t <;> simp [Tree.sub] at h
      simp [h]
    subst e
    simp [Tree.leaves] at h2
  | cons b π => simp

/-- In a model that satisfies the invariants every leaf of the queue is at the
end of a path of the tree, and `Code` returns the turns of that path when
there are at most 64 of them. -/
theorem leaf_code (s : symbols) (hinv : s.Inv) (htree : s.TreeOK) (n : Nat)
    (hn : n ∈ s.leaves) :
    ∃ (t : Tree) (π : List Bool), s.root = some t.ptr ∧ t.Built s.mem ∧ t.nodes.Nodup ∧
      t.sub π = some (Tree.leaf n) ∧ π.length + 1 ≤ s.leaves.length ∧
      π.length < s.mem.length ∧ 1 ≤ π.length ∧
      (π.length ≤ 64 → ∃ r, Code s.mem n = some (r, π.length) ∧ r < 2 ^ π.length ∧
        lowBits r π.length = π) := by
  obtain ⟨t, hroot, hb, hnd, hperm, hpar, _⟩ := htree
  obtain ⟨π, hπ⟩ := t.leaf_path n (hperm.symm.subset hn)
  have hlen := Tree.sub_length π t _ hπ
  simp only [Tree.leaves, List.length_singleton] at hlen
  rw [hperm.length_eq] at hlen
  have hptr := Tree.sub_ptr hinv.2.2.2 π t _ hb hπ
  have hroot_lt : t.ptr < s.mem.length := hb.alloc _ t.ptr_mem_nodes
  refine ⟨t, π, hroot, hb, hnd, hπ, hlen, by omega,
    Tree.sub_leaf_ne_nil t π n hπ (by rw [hperm.length_eq]; exact hinv.2.1), ?_⟩
  intro h64
  obtain ⟨a, ha⟩ := getElem?_of_lt s.mem n (hinv.1 n hn)
  obtain ⟨r, hrun, hlt, hbits⟩ := codeLoop_path s.mem t hb hnd hpar π _ hπ a ha
    (s.mem.length + 1) 0 0 (by omega) (by omega) (by decide)
  simp only [Nat.zero_add] at hrun hlt hbits
  refine ⟨r, ?_, hlt, by simpa [lowBits] using hbits⟩
  unfold Code
  simp only [ha, Option.bind_eq_bind, Option.some_bind]
  exact hrun

/-- C12: for every leaf `n` of the tree of a reachable symbol model there is
exactly one path from the root to `n` through the `Left` and `Right`
pointers; when its length `d`, the depth of `n`, is at most 64, `Code` of `n`
returns `(r, d)` with no bit of `r` set at position `d` or above, the bits
`d-1` down to `0` of `r` are the turns of the path (1 is `Right`), so that
following them from the root arrives at `n`; these are the bits that
`WriteBits(r, d)` emits, and the decoder's walk over a stream that starts
with them ends at `n` with exactly these bits consumed. -/
theorem Code_is_root_to_leaf_path (s : symbols) (hs : s.Reachable) (n : Nat)
    (hn : n ∈ s.leaves) :
    ∃ (root : Nat) (π : List Bool), s.root = some root ∧ descend s.mem root π = some n ∧
      (∀ ρ, descend s.mem root ρ = some n → ρ = π) ∧
      (π.length ≤ 64 → ∃ r, Code s.mem n = some (r, π.length) ∧ r < 2 ^ π.length ∧
        lowBits r π.length = π ∧ descend s.mem root (lowBits r π.length) = some n ∧
        (∀ w : bits.Writer, w.Valid →
          (w.WriteBits r π.length).emitted = w.emitted ++ lowBits r π.length) ∧
        ∀ (br : bits.Reader) (rest : List Bool), br.Valid →
          br.pending = lowBits r π.length ++ rest →
          ∃ br1, walkLoop s.mem (s.mem.length + 1) root br = some (.ok n, br1) ∧
            br1.pending = rest) := by
  obtain ⟨hinv, htree⟩ := Reachable_inv_tree s hs
  obtain ⟨t, π, hroot, hb, hnd, hπ, _, hlt, _, hcode⟩ := leaf_code s hinv htree n hn
  have hdesc := hb.descend π t _ hπ
  refine ⟨t.ptr, π, hroot, hdesc, ?_, ?_⟩
  · intro ρ hρ
    obtain ⟨u, hu, hq⟩ := hb.descend_sub ρ t n hρ
    exact Tree.sub_unique ρ π t u _ hnd hu hπ hq
  · intro h64
    obtain ⟨r, hrun, hr, hbits⟩ := hcode h64
    refine ⟨r, hrun, hr, hbits, by rw [hbits]; exact hdesc, ?_, ?_⟩
    · intro w hw
      exact (WriteBits_emitted w r π.length hw h64).1
    · intro br rest hv hp
      rw [hbits] at hp
      obtain ⟨br1, h1, h2, _⟩ := walkLoop_path s.mem π t n br rest (s.mem.length + 1) hb hπ hv
        hp (by omega)
      exact ⟨br1, h1, h2⟩

end huffman

namespace huffman

open bits

/-- C12 at a concrete leaf: the leaf of the byte `65` in the model after
`newSymbols()` and `insert(65)`, which is at depth 2 with code `11`. -/
theorem Code_is_root_to_leaf_path_example :
    ∃ s0 s1, newSymbols = some s0 ∧ s0.insert 65 = some s1 ∧ s1.Reachable ∧ 3 ∈ s1.leaves ∧
      Code s1.mem 3 = some (3, 2) ∧
      ∃ (root : Nat) (π : List Bool), s1.root = some root ∧ descend s1.mem root π = some 3 ∧
        (∀ ρ, descend s1.mem root ρ = some 3 → ρ = π) ∧
        (π.length ≤ 64 → ∃ r, Code s1.mem 3 = some (r, π.length) ∧ r < 2 ^ π.length ∧
          lowBits r π.length = π ∧ descend s1.mem root (lowBits r π.length) = some 3 ∧
          (∀ w : bits.Writer, w.Valid →
            (w.WriteBits r π.length).emitted = w.emitted ++ lowBits r π.length) ∧
          ∀ (br : bits.Reader) (rest : List Bool), br.Valid →
            br.pending = lowBits r π.length ++ rest →
            ∃ br1, walkLoop s1.mem (s1.mem.length + 1) root br = some (.ok 3, br1) ∧
              br1.pending = rest) :=
  ⟨_, _, newSymbols_eq, rfl,
    symbols.Reachable.insert _ 65 _ (symbols.Reachable.init _ newSymbols_eq) rfl,
    by decide, by decide,
    Code_is_root_to_leaf_path _
      (symbols.Reachable.insert _ 65 _ (symbols.Reachable.init _ newSymbols_eq) rfl) 3
      (by decide)⟩

end huffman

/-! ## Writer and reader in step -/

namespace huffman

open bits

/-- The leaf queue of a model that tracks `S` has at most two more entries
than `S` has distinct bytes. -/
theorem Tracks_length_le (s : symbols) (S : List Nat) (ht : s.Tracks S) :
    s.leaves.length ≤ S.toFinset.card + 2 := by
  obtain ⟨hnd, hall, _, _⟩ := ht
  have h1 : (s.leaves.map s.char).toFinset ⊆ insert newChar (insert eof S.toFinset) := by
    intro c hc
    rw [List.mem_toFinset, List.mem_map] at hc
    obtain ⟨p, hp, rfl⟩ := hc
    simp only [Finset.mem_insert, List.mem_toFinset]
    rcases hall p hp with h | h | h
    · exact Or.inl h.1
    · exact Or.inr (Or.inl h.1)
    · exact Or.inr (Or.inr h.1)
  have h2 := Finset.card_le_card h1
  rw [List.toFinset_card_of_nodup hnd, List.length_map] at h2
  have h3 := Finset.card_insert_le newChar (insert eof S.toFinset)
  have h4 := Finset.card_insert_le eof S.toFinset
  omega

/-- The leaf queue of a model that tracks a non-empty `S` has at least three
entries. -/
theorem Tracks_length_ge (s : symbols) (S : List Nat) (ht : s.Tracks S) (b : Nat)
    (hb : b ∈ S) (hb8 : b < 256) : 3 ≤ s.leaves.length := by
  obtain ⟨hnd, _, hex, _⟩ := ht
  have hsub : [newChar, eof, b] ⊆ s.leaves.map s.char := by
    intro c hc
    simp only [List.mem_cons, List.mem_singleton, List.not_mem_nil, or_false] at hc
    have : ∃ p ∈ s.leaves, s.char p = c := by
      rcases hc with h | h | h
      · exact hex c (Or.inl h)
      · exact hex c (Or.inr (Or.inl h))
      · exact hex c (Or.inr (Or.inr (h ▸ hb)))
    obtain ⟨p, hp, hpc⟩ := this
    exact List.mem_map.2 ⟨p, hp, hpc⟩
  have hn := newChar_ge
  have he := eof_ge
  have hnd3 : [newChar, eof, b].Nodup := by
    simp only [List.nodup_cons, List.mem_cons, List.mem_singleton, List.not_mem_nil, or_false,
      not_or, not_false_eq_true, List.nodup_nil, and_true]
    refine ⟨⟨by decide, by omega⟩, by omega⟩
  have := (List.subperm_of_subset hnd3 hsub).length_le
  simpa using this

end huffman

namespace huffman

open bits

/-- `ReadByte` over the path of the `newChar` leaf followed by eight bits:
the byte is returned and inserted. -/
theorem ReadByte_new (s s1 : symbols) (t : Tree) (π : List Bool) (n b : Nat)
    (br : bits.Reader) (rest : List Bool) (hroot : s.root = some t.ptr) (hb : t.Built s.mem)
    (hπ : t.sub π = some (Tree.leaf n)) (hlt : π.length < s.mem.length)
    (hchar : s.char n = newChar) (hb8 : b < 256) (hins : s.insert b = some s1)
    (hv : br.Valid) (hp : br.pending = π ++ (lowBits b 8 ++ rest)) :
    ∃ br2, Reader.ReadByte { sym := s, br := br } = some (.ok b, { sym := s1, br := br2 }) ∧
      br2.pending = rest ∧ br2.Valid := by
  obtain ⟨br1, hwalk, hp1, hv1⟩ :=
    walkLoop_path s.mem π t n br _ (s.mem.length + 1) hb hπ hv hp (by omega)
  obtain ⟨v, br2, hread, hv8, hpend, hv2, _⟩ := ReadByte_spec br1 hv1
    (by rw [hp1]; simp [lowBits_length])
  rw [hp1] at hpend
  have hsplit := List.append_inj hpend (by simp [lowBits_length])
  have hvb : v = b := (lowBits_inj (n := 8) (by simpa using hb8) (by simpa using hv8) hsplit.1).symm
  subst hvb
  obtain ⟨a, ha, _⟩ := hb.sub π t _ hπ
  have hca : a.Char = newChar := by
    have := hchar
    unfold symbols.char at this
    rwa [getD_of_getElem? ha] at this
  refine ⟨br2, ?_, hsplit.2.symm, hv2⟩
  simp only [Reader.ReadByte, hroot, Option.bind_eq_bind, Option.some_bind, hwalk, ha, hca,
    if_true, hread, hins]

end huffman

namespace huffman

open bits

/-- `ReadByte` over the path of the leaf of a byte: the byte is returned and
its leaf updated. -/
theorem ReadByte_old (s s1 : symbols) (t : Tree) (π : List Bool) (n b : Nat)
    (br : bits.Reader) (rest : List Bool) (hroot : s.root = some t.ptr) (hb : t.Built s.mem)
    (hπ : t.sub π = some (Tree.leaf n)) (hlt : π.length < s.mem.length)
    (hchar : s.char n = b) (hb8 : b < 256) (hupd : s.update n = some s1)
    (hv : br.Valid) (hp : br.pending = π ++ rest) :
    ∃ br1, Reader.ReadByte { sym := s, br := br } = some (.ok b, { sym := s1, br := br1 }) ∧
      br1.pending = rest ∧ br1.Valid := by
  obtain ⟨br1, hwalk, hp1, hv1⟩ :=
    walkLoop_path s.mem π t n br _ (s.mem.length + 1) hb hπ hv hp (by omega)
  obtain ⟨a, ha, _⟩ := hb.sub π t _ hπ
  have hca : a.Char = b := by
    have := hchar
    unfold symbols.char at this
    rwa [getD_of_getElem? ha] at this
  have hn := newChar_ge
  have he := eof_ge
  have h1 : ¬ b = newChar := by omega
  have h2 : ¬ b = eof := by omega
  refine ⟨br1, ?_, hp1, hv1⟩
  simp only [Reader.ReadByte, hroot, Option.bind_eq_bind, Option.some_bind, hwalk, ha, hca, h1,
    h2, if_false, hupd, byte_of_lt hb8]

/-- `ReadByte` over the path of the `eof` leaf returns `io.EOF`. -/
theorem ReadByte_end (s : symbols) (t : Tree) (π : List Bool) (n : Nat)
    (br : bits.Reader) (rest : List Bool) (hroot : s.root = some t.ptr) (hb : t.Built s.mem)
    (hπ : t.sub π = some (Tree.leaf n)) (hlt : π.length < s.mem.length)
    (hchar : s.char n = eof) (hv : br.Valid) (hp : br.pending = π ++ rest) :
    ∃ br1, Reader.ReadByte { sym := s, br := br } = some (.error .EOF, { sym := s, br := br1 }) ∧
      br1.pending = rest := by
  obtain ⟨br1, hwalk, hp1, hv1⟩ :=
    walkLoop_path s.mem π t n br _ (s.mem.length + 1) hb hπ hv hp (by omega)
  obtain ⟨a, ha, _⟩ := hb.sub π t _ hπ
  have hca : a.Char = eof := by
    have := hchar
    unfold symbols.char at this
    rwa [getD_of_getElem? ha] at this
  have h1 : ¬ eof = newChar := by decide
  refine ⟨br1, ?_, hp1⟩
  simp only [Reader.ReadByte, hroot, Option.bind_eq_bind, Option.some_bind, hwalk, ha, hca, h1,
    if_false, if_true]

/-- One `WriteByte` of the writer and one `ReadByte` of a reader with the same
symbol model over the bits written: the reader returns the byte and arrives at
the writer's new model. -/
theorem WriteByte_sync (w : Writer) (S : List Nat) (b : Nat) (hb8 : b < 256)
    (hinv : w.sym.Inv) (htree : w.sym.TreeOK) (ht : w.sym.Tracks S) (hbw : w.bw.Valid)
    (hout : ∀ y ∈ w.bw.out, y < 256) (hlen : w.sym.leaves.length ≤ 65) :
    ∃ w1 code, w.WriteByte b = some w1 ∧ w1.sym.Inv ∧ w1.sym.TreeOK ∧
      w1.sym.Tracks (S ++ [b]) ∧ w1.bw.Valid ∧ (∀ y ∈ w1.bw.out, y < 256) ∧
      w1.bw.emitted = w.bw.emitted ++ code ∧ 1 ≤ code.length ∧
      ((w.sym.chars.lookup b = none ∧ ∃ nN r d, w.sym.chars.lookup newChar = some nN ∧
          Code w.sym.mem nN = some (r, d) ∧ w.sym.insert b = some w1.sym ∧
          code = lowBits r d ++ lowBits b 8) ∨
        (∃ node r d, w.sym.chars.lookup b = some node ∧ Code w.sym.mem node = some (r, d) ∧
          w.sym.update node = some w1.sym ∧ code = lowBits r d)) ∧
      ∀ (br : bits.Reader) (rest : List Bool), br.Valid → br.pending = code ++ rest →
        ∃ br1, Reader.ReadByte { sym := w.sym, br := br } =
            some (.ok b, { sym := w1.sym, br := br1 }) ∧
          br1.pending = rest ∧ br1.Valid := by
  have hl2 : ∀ (t : Tree), t.leaves.Perm w.sym.leaves → 2 ≤ t.leaves.length := by
    intro t hp
    rw [hp.length_eq]
    exact hinv.2.1
  cases hlk : w.sym.chars.lookup b with
  | none =>
    obtain ⟨p0, hp0, hc0⟩ := ht.2.2.1 newChar (Or.inl rfl)
    have hnew := (ht.2.2.2 newChar p0).2 ⟨hp0, hc0⟩
    obtain ⟨t, π, hroot, hbt, hnd, hπ, hπl, hπm, _, hcode⟩ := leaf_code w.sym hinv htree p0 hp0
    obtain ⟨r, hrun, _, hbits⟩ := hcode (by omega)
    obtain ⟨s1, hins, hinv1, hperm, hchars, hold, hcn, hfn⟩ := insert_spec w.sym b hinv
    obtain ⟨s2, hins2, _, htree1⟩ := insert_tree w.sym b hinv htree
    rw [hins] at hins2
    cases hins2
    obtain ⟨e1, v1⟩ := WriteBits_emitted w.bw r π.length hbw (by omega)
    have o1 := WriteBits_bytes w.bw r π.length hbw hout
    obtain ⟨e2, v2⟩ := WriteByte_emitted _ b v1 hb8
    have o2 := WriteByte_bytes _ b v1 hb8 o1
    refine ⟨{ sym := s1, bw := (w.bw.WriteBits r π.length).WriteByte b }, π ++ lowBits b 8, ?_,
      hinv1, htree1, Tracks_insert w.sym s1 S b hb8 hinv ht hlk hperm hchars hold hcn hfn, v2, o2,
      ?_, by simp [lowBits_length],
      Or.inl ⟨rfl, p0, r, π.length, hnew, hrun, hins, by rw [hbits]⟩, ?_⟩
    · unfold Writer.WriteByte
      simp only [hlk, hnew, hrun, hins, Option.bind_eq_bind, Option.some_bind]
    · show ((w.bw.WriteBits r π.length).WriteByte b).emitted = _
      rw [e2, e1, hbits, List.append_assoc]
    · intro br rest hv hp
      rw [List.append_assoc] at hp
      exact ReadByte_new w.sym s1 t π p0 b br rest hroot hbt hπ hπm hc0 hb8 hins hv hp
  | some node =>
    obtain ⟨hnode, hcn⟩ := (ht.2.2.2 b node).1 hlk
    obtain ⟨t, π, hroot, hbt, hnd, hπ, hπl, hπm, hπ1, hcode⟩ :=
      leaf_code w.sym hinv htree node hnode
    obtain ⟨r, hrun, _, hbits⟩ := hcode (by omega)
    obtain ⟨s1, hupd, hinv1, hperm, hchars, hc, hfn, hfo⟩ := update_spec w.sym node hinv hnode
    obtain ⟨s2, hupd2, _, htree1⟩ := update_tree w.sym node hinv htree hnode
    rw [hupd] at hupd2
    cases hupd2
    obtain ⟨e1, v1⟩ := WriteBits_emitted w.bw r π.length hbw (by omega)
    have o1 := WriteBits_bytes w.bw r π.length hbw hout
    refine ⟨{ sym := s1, bw := w.bw.WriteBits r π.length }, π, ?_,
      hinv1, htree1, Tracks_update w.sym s1 S b node hb8 hinv ht hlk hperm hchars hc hfn hfo, v1,
      o1, ?_, hπ1, Or.inr ⟨node, r, π.length, rfl, hrun, hupd, by rw [hbits]⟩, ?_⟩
    · unfold Writer.WriteByte
      simp only [hlk, hrun, hupd, Option.bind_eq_bind, Option.some_bind]
    · show (w.bw.WriteBits r π.length).emitted = _
      rw [e1, hbits]
    · intro br rest hv hp
      exact ReadByte_old w.sym s1 t π node b br rest hroot hbt hπ hπm hcn hb8 hupd hv hp

end huffman

namespace huffman

open bits

/-- `Close` after at least one byte: the code of `eof` and the padding are
written, and a reader with the writer's model over these bits returns
`io.EOF`. -/
theorem Close_sync (w : Writer) (S : List Nat) (hinv : w.sym.Inv) (htree : w.sym.TreeOK)
    (ht : w.sym.Tracks S) (hbw : w.bw.Valid) (hout : ∀ y ∈ w.bw.out, y < 256)
    (h3 : 2 < w.sym.leaves.length) (hlen : w.sym.leaves.length ≤ 65) :
    ∃ w2 code, w.Close = some w2 ∧ (∀ y ∈ w2.bw.out, y < 256) ∧
      w2.bw.out.flatMap (fun b => lowBits b 8) = w.bw.emitted ++ code ∧
      (∃ nE r d k, w.sym.chars.lookup eof = some nE ∧ Code w.sym.mem nE = some (r, d) ∧ k < 8 ∧
        code = lowBits r d ++ List.replicate k false) ∧
      ∀ (br : bits.Reader), br.Valid → br.pending = code →
        ∃ br1, Reader.ReadByte { sym := w.sym, br := br } =
          some (.error .EOF, { sym := w.sym, br := br1 }) := by
  obtain ⟨pe, hpe, hce⟩ := ht.2.2.1 eof (Or.inr (Or.inl rfl))
  have hlook := (ht.2.2.2 eof pe).2 ⟨hpe, hce⟩
  obtain ⟨t, π, hroot, hbt, hnd, hπ, hπl, hπm, _, hcode⟩ := leaf_code w.sym hinv htree pe hpe
  obtain ⟨r, hrun, _, hbits⟩ := hcode (by omega)
  obtain ⟨e1, v1⟩ := WriteBits_emitted w.bw r π.length hbw (by omega)
  have o1 := WriteBits_bytes w.bw r π.length hbw hout
  obtain ⟨k, hk, hclose⟩ := Close_out _ v1
  refine ⟨{ w with bw := (w.bw.WriteBits r π.length).Close }, π ++ List.replicate k false, ?_,
    Close_bytes _ v1 o1, ?_, ⟨pe, r, π.length, k, hlook, hrun, hk, by rw [hbits]⟩, ?_⟩
  · unfold Writer.Close
    simp only [h3, if_true, hlook, hrun, Option.bind_eq_bind, Option.some_bind]
  · show (w.bw.WriteBits r π.length).Close.out.flatMap _ = _
    rw [hclose, e1, hbits, List.append_assoc]
  · intro br hv hp
    obtain ⟨br1, h1, _⟩ := ReadByte_end w.sym t π pe br _ hroot hbt hπ hπm hce hv hp
    exact ⟨br1, h1⟩

theorem toFinset_card_append_le (S p : List Nat) :
    S.toFinset.card ≤ (S ++ p).toFinset.card := by
  apply Finset.card_le_card
  intro x hx
  simp only [List.toFinset_append, Finset.mem_union]
  exact Or.inl hx

/-- Writing the bytes `p` and reading them back: a reader with the writer's
model over the bits written returns the bytes of `p` and arrives at the
writer's final model. -/
theorem Write_sync : ∀ (p : List Nat) (w : Writer) (S : List Nat),
    (∀ b ∈ p, b < 256) → w.sym.Inv → w.sym.TreeOK → w.sym.Tracks S → w.bw.Valid →
    (∀ y ∈ w.bw.out, y < 256) → (S ++ p).toFinset.card ≤ 63 →
    ∃ w1 D, w.Write p = some w1 ∧ w1.sym.Inv ∧ w1.sym.TreeOK ∧ w1.sym.Tracks (S ++ p) ∧
      w1.bw.Valid ∧ (∀ y ∈ w1.bw.out, y < 256) ∧ w1.bw.emitted = w.bw.emitted ++ D ∧
      p.length ≤ D.length ∧
      ∀ (br : bits.Reader) (rest : List Bool), br.Valid → br.pending = D ++ rest →
        ∃ br1, br1.Valid ∧ br1.pending = rest ∧
          ∀ fuel res, Reader.readAll fuel { sym := w1.sym, br := br1 } = some res →
            Reader.readAll (fuel + p.length) { sym := w.sym, br := br } =
              some (p ++ res.1, res.2.1, res.2.2)
  | [], w, S, _, hinv, htree, ht, hbw, hout, _ =>
    ⟨w, [], rfl, hinv, htree, by simpa using ht, hbw, hout, by simp, by simp,
      fun br rest hv hp => ⟨br, hv, by simpa using hp, fun fuel res h => by simpa using h⟩⟩
  | b :: p, w, S, hp, hinv, htree, ht, hbw, hout, hcard => by
    have hb8 := hp b (List.mem_cons_self _ _)
    have hlen : w.sym.leaves.length ≤ 65 := by
      have h1 := Tracks_length_le w.sym S ht
      have h2 := toFinset_card_append_le S (b :: p)
      omega
    obtain ⟨w1, code, hw1, hinv1, htree1, ht1, hbw1, hout1, hem1, hc1, _, hread1⟩ :=
      WriteByte_sync w S b hb8 hinv htree ht hbw hout hlen
    obtain ⟨w2, D, hw2, hinv2, htree2, ht2, hbw2, hout2, hem2, hD, hread2⟩ :=
      Write_sync p w1 (S ++ [b]) (fun x hx => hp x (List.mem_cons_of_mem _ hx)) hinv1 htree1 ht1
        hbw1 hout1 (by simpa using hcard)
    refine ⟨w2, code ++ D, ?_, hinv2, htree2, by simpa using ht2, hbw2, hout2, ?_, ?_, ?_⟩
    · unfold Writer.Write at hw2 ⊢
      simp only [List.foldlM_cons, hw1, Option.bind_eq_bind, Option.some_bind]
      exact hw2
    · rw [hem2, hem1, List.append_assoc]
    · simp only [List.length_cons, List.length_append]
      omega
    · intro br rest hv hpend
      rw [List.append_assoc] at hpend
      obtain ⟨br1, hr1, hp1, hv1⟩ := hread1 br (D ++ rest) hv hpend
      obtain ⟨br2, hv2, hp2, hall⟩ := hread2 br1 rest hv1 hp1
      refine ⟨br2, hv2, hp2, ?_⟩
      intro fuel res hres
      have h := hall fuel res hres
      have e : fuel + (b :: p).length = (fuel + p.length) + 1 := by simp; omega
      rw [e]
      simp only [Reader.readAll, hr1, Option.bind_eq_bind, Option.some_bind, h, List.cons_append]

end huffman

namespace huffman

open bits

theorem flatMap_lowBits_length (out : List Nat) :
    (out.flatMap (fun b => lowBits b 8)).length = 8 * out.length := by
  induction out with
  | nil => rfl
  | cons x l ih => simp [List.flatMap_cons, lowBits_length, ih]; omega

/-- The round trip for inputs with at most 63 distinct byte values: the
decoder returns the bytes given to the encoder and then `io.EOF`. -/
theorem round_trip_small (S : List Nat) (hS : ∀ b ∈ S, b < 256) (hne : S ≠ [])
    (hcard : S.toFinset.card ≤ 63) :
    ∃ w0 w1 w2, NewWriter = some w0 ∧ w0.Write S = some w1 ∧ w1.Close = some w2 ∧
      encode S = some w2.bw.out ∧ decode w2.bw.out = some (S, .EOF) := by
  obtain ⟨hinv0, ht0⟩ := NewWriter_inv _ NewWriter_eq
  have htree0 := (newSymbols_tree _ newSymbols_eq).2
  obtain ⟨w1, D, hw1, hinv1, htree1, ht1, hbw1, hout1, hem1, hD, hread1⟩ :=
    Write_sync S _ [] hS hinv0 htree0 ht0 NewWriter_valid (by simp [bits.NewWriter])
      (by simpa using hcard)
  rw [List.nil_append] at ht1
  obtain ⟨b, hb⟩ := List.exists_mem_of_ne_nil S hne
  have h3 := Tracks_length_ge w1.sym S ht1 b hb (hS b hb)
  have h65 := Tracks_length_le w1.sym S ht1
  obtain ⟨w2, code, hw2, hout2, hbits2, _, hread2⟩ :=
    Close_sync w1 S hinv1 htree1 ht1 hbw1 hout1 (by omega) (by omega)
  refine ⟨_, w1, w2, NewWriter_eq, hw1, hw2, ?_, ?_⟩
  · unfold encode
    simp only [NewWriter_eq, Option.bind_eq_bind, Option.some_bind, hw1, hw2]
  · have hem : w2.bw.out.flatMap (fun b => lowBits b 8) = D ++ code := by
      rw [hbits2, hem1]
      simp [bits.NewWriter, Writer.emitted, lowBits]
    have hv0 : (bits.NewReader w2.bw.out).Valid :=
      ⟨by simp [bits.NewReader], hout2⟩
    obtain ⟨br1, hv1, hp1, hall⟩ := hread1 (bits.NewReader w2.bw.out) code hv0
      (by rw [NewReader_pending, hem])
    obtain ⟨br2, hend⟩ := hread2 br1 hv1 hp1
    have hlen : S.length + 1 ≤ 8 * w2.bw.out.length + 2 := by
      have := congrArg List.length hem
      rw [flatMap_lowBits_length, List.length_append] at this
      omega
    obtain ⟨k, hk⟩ : ∃ k, 8 * w2.bw.out.length + 2 = (k + 1) + S.length :=
      ⟨8 * w2.bw.out.length + 2 - S.length - 1, by omega⟩
    have hfin : Reader.readAll (k + 1) { sym := w1.sym, br := br1 } =
        some ([], .EOF, { sym := w1.sym, br := br2 }) := by
      simp only [Reader.readAll, hend, Option.bind_eq_bind, Option.some_bind]
    have h := hall (k + 1) _ hfin
    unfold decode NewReader
    simp only [newSymbols_eq, Option.bind_eq_bind, Option.some_bind, hk]
    rw [h]
    simp

end huffman

/-! ## The symbols do not influence the shape of the tree -/

namespace heap

variable {σ α : Type}

theorem downLoop_sim {I : Interface σ α} {φ : σ → σ} (H : Sim I φ) (n : Nat) :
    ∀ (fuel : Nat) (s : σ) (i : Nat),
      downLoop I n fuel (φ s) i = (downLoop I n fuel s i).map (fun r => (φ r.1, r.2)) := by
  intro fuel
  induction fuel with
  | zero => intro s i; rfl
  | succ fuel ih =>
    intro s i
    simp only [downLoop, H.less, H.swap]
    by_cases h1 : 2 * i + 1 ≥ n
    · simp [h1]
    · simp only [h1, if_false]
      cases hc : (if 2 * i + 1 + 1 < n then I.Less s (2 * i + 1 + 1) (2 * i + 1) else some false) with
      | none => simp
      | some c =>
        simp only [Option.bind_eq_bind, Option.some_bind]
        cases hl : I.Less s (if c = true then 2 * i + 1 + 1 else 2 * i + 1) i with
        | none => simp
        | some lt =>
          simp only [Option.some_bind]
          cases lt
          · simp
          · simp only [Bool.not_true, Bool.false_eq_true, if_false]
            cases hs : I.Swap s i (if c = true then 2 * i + 1 + 1 else 2 * i + 1) with
            | none => simp
            | some s1 => simp [ih]

theorem down_sim {I : Interface σ α} {φ : σ → σ} (H : Sim I φ) (s : σ) (i0 n : Nat) :
    down I (φ s) i0 n = (down I s i0 n).map (fun r => (φ r.1, r.2)) := by
  simp only [down, downLoop_sim H]
  cases downLoop I n (n + 1) s i0 <;> simp

theorem upLoop_sim {I : Interface σ α} {φ : σ → σ} (H : Sim I φ) :
    ∀ (fuel : Nat) (s : σ) (j : Nat), upLoop I fuel (φ s) j = (upLoop I fuel s j).map φ := by
  intro fuel
  induction fuel with
  | zero => intro s j; rfl
  | succ fuel ih =>
    intro s j
    simp only [upLoop, H.less, H.swap]
    by_cases h1 : (j - 1) / 2 = j
    · simp [h1]
    · simp only [h1, if_false]
      cases hl : I.Less s j ((j - 1) / 2) with
      | none => simp
      | some lt =>
        simp only [Option.bind_eq_bind, Option.some_bind]
        cases lt
        · simp
        · simp only [Bool.not_true, Bool.false_eq_true, if_false]
          cases hs : I.Swap s ((j - 1) / 2) j with
          | none => simp
          | some s1 => simp [ih]

theorem up_sim {I : Interface σ α} {φ : σ → σ} (H : Sim I φ) (s : σ) (j : Nat) :
    up I (φ s) j = (up I s j).map φ := upLoop_sim H _ s j

theorem Push_sim {I : Interface σ α} {φ : σ → σ} (H : Sim I φ) (s : σ) (x : α) :
    Push I (φ s) x = (Push I s x).map φ := by
  simp only [Push, H.push]
  cases I.Push s x with
  | none => simp
  | some s1 => simp [up_sim H, H.len]

theorem Pop_sim {I : Interface σ α} {φ : σ → σ} (H : Sim I φ) (s : σ) :
    Pop I (φ s) = (Pop I s).map (fun r => (r.1, φ r.2)) := by
  simp only [Pop, H.len, H.swap]
  cases I.Swap s 0 (I.Len s - 1) with
  | none => simp
  | some s1 =>
    simp only [Option.map_some', Option.bind_eq_bind, Option.some_bind, down_sim H]
    cases down I s1 0 (I.Len s - 1) with
    | none => simp
    | some r => simp [H.pop]

theorem Fix_sim {I : Interface σ α} {φ : σ → σ} (H : Sim I φ) (s : σ) (i : Nat) :
    Fix I (φ s) i = (Fix I s i).map φ := by
  simp only [Fix, H.len, down_sim H]
  cases down I s i (I.Len s) with
  | none => simp
  | some r =>
    simp only [Option.map_some', Option.bind_eq_bind, Option.some_bind]
    cases r.2
    · simp [up_sim H]
    · simp

end heap

namespace huffman

open heap

theorem eraseMem_getElem? (mem : Mem) (p : Nat) :
    (eraseMem mem)[p]? = (mem[p]?).map Node.noChar := by
  simp [eraseMem]

theorem eraseMem_length (mem : Mem) : (eraseMem mem).length = mem.length := by
  simp [eraseMem]

theorem store_erase (mem : Mem) (p : Nat) (f : Node → Node)
    (hf : ∀ a, Node.noChar (f a) = f (Node.noChar a)) :
    store (eraseMem mem) p f = (store mem p f).map eraseMem := by
  unfold store
  rw [eraseMem_getElem?]
  cases h : mem[p]? with
  | none => simp
  | some a =>
    simp only [Option.map_some', Option.bind_eq_bind, Option.some_bind, Option.some.injEq]
    unfold eraseMem
    rw [List.map_set, hf]

theorem NodeHeap_sim : Sim NodeHeap HeapState.shape where
  len := fun s => rfl
  less := by
    intro s i j
    show NodeHeap.Less s.shape i j = NodeHeap.Less s i j
    simp only [NodeHeap.Less, HeapState.shape, eraseMem_getElem?]
    cases s.h[i]? with
    | none => rfl
    | some p =>
      cases s.h[j]? with
      | none => rfl
      | some q =>
        simp only [Option.bind_eq_bind, Option.some_bind]
        cases s.mem[p]? with
        | none => rfl
        | some a =>
          cases s.mem[q]? with
          | none => rfl
          | some b => rfl
  swap := by
    intro s i j
    show NodeHeap.Swap s.shape i j = (NodeHeap.Swap s i j).map HeapState.shape
    simp only [NodeHeap.Swap, HeapState.shape]
    cases s.h[i]? with
    | none => rfl
    | some p =>
      cases s.h[j]? with
      | none => rfl
      | some q =>
        simp only [Option.bind_eq_bind, Option.some_bind]
        cases ((s.h.set i q).set j p)[i]? with
        | none => rfl
        | some x =>
          simp only [Option.some_bind]
          rw [store_erase s.mem x (fun nd => { nd with index := i }) (fun a => rfl)]
          cases store s.mem x (fun nd => { nd with index := i }) with
          | none => rfl
          | some mem1 =>
            simp only [Option.map_some', Option.some_bind]
            cases ((s.h.set i q).set j p)[j]? with
            | none => rfl
            | some y =>
              simp only [Option.some_bind]
              rw [store_erase mem1 y (fun nd => { nd with index := j }) (fun a => rfl)]
              cases store mem1 y (fun nd => { nd with index := j }) with
              | none => rfl
              | some mem2 => rfl
  push := by
    intro s x
    show NodeHeap.Push s.shape x = (NodeHeap.Push s x).map HeapState.shape
    simp only [NodeHeap.Push, HeapState.shape]
    rw [store_erase s.mem x (fun nd => { nd with index := s.h.length }) (fun a => rfl)]
    cases store s.mem x (fun nd => { nd with index := s.h.length }) with
    | none => rfl
    | some mem1 => rfl
  pop := by
    intro s
    show NodeHeap.Pop s.shape = (NodeHeap.Pop s).map (fun r => (r.1, r.2.shape))
    simp only [NodeHeap.Pop, HeapState.shape]
    cases s.h.getLast? with
    | none => rfl
    | some x => rfl

end huffman

namespace huffman

open heap

theorem buildLoop_erase : ∀ (fuel : Nat) (s : HeapState),
    buildLoop fuel s.shape = (buildLoop fuel s).map HeapState.shape := by
  intro fuel
  induction fuel with
  | zero => intro s; rfl
  | succ fuel ih =>
    intro s
    unfold buildLoop
    have hlen : NodeHeap.Len s.shape = NodeHeap.Len s := rfl
    rw [hlen]
    by_cases h1 : NodeHeap.Len s > 1
    · simp only [h1, if_true]
      rw [Pop_sim NodeHeap_sim s]
      cases heap.Pop NodeHeap s with
      | none => rfl
      | some l =>
        simp only [Option.map_some', Option.bind_eq_bind, Option.some_bind]
        rw [Pop_sim NodeHeap_sim l.2]
        cases heap.Pop NodeHeap l.2 with
        | none => rfl
        | some r =>
          simp only [Option.map_some', Option.some_bind]
          have hm : r.2.shape.mem = eraseMem r.2.mem := rfl
          rw [hm, eraseMem_getElem?, eraseMem_getElem?, eraseMem_length]
          cases r.2.mem[l.1]? with
          | none => rfl
          | some ln =>
            simp only [Option.map_some', Option.some_bind]
            cases r.2.mem[r.1]? with
            | none => rfl
            | some rn =>
              simp only [Option.map_some', Option.some_bind]
              have e1 : eraseMem r.2.mem ++
                  [({ Freq := (Node.noChar ln).Freq + (Node.noChar rn).Freq } : Node)] =
                  eraseMem (r.2.mem ++ [{ Freq := ln.Freq + rn.Freq }]) := by
                simp [eraseMem, Node.noChar]
              rw [e1, store_erase _ l.1 (fun nd => { nd with Parent := some r.2.mem.length })
                (fun a => rfl)]
              cases store (r.2.mem ++ [{ Freq := ln.Freq + rn.Freq }]) l.1
                  (fun nd => { nd with Parent := some r.2.mem.length }) with
              | none => rfl
              | some mem2 =>
                simp only [Option.map_some', Option.some_bind]
                rw [store_erase mem2 r.1 (fun nd => { nd with Parent := some r.2.mem.length })
                  (fun a => rfl)]
                cases store mem2 r.1 (fun nd => { nd with Parent := some r.2.mem.length }) with
                | none => rfl
                | some mem3 =>
                  simp only [Option.map_some', Option.some_bind]
                  rw [store_erase mem3 r.2.mem.length (fun nd => { nd with Left := some l.1 })
                    (fun a => rfl)]
                  cases store mem3 r.2.mem.length (fun nd => { nd with Left := some l.1 }) with
                  | none => rfl
                  | some mem4 =>
                    simp only [Option.map_some', Option.some_bind]
                    rw [store_erase mem4 r.2.mem.length
                      (fun nd => { nd with Right := some r.1 }) (fun a => rfl)]
                    cases store mem4 r.2.mem.length (fun nd => { nd with Right := some r.1 }) with
                    | none => rfl
                    | some mem5 =>
                      simp only [Option.map_some', Option.some_bind]
                      have e2 : ({ mem := eraseMem mem5, h := r.2.shape.h } : HeapState) =
                          HeapState.shape { mem := mem5, h := r.2.h } := rfl
                      rw [e2, Push_sim NodeHeap_sim]
                      cases heap.Push NodeHeap { mem := mem5, h := r.2.h } r.2.mem.length with
                      | none => rfl
                      | some s1 =>
                        simp only [Option.map_some', Option.some_bind]
                        exact ih s1
    · simp [h1]

end huffman

namespace huffman

open heap

theorem eraseMem_idem (mem : Mem) : eraseMem (eraseMem mem) = eraseMem mem := by
  simp [eraseMem, Node.noChar]

theorem buildTree_erase (s s1 : symbols) (hmem : s1.mem = eraseMem s.mem)
    (hleaves : s1.leaves = s.leaves) :
    (s1.buildTree).map symbols.shape = (s.buildTree).map symbols.shape := by
  unfold symbols.buildTree
  have e : ({ mem := s1.mem, h := s1.leaves } : HeapState) =
      HeapState.shape { mem := s.mem, h := s.leaves } := by
    rw [hmem, hleaves]; rfl
  rw [e, buildLoop_erase, hleaves]
  cases buildLoop (s.leaves.length + 1) { mem := s.mem, h := s.leaves } with
  | none => rfl
  | some st =>
    simp only [Option.map_some', Option.bind_eq_bind, Option.some_bind]
    rw [Pop_sim NodeHeap_sim st]
    cases heap.Pop NodeHeap st with
    | none => rfl
    | some r =>
      simp only [Option.map_some', Option.some_bind, symbols.shape, HeapState.shape, hleaves,
        eraseMem_idem]

/-- The shape of the model after `insert` does not depend on the symbol
inserted nor on the symbols in the model. -/
theorem insert_erase (s : symbols) (c : Nat) :
    (s.shape.insert 0).map symbols.shape = (s.insert c).map symbols.shape := by
  unfold symbols.insert
  have e : HeapState.mk
      (s.shape.mem ++ [{ Freq := 1, Char := 0, index := s.shape.leaves.length }])
      s.shape.leaves =
      HeapState.shape
        (HeapState.mk (s.mem ++ [{ Freq := 1, Char := c, index := s.leaves.length }])
          s.leaves) := by
    simp [HeapState.shape, symbols.shape, eraseMem, Node.noChar]
  have e2 : s.shape.mem.length = s.mem.length := eraseMem_length s.mem
  simp only [e, e2]
  rw [Push_sim NodeHeap_sim]
  cases heap.Push NodeHeap
      (HeapState.mk (s.mem ++ [{ Freq := 1, Char := c, index := s.leaves.length }]) s.leaves)
      s.mem.length with
  | none => rfl
  | some st =>
    simp only [Option.map_some', Option.bind_eq_bind, Option.some_bind]
    exact buildTree_erase _ _ rfl rfl

/-- The shape of the model after `update` does not depend on the symbols in
the model. -/
theorem update_erase (s : symbols) (n : Nat) :
    (s.shape.update n).map symbols.shape = (s.update n).map symbols.shape := by
  unfold symbols.update
  have e0 : s.shape.mem = eraseMem s.mem := rfl
  rw [e0, store_erase s.mem n (fun nd => { nd with Freq := nd.Freq + 1 }) (fun a => rfl)]
  cases store s.mem n (fun nd => { nd with Freq := nd.Freq + 1 }) with
  | none => rfl
  | some mem1 =>
    simp only [Option.map_some', Option.bind_eq_bind, Option.some_bind, eraseMem_getElem?]
    cases mem1[n]? with
    | none => rfl
    | some nd =>
      simp only [Option.map_some', Option.some_bind]
      have e : ({ mem := eraseMem mem1, h := s.shape.leaves } : HeapState) =
          HeapState.shape { mem := mem1, h := s.leaves } := rfl
      have e3 : (Node.noChar nd).index = nd.index := rfl
      rw [e, e3, Fix_sim NodeHeap_sim]
      cases heap.Fix NodeHeap { mem := mem1, h := s.leaves } nd.index with
      | none => rfl
      | some st =>
        simp only [Option.map_some', Option.some_bind]
        exact buildTree_erase _ _ rfl rfl

theorem codeLoop_erase (mem : Mem) : ∀ (fuel n : Nat) (parent : Option Nat) (r count : Nat),
    codeLoop (eraseMem mem) fuel n parent r count = codeLoop mem fuel n parent r count := by
  intro fuel
  induction fuel with
  | zero => intro n parent r count; rfl
  | succ fuel ih =>
    intro n parent r count
    cases parent with
    | none => rfl
    | some p =>
      simp only [codeLoop, eraseMem_getElem?]
      cases mem[p]? with
      | none => rfl
      | some pn =>
        simp only [Option.map_some', Option.bind_eq_bind, Option.some_bind]
        exact ih _ _ _ _

/-- `Code` does not depend on the symbols in the memory. -/
theorem Code_erase (mem : Mem) (n : Nat) : Code (eraseMem mem) n = Code mem n := by
  unfold Code
  rw [eraseMem_getElem?, eraseMem_length]
  cases mem[n]? with
  | none => rfl
  | some nd =>
    simp only [Option.map_some', Option.bind_eq_bind, Option.some_bind]
    exact codeLoop_erase mem _ _ _ _ _

end huffman

/-! ## The scenarios of one byte and of one byte three times -/

namespace huffman

open bits heap

/-- The shapes of the models after `insert` of a byte and two `update`s of
its leaf, and the codes in them. -/
theorem shapes_of_repeated_byte (s0 : symbols) (h0 : newSymbols = some s0) :
    ∃ S1 S2 S3, (s0.shape.insert 0).map symbols.shape = some S1 ∧
      (S1.update 3).map symbols.shape = some S2 ∧
      (S2.update 3).map symbols.shape = some S3 ∧
      s0.mem.length = 3 ∧ s0.chars = [(eof, 1), (newChar, 0)] ∧
      S1.leaves = [0, 1, 3] ∧ S2.leaves = [0, 1, 3] ∧ S3.leaves = [0, 1, 3] ∧
      Code s0.mem 0 = some (0, 1) ∧
      Code S1.mem 1 = some (0, 1) ∧ Code S1.mem 3 = some (3, 2) ∧
      Code S2.mem 3 = some (0, 1) ∧ Code S3.mem 1 = some (1, 2) := by
  rw [newSymbols_eq] at h0
  cases h0
  exact ⟨_, _, _, rfl, rfl, rfl, rfl, rfl, by decide, by decide, by decide, by decide, by decide,
    by decide, by decide, by decide⟩

theorem shape_mem (s : symbols) : s.shape.mem = eraseMem s.mem := rfl

theorem shape_leaves (s : symbols) : s.shape.leaves = s.leaves := rfl

theorem shape_shape (s : symbols) : s.shape.shape = s.shape := by
  simp [symbols.shape, eraseMem_idem]

theorem Code_shape (s : symbols) (n : Nat) : Code s.shape.mem n = Code s.mem n :=
  Code_erase s.mem n

end huffman

namespace huffman

open bits heap

theorem NewWriter_parts (w0 : Writer) (h : NewWriter = some w0) :
    newSymbols = some w0.sym ∧ w0.bw = bits.NewWriter := by
  unfold NewWriter at h
  cases hs : newSymbols with
  | none => simp [hs] at h
  | some s =>
    simp only [hs, Option.bind_eq_bind, Option.some_bind, Option.some.injEq] at h
    subst h
    exact ⟨rfl, rfl⟩

/-- `WriteByte` of a byte that has no leaf yet: the code of `newChar` and the
eight bits of the byte are written and the byte is inserted. -/
theorem WriteByte_new_step (w : Writer) (S : List Nat) (b : Nat) (hb8 : b < 256)
    (hinv : w.sym.Inv) (htree : w.sym.TreeOK) (ht : w.sym.Tracks S) (hbw : w.bw.Valid)
    (hout : ∀ y ∈ w.bw.out, y < 256) (hlen : w.sym.leaves.length ≤ 65)
    (hlk : w.sym.chars.lookup b = none) (nN : Nat) (hnew : w.sym.chars.lookup newChar = some nN)
    (c : Nat × Nat) (hc : Code w.sym.mem nN = some c) :
    ∃ w1, w.WriteByte b = some w1 ∧ w1.sym.Inv ∧ w1.sym.TreeOK ∧ w1.sym.Tracks (S ++ [b]) ∧
      w1.bw.Valid ∧ (∀ y ∈ w1.bw.out, y < 256) ∧
      w1.bw.emitted = w.bw.emitted ++ (lowBits c.1 c.2 ++ lowBits b 8) ∧
      w.sym.insert b = some w1.sym := by
  obtain ⟨w1, code, hw1, hinv1, htree1, ht1, hbw1, hout1, hem1, _, hdesc, _⟩ :=
    WriteByte_sync w S b hb8 hinv htree ht hbw hout hlen
  refine ⟨w1, hw1, hinv1, htree1, ht1, hbw1, hout1, ?_, ?_⟩
  · rcases hdesc with ⟨_, n1, r, d, h1, h2, _, h4⟩ | ⟨node, _, _, h1, _⟩
    · rw [hnew] at h1
      cases h1
      rw [hc] at h2
      cases h2
      rw [hem1, h4]
    · rw [hlk] at h1
      cases h1
  · rcases hdesc with ⟨_, n1, r, d, _, _, h3, _⟩ | ⟨node, _, _, h1, _⟩
    · exact h3
    · rw [hlk] at h1
      cases h1

/-- `WriteByte` of a byte that has a leaf: the code of the leaf is written and
the leaf is updated. -/
theorem WriteByte_old_step (w : Writer) (S : List Nat) (b : Nat) (hb8 : b < 256)
    (hinv : w.sym.Inv) (htree : w.sym.TreeOK) (ht : w.sym.Tracks S) (hbw : w.bw.Valid)
    (hout : ∀ y ∈ w.bw.out, y < 256) (hlen : w.sym.leaves.length ≤ 65)
    (node : Nat) (hlk : w.sym.chars.lookup b = some node)
    (c : Nat × Nat) (hc : Code w.sym.mem node = some c) :
    ∃ w1, w.WriteByte b = some w1 ∧ w1.sym.Inv ∧ w1.sym.TreeOK ∧ w1.sym.Tracks (S ++ [b]) ∧
      w1.bw.Valid ∧ (∀ y ∈ w1.bw.out, y < 256) ∧
      w1.bw.emitted = w.bw.emitted ++ lowBits c.1 c.2 ∧
      w.sym.update node = some w1.sym := by
  obtain ⟨w1, code, hw1, hinv1, htree1, ht1, hbw1, hout1, hem1, _, hdesc, _⟩ :=
    WriteByte_sync w S b hb8 hinv htree ht hbw hout hlen
  refine ⟨w1, hw1, hinv1, htree1, ht1, hbw1, hout1, ?_, ?_⟩
  · rcases hdesc with ⟨h1, _⟩ | ⟨n1, r, d, h1, h2, _, h4⟩
    · rw [hlk] at h1
      cases h1
    · rw [hlk] at h1
      cases h1
      rw [hc] at h2
      cases h2
      rw [hem1, h4]
  · rcases hdesc with ⟨h1, _⟩ | ⟨n1, r, d, h1, _, h3, _⟩
    · rw [hlk] at h1
      cases h1
    · rw [hlk] at h1
      cases h1
      exact h3

/-- `Close` after at least one byte: the code of `eof` and the zero bits of
the padding are written. -/
theorem Close_step (w : Writer) (S : List Nat) (hinv : w.sym.Inv) (htree : w.sym.TreeOK)
    (ht : w.sym.Tracks S) (hbw : w.bw.Valid) (hout : ∀ y ∈ w.bw.out, y < 256)
    (h3 : 2 < w.sym.leaves.length) (hlen : w.sym.leaves.length ≤ 65)
    (nE : Nat) (hlk : w.sym.chars.lookup eof = some nE)
    (c : Nat × Nat) (hc : Code w.sym.mem nE = some c) :
    ∃ w2 k, w.Close = some w2 ∧ k < 8 ∧
      w2.bw.out.flatMap (fun b => lowBits b 8) =
        w.bw.emitted ++ (lowBits c.1 c.2 ++ List.replicate k false) := by
  obtain ⟨w2, code, hw2, _, hbits, ⟨n1, r, d, k, h1, h2, hk, h4⟩, _⟩ :=
    Close_sync w S hinv htree ht hbw hout h3 hlen
  rw [hlk] at h1
  cases h1
  rw [hc] at h2
  cases h2
  exact ⟨w2, k, hw2, hk, by rw [hbits, h4]⟩

end huffman

namespace huffman

open bits heap

theorem lookup_head (c p : Nat) (l : List (Nat × Nat)) : ((c, p) :: l).lookup c = some p := by
  simp [List.lookup_cons]

theorem lookup_tail (c d p : Nat) (l : List (Nat × Nat)) (h : c ≠ d) :
    ((d, p) :: l).lookup c = l.lookup c := by
  have e : (c == d) = false := by simpa using h
  simp [List.lookup_cons, e]

/-- The first `WriteByte` on a fresh writer. -/
theorem fresh_write (X : Nat) (hX : X < 256) (w0 : Writer) (hw0 : NewWriter = some w0)
    (S1 : symbols) (hS1 : (w0.sym.shape.insert 0).map symbols.shape = some S1)
    (hchars0 : w0.sym.chars = [(eof, 1), (newChar, 0)]) (hlen0 : w0.sym.mem.length = 3)
    (hc0 : Code w0.sym.mem 0 = some (0, 1)) :
    ∃ w1, w0.WriteByte X = some w1 ∧ w1.sym.Inv ∧ w1.sym.TreeOK ∧ w1.sym.Tracks [X] ∧
      w1.bw.Valid ∧ (∀ y ∈ w1.bw.out, y < 256) ∧
      w1.bw.emitted = lowBits 0 1 ++ lowBits X 8 ∧ w1.sym.shape = S1 ∧
      w1.sym.chars.lookup X = some 3 ∧ w1.sym.chars.lookup eof = some 1 := by
  obtain ⟨hinv0, ht0⟩ := NewWriter_inv w0 hw0
  obtain ⟨hsym0, hbw0⟩ := NewWriter_parts w0 hw0
  have htree0 := (newSymbols_tree _ hsym0).2
  have hn := newChar_ge
  have he := eof_ge
  have hne : newChar ≠ eof := by decide
  have hlkX : w0.sym.chars.lookup X = none := by
    rw [hchars0, lookup_tail _ _ _ _ (by omega), lookup_tail _ _ _ _ (by omega)]
    rfl
  have hlkN : w0.sym.chars.lookup newChar = some 0 := by
    rw [hchars0, lookup_tail _ _ _ _ hne, lookup_head]
  obtain ⟨w1, hw1, hinv1, htree1, ht1, hbw1, hout1, hem1, hins⟩ :=
    WriteByte_new_step w0 [] X hX hinv0 htree0 ht0 (by rw [hbw0]; exact NewWriter_valid)
      (by rw [hbw0]; simp [bits.NewWriter])
      (by have := Tracks_length_le _ _ ht0; simp at this; omega) hlkX 0 hlkN (0, 1) hc0
  obtain ⟨s1, hins1, _, _, hchars1, _⟩ := insert_spec w0.sym X hinv0
  rw [hins] at hins1
  cases hins1
  have hshape : w1.sym.shape = S1 := by
    have h := insert_erase w0.sym X
    rw [hins, hS1] at h
    exact (Option.some.inj h).symm
  refine ⟨w1, hw1, hinv1, htree1, by simpa using ht1, hbw1, hout1, ?_, hshape, ?_, ?_⟩
  · rw [hem1, hbw0]
    simp [bits.NewWriter, Writer.emitted, lowBits]
  · rw [hchars1, hlen0, lookup_head]
  · rw [hchars1, lookup_tail _ _ _ _ (by omega), hchars0, lookup_head]

end huffman

namespace huffman

open bits heap

theorem encode_eq (S : List Nat) (w0 w1 w2 : Writer) (h0 : NewWriter = some w0)
    (h1 : w0.Write S = some w1) (h2 : w1.Close = some w2) : encode S = some w2.bw.out := by
  unfold encode
  simp only [h0, h1, h2, Option.bind_eq_bind, Option.some_bind]

/-- C14: for every byte `X`, a fresh writer that is given `X` once and is
closed hands the sink the bits of the code of `newChar` in the initial tree of
two leaves (the single bit `0`), then the eight bits of `X`, most significant
first, then the code of `eof` in the tree of three leaves built by the insert
of `X` (the single bit `0`), then six zero bits of padding; and decoding these
bytes returns `X` and then `io.EOF`. -/
theorem single_byte_encoding (X : Nat) (hX : X < 256) :
    ∃ w0 w1 w2, NewWriter = some w0 ∧ w0.WriteByte X = some w1 ∧ w1.Close = some w2 ∧
      w0.sym.leaves.length = 2 ∧ w1.sym.leaves.length = 3 ∧
      (∃ nN nE, w0.sym.chars.lookup newChar = some nN ∧ Code w0.sym.mem nN = some (0, 1) ∧
        w1.sym.chars.lookup eof = some nE ∧ Code w1.sym.mem nE = some (0, 1)) ∧
      w2.bw.out.flatMap (fun b => lowBits b 8) =
        lowBits 0 1 ++ lowBits X 8 ++ lowBits 0 1 ++ List.replicate 6 false ∧
      encode [X] = some w2.bw.out ∧ decode w2.bw.out = some ([X], .EOF) := by
  obtain ⟨w0, w1r, w2r, hw0, hwrite, hclose, henc, hdec⟩ :=
    round_trip_small [X] (by simpa using hX) (by simp) (by simp)
  obtain ⟨hsym0, _⟩ := NewWriter_parts w0 hw0
  obtain ⟨S1, S2, S3, hS1, _, _, hlen0, hchars0, hl1, _, _, hc0, hcE, _⟩ :=
    shapes_of_repeated_byte w0.sym hsym0
  obtain ⟨w1, hw1, hinv1, htree1, ht1, hbw1, hout1, hem1, hshape1, _, hlkE⟩ :=
    fresh_write X hX w0 hw0 S1 hS1 hchars0 hlen0 hc0
  have e1 : w1r = w1 := by
    have : w0.Write [X] = w0.WriteByte X := by simp [Writer.Write]
    rw [this, hw1] at hwrite
    exact (Option.some.inj hwrite).symm
  subst e1
  have hleaves1 : w1r.sym.leaves = [0, 1, 3] := by
    rw [← shape_leaves, hshape1, hl1]
  have hcode1 : Code w1r.sym.mem 1 = some (0, 1) := by
    rw [← Code_shape, hshape1, hcE]
  obtain ⟨w2, k, hw2, hk, hbits⟩ := Close_step w1r [X] hinv1 htree1 ht1 hbw1 hout1
    (by rw [hleaves1]; decide) (by rw [hleaves1]; decide) 1 hlkE (0, 1) hcode1
  rw [hclose] at hw2
  cases hw2
  have hk6 : k = 6 := by
    have h := congrArg List.length hbits
    rw [flatMap_lowBits_length, hem1] at h
    simp only [List.length_append, lowBits_length, List.length_replicate] at h
    omega
  subst hk6
  have hlkN : w0.sym.chars.lookup newChar = some 0 := by
    rw [hchars0, lookup_tail _ _ _ _ (by decide), lookup_head]
  have hleaves0 : w0.sym.leaves.length = 2 := by
    have := (NewWriter_inv w0 hw0).1.2.1
    have h2 := Tracks_length_le _ _ (NewWriter_inv w0 hw0).2
    simp at h2
    omega
  refine ⟨w0, w1r, w2r, hw0, hw1, hclose, hleaves0, by rw [hleaves1]; rfl,
    ⟨0, 1, hlkN, hc0, hlkE, hcode1⟩, ?_, henc, hdec⟩
  rw [hbits, hem1]
  simp only [List.append_assoc]

/-- C14 at a concrete input: the byte `65`. -/
theorem single_byte_encoding_example :
    65 < 256 ∧ ∃ w0 w1 w2, NewWriter = some w0 ∧ w0.WriteByte 65 = some w1 ∧
      w1.Close = some w2 ∧
      w0.sym.leaves.length = 2 ∧ w1.sym.leaves.length = 3 ∧
      (∃ nN nE, w0.sym.chars.lookup newChar = some nN ∧ Code w0.sym.mem nN = some (0, 1) ∧
        w1.sym.chars.lookup eof = some nE ∧ Code w1.sym.mem nE = some (0, 1)) ∧
      w2.bw.out.flatMap (fun b => lowBits b 8) =
        lowBits 0 1 ++ lowBits 65 8 ++ lowBits 0 1 ++ List.replicate 6 false ∧
      encode [65] = some w2.bw.out ∧ decode w2.bw.out = some ([65], .EOF) :=
  ⟨by decide, single_byte_encoding 65 (by decide)⟩

end huffman

namespace huffman

open bits heap

/-- One more `WriteByte` of a byte whose leaf is `node`, with the shape of the
model before and after. -/
theorem repeat_write (X : Nat) (hX : X < 256) (w1 : Writer) (S : List Nat) (node : Nat)
    (hinv1 : w1.sym.Inv) (htree1 : w1.sym.TreeOK) (ht1 : w1.sym.Tracks S) (hbw1 : w1.bw.Valid)
    (hout1 : ∀ y ∈ w1.bw.out, y < 256) (hlen : w1.sym.leaves.length ≤ 65)
    (hlk : w1.sym.chars.lookup X = some node) (c : Nat × Nat)
    (S1 S2 : symbols) (hshape1 : w1.sym.shape = S1) (hc : Code S1.mem node = some c)
    (hS2 : (S1.update node).map symbols.shape = some S2) :
    ∃ w2, w1.WriteByte X = some w2 ∧ w2.sym.Inv ∧ w2.sym.TreeOK ∧ w2.sym.Tracks (S ++ [X]) ∧
      w2.bw.Valid ∧ (∀ y ∈ w2.bw.out, y < 256) ∧
      w2.bw.emitted = w1.bw.emitted ++ lowBits c.1 c.2 ∧ w2.sym.shape = S2 ∧
      w2.sym.chars = w1.sym.chars ∧ Code w1.sym.mem node = some c := by
  have hcode : Code w1.sym.mem node = some c := by
    rw [← Code_shape, hshape1, hc]
  obtain ⟨w2, hw2, hinv2, htree2, ht2, hbw2, hout2, hem2, hupd⟩ :=
    WriteByte_old_step w1 S X hX hinv1 htree1 ht1 hbw1 hout1 hlen node hlk c hcode
  have hnode : node ∈ w1.sym.leaves := ((ht1.2.2.2 X node).1 hlk).1
  obtain ⟨s2, hupd2, _, _, hchars, _⟩ := update_spec w1.sym node hinv1 hnode
  rw [hupd] at hupd2
  cases hupd2
  have hshape2 : w2.sym.shape = S2 := by
    have h := update_erase w1.sym node
    rw [hupd, hshape1, hS2] at h
    exact (Option.some.inj h).symm
  exact ⟨w2, hw2, hinv2, htree2, ht2, hbw2, hout2, hem2, hshape2, hchars, hcode⟩

/-- C15: for every byte `X`, a fresh writer that is given `X` three times
writes the code of `newChar` and the eight bits of `X` for the first
occurrence, then the code of the leaf of `X` for the second occurrence (the
two bits `11`) and the code of the leaf of `X` for the third occurrence (the
single bit `0`), which is not longer than the second; on `Close` the code of
`eof` and two zero bits of padding follow, and decoding the bytes returns
`X`, `X`, `X` and then `io.EOF`. -/
theorem repeated_byte_encoding (X : Nat) (hX : X < 256) :
    ∃ w0 w1 w2 w3 w4, NewWriter = some w0 ∧ w0.WriteByte X = some w1 ∧
      w1.WriteByte X = some w2 ∧ w2.WriteByte X = some w3 ∧ w3.Close = some w4 ∧
      (∃ nN nX cN c2 c3, w0.sym.chars.lookup newChar = some nN ∧
        Code w0.sym.mem nN = some cN ∧ w1.sym.chars.lookup X = some nX ∧
        Code w1.sym.mem nX = some c2 ∧ w2.sym.chars.lookup X = some nX ∧
        Code w2.sym.mem nX = some c3 ∧ c3.2 ≤ c2.2 ∧ cN = (0, 1) ∧ c2 = (3, 2) ∧ c3 = (0, 1) ∧
        w1.bw.emitted = lowBits cN.1 cN.2 ++ lowBits X 8 ∧
        w2.bw.emitted = w1.bw.emitted ++ lowBits c2.1 c2.2 ∧
        w3.bw.emitted = w2.bw.emitted ++ lowBits c3.1 c3.2) ∧
      w4.bw.out.flatMap (fun b => lowBits b 8) =
        lowBits 0 1 ++ lowBits X 8 ++ lowBits 3 2 ++ lowBits 0 1 ++ lowBits 1 2 ++
          List.replicate 2 false ∧
      encode [X, X, X] = some w4.bw.out ∧ decode w4.bw.out = some ([X, X, X], .EOF) := by
  obtain ⟨w0, w3r, w4r, hw0, hwrite, hclose, henc, hdec⟩ :=
    round_trip_small [X, X, X] (by simpa using hX) (by simp) (by
      have : ([X, X, X] : List Nat).toFinset = {X} := by ext y; simp
      rw [this]; simp)
  obtain ⟨hsym0, _⟩ := NewWriter_parts w0 hw0
  obtain ⟨S1, S2, S3, hS1, hS2, hS3, hlen0, hchars0, hl1, hl2, hl3, hc0, _, hcX1, hcX2, hcE3⟩ :=
    shapes_of_repeated_byte w0.sym hsym0
  obtain ⟨w1, hw1, hinv1, htree1, ht1, hbw1, hout1, hem1, hshape1, hlkX1, hlkE1⟩ :=
    fresh_write X hX w0 hw0 S1 hS1 hchars0 hlen0 hc0
  have hleaves1 : w1.sym.leaves = [0, 1, 3] := by rw [← shape_leaves, hshape1, hl1]
  obtain ⟨w2, hw2, hinv2, htree2, ht2, hbw2, hout2, hem2, hshape2, hchars2, hcode1⟩ :=
    repeat_write X hX w1 [X] 3 hinv1 htree1 ht1 hbw1 hout1 (by rw [hleaves1]; decide) hlkX1
      (3, 2) S1 S2 hshape1 hcX1 hS2
  have hleaves2 : w2.sym.leaves = [0, 1, 3] := by rw [← shape_leaves, hshape2, hl2]
  have hlkX2 : w2.sym.chars.lookup X = some 3 := by rw [hchars2]; exact hlkX1
  obtain ⟨w3, hw3, hinv3, htree3, ht3, hbw3, hout3, hem3, hshape3, hchars3, hcode2⟩ :=
    repeat_write X hX w2 [X, X] 3 hinv2 htree2 ht2 hbw2 hout2 (by rw [hleaves2]; decide) hlkX2
      (0, 1) S2 S3 hshape2 hcX2 hS3
  have hleaves3 : w3.sym.leaves = [0, 1, 3] := by rw [← shape_leaves, hshape3, hl3]
  have e3 : w3r = w3 := by
    have : w0.Write [X, X, X] = some w3 := by
      simp [Writer.Write, hw1, hw2, hw3]
    rw [this] at hwrite
    exact (Option.some.inj hwrite).symm
  subst e3
  have hlkE3 : w3r.sym.chars.lookup eof = some 1 := by rw [hchars3, hchars2]; exact hlkE1
  have hcodeE : Code w3r.sym.mem 1 = some (1, 2) := by rw [← Code_shape, hshape3, hcE3]
  obtain ⟨w4, k, hw4, hk, hbits⟩ := Close_step w3r [X, X, X] hinv3 htree3 ht3 hbw3 hout3
    (by rw [hleaves3]; decide) (by rw [hleaves3]; decide) 1 hlkE3 (1, 2) hcodeE
  rw [hclose] at hw4
  cases hw4
  have hk2 : k = 2 := by
    have h := congrArg List.length hbits
    rw [flatMap_lowBits_length, hem3, hem2, hem1] at h
    simp only [List.length_append, lowBits_length, List.length_replicate] at h
    omega
  subst hk2
  have hlkN : w0.sym.chars.lookup newChar = some 0 := by
    rw [hchars0, lookup_tail _ _ _ _ (by decide), lookup_head]
  refine ⟨w0, w1, w2, w3r, w4r, hw0, hw1, hw2, hw3, hclose,
    ⟨0, 3, (0, 1), (3, 2), (0, 1), hlkN, hc0, hlkX1, hcode1, hlkX2, hcode2, by decide, rfl, rfl,
      rfl, hem1, hem2, hem3⟩, ?_, henc, hdec⟩
  rw [hbits, hem3, hem2, hem1]
  simp only [List.append_assoc]

/-- C15 at a concrete input: the byte `65`. -/
theorem repeated_byte_encoding_example :
    65 < 256 ∧ ∃ w0 w1 w2 w3 w4, NewWriter = some w0 ∧ w0.WriteByte 65 = some w1 ∧
      w1.WriteByte 65 = some w2 ∧ w2.WriteByte 65 = some w3 ∧ w3.Close = some w4 ∧
      (∃ nN nX cN c2 c3, w0.sym.chars.lookup newChar = some nN ∧
        Code w0.sym.mem nN = some cN ∧ w1.sym.chars.lookup 65 = some nX ∧
        Code w1.sym.mem nX = some c2 ∧ w2.sym.chars.lookup 65 = some nX ∧
        Code w2.sym.mem nX = some c3 ∧ c3.2 ≤ c2.2 ∧ cN = (0, 1) ∧ c2 = (3, 2) ∧ c3 = (0, 1) ∧
        w1.bw.emitted = lowBits cN.1 cN.2 ++ lowBits 65 8 ∧
        w2.bw.emitted = w1.bw.emitted ++ lowBits c2.1 c2.2 ∧
        w3.bw.emitted = w2.bw.emitted ++ lowBits c3.1 c3.2) ∧
      w4.bw.out.flatMap (fun b => lowBits b 8) =
        lowBits 0 1 ++ lowBits 65 8 ++ lowBits 3 2 ++ lowBits 0 1 ++ lowBits 1 2 ++
          List.replicate 2 false ∧
      encode [65, 65, 65] = some w4.bw.out ∧ decode w4.bw.out = some ([65, 65, 65], .EOF) :=
  ⟨by decide, repeated_byte_encoding 65 (by decide)⟩

end huffman

/-! ## The end of the stream seen by the decoder -/

namespace huffman

open bits heap

/-- In a model that satisfies the invariants a path through the `Left` and
`Right` pointers from the root to a leaf of the queue is a path of the tree. -/
theorem descend_leaf (s : symbols) (htree : s.TreeOK) (root n : Nat) (π : List Bool)
    (hroot : s.root = some root) (hn : n ∈ s.leaves) (hπ : descend s.mem root π = some n) :
    ∃ t : Tree, t.ptr = root ∧ t.Built s.mem ∧ t.sub π = some (Tree.leaf n) := by
  obtain ⟨t, hr, hb, hnd, hperm, _, _⟩ := htree
  rw [hroot] at hr
  have hr : root = t.ptr := Option.some.inj hr
  subst hr
  obtain ⟨u, hu, hq⟩ := hb.descend_sub π t n hπ
  obtain ⟨ρ, hρ⟩ := t.leaf_path n (hperm.symm.subset hn)
  have e := Tree.sub_unique π ρ t u _ hnd hu hρ hq
  subst e
  rw [hρ] at hu
  exact ⟨t, rfl, hb, hρ⟩

/-- C16, as the code has it: in every reachable symbol model, for every leaf
`n` of the queue with its path `π` from the root and every bit reader over a
source of bytes, `ReadByte` returns `io.EOF`, the error of the exhausted
source, when the bits end inside the path (a proper prefix of `π` is all that
is left), and when `n` is the `newChar` leaf and fewer than eight bits follow
`π`; this is the value it also returns when `n` is the `eof` leaf and the bits
of `π` are read. -/
theorem truncated_stream_returns_eof (s : symbols) (hs : s.Reachable) (root n : Nat)
    (π : List Bool) (hroot : s.root = some root) (hn : n ∈ s.leaves)
    (hπ : descend s.mem root π = some n) (br : bits.Reader) (hv : br.Valid) :
    (∀ π1 x ρ, π = π1 ++ x :: ρ → br.pending = π1 →
      ∃ br1, Reader.ReadByte { sym := s, br := br } =
        some (.error .EOF, { sym := s, br := br1 })) ∧
    (s.char n = newChar → ∀ tail : List Bool, tail.length < 8 → br.pending = π ++ tail →
      ∃ br1, Reader.ReadByte { sym := s, br := br } =
        some (.error .EOF, { sym := s, br := br1 })) ∧
    (s.char n = eof → ∀ rest : List Bool, br.pending = π ++ rest →
      ∃ br1, Reader.ReadByte { sym := s, br := br } =
        some (.error .EOF, { sym := s, br := br1 })) := by
  obtain ⟨hinv, htree⟩ := Reachable_inv_tree s hs
  obtain ⟨t, hr, hb, hsub⟩ := descend_leaf s htree root n π hroot hn hπ
  subst hr
  have hlt : π.length < s.mem.length := by
    have h1 := Tree.sub_ptr hinv.2.2.2 π t _ hb hsub
    have h2 : t.ptr < s.mem.length := hb.alloc _ t.ptr_mem_nodes
    omega
  refine ⟨?_, ?_, ?_⟩
  · intro π1 x ρ he hp
    subst he
    obtain ⟨br1, hwalk⟩ := walkLoop_short s.mem π1 x ρ t n br (s.mem.length + 1) hb hsub hv hp
      (by simp at hlt; omega)
    exact ⟨br1, by
      simp only [Reader.ReadByte, hroot, Option.bind_eq_bind, Option.some_bind, hwalk]⟩
  · intro hc tail htail hp
    obtain ⟨br1, hwalk, hp1, hv1⟩ :=
      walkLoop_path s.mem π t n br tail (s.mem.length + 1) hb hsub hv hp (by omega)
    obtain ⟨br2, hread⟩ := ReadByte_short br1 (by rw [hp1]; exact htail)
    obtain ⟨a, ha, _⟩ := hb.sub π t _ hsub
    have hca : a.Char = newChar := by
      have := hc
      unfold symbols.char at this
      rwa [getD_of_getElem? ha] at this
    exact ⟨br2, by
      simp only [Reader.ReadByte, hroot, Option.bind_eq_bind, Option.some_bind, hwalk, ha, hca,
        if_true, hread]⟩
  · intro hc rest hp
    obtain ⟨br1, h1, _⟩ := ReadByte_end s t π n br rest hroot hb hsub hlt hc hv hp
    exact ⟨br1, h1⟩

/-- C16 at a concrete input: the initial model, the `newChar` leaf with its
path `0`, and a reader over the byte `32`, the encoding `32, 128` of the byte
`65` with its last byte removed: after the path seven bits are left where the
eight bits of the literal byte are expected, and `ReadByte` returns `io.EOF`. -/
theorem truncated_stream_returns_eof_example :
    ∃ s0, newSymbols = some s0 ∧ s0.Reachable ∧ s0.root = some 2 ∧ 0 ∈ s0.leaves ∧
      descend s0.mem 2 [false] = some 0 ∧ (bits.NewReader [32]).Valid ∧
      s0.char 0 = newChar ∧
      (bits.NewReader [32]).pending =
        [false] ++ [false, true, false, false, false, false, false] ∧
      ((∀ π1 x ρ, [false] = π1 ++ x :: ρ → (bits.NewReader [32]).pending = π1 →
        ∃ br1, Reader.ReadByte { sym := s0, br := bits.NewReader [32] } =
          some (.error .EOF, { sym := s0, br := br1 })) ∧
      (s0.char 0 = newChar → ∀ tail : List Bool, tail.length < 8 →
        (bits.NewReader [32]).pending = [false] ++ tail →
        ∃ br1, Reader.ReadByte { sym := s0, br := bits.NewReader [32] } =
          some (.error .EOF, { sym := s0, br := br1 })) ∧
      (s0.char 0 = eof → ∀ rest : List Bool, (bits.NewReader [32]).pending = [false] ++ rest →
        ∃ br1, Reader.ReadByte { sym := s0, br := bits.NewReader [32] } =
          some (.error .EOF, { sym := s0, br := br1 }))) ∧
      ∃ br1, Reader.ReadByte { sym := s0, br := bits.NewReader [32] } =
        some (.error .EOF, { sym := s0, br := br1 }) :=
  ⟨_, newSymbols_eq, symbols.Reachable.init _ newSymbols_eq, rfl, by decide, by decide,
    ⟨by decide, by simp [bits.NewReader]⟩, by decide, by decide,
    truncated_stream_returns_eof _ (symbols.Reachable.init _ newSymbols_eq) 2 0 [false] rfl
      (by decide) (by decide) (bits.NewReader [32]) ⟨by decide, by simp [bits.NewReader]⟩,
    (truncated_stream_returns_eof _ (symbols.Reachable.init _ newSymbols_eq) 2 0 [false] rfl
      (by decide) (by decide) (bits.NewReader [32])
      ⟨by decide, by simp [bits.NewReader]⟩).2.1 (by decide)
      [false, true, false, false, false, false, false] (by decide) (by decide)⟩

/-- C16, evaluated on the code: the encoding of the single byte `65` is the two
bytes `32, 128`; a reader over the complete encoding returns `65` and then
`io.EOF` for the `eof` leaf; a reader over the encoding with its last byte
removed is exhausted while it expects the literal byte, and its first
`ReadByte` returns `io.EOF` as well: the same value, not a different error. -/
theorem truncated_stream_not_distinguished :
    encode [65] = some [32, 128] ∧
      ((NewReader [32, 128]).bind Reader.ReadByte).map Prod.fst = some (.ok 65) ∧
      (((NewReader [32, 128]).bind Reader.ReadByte).bind
        (fun res => res.2.ReadByte)).map Prod.fst = some (.error .EOF) ∧
      ((NewReader [32]).bind Reader.ReadByte).map Prod.fst = some (.error .EOF) ∧
      ((NewReader [32]).bind Reader.ReadByte).map Prod.fst =
        (((NewReader [32, 128]).bind Reader.ReadByte).bind
          (fun res => res.2.ReadByte)).map Prod.fst :=
  ⟨by decide, rfl, rfl, rfl, rfl⟩

end huffman

/-! ## The order of the merges -/

namespace huffman

/-- C19, evaluated on the code: after a fresh writer has written the bytes
`0, 1, 1, 2, 2, 3, 0, 4, 4, 5` the tree built by the last `buildTree` has the
root 53 and, at the path right-left, the internal node 48 with the children
46 (the leaf of byte `5`, frequency 1) and 47 (an internal node of frequency
2), while the leaf 22 of byte `3`, of frequency 1, has the parent 49, created
after 48: the leaf 22 was in the scratch queue when node 48 was created from
a node of greater frequency. -/
theorem buildTree_merge_not_smallest :
    ∃ w, NewWriter.bind (fun w0 => w0.Write [0, 1, 1, 2, 2, 3, 0, 4, 4, 5]) = some w ∧
      w.sym.root = some 53 ∧ descend w.sym.mem 53 [true, false] = some 48 ∧
      (w.sym.mem[48]?).map (fun a => (a.Left, a.Right)) = some (some 46, some 47) ∧
      (w.sym.mem[22]?).map (fun a => a.Parent) = some (some 49) ∧
      w.sym.freq 46 = 1 ∧ w.sym.freq 47 = 2 ∧ w.sym.freq 22 = 1 ∧
      w.sym.leaves = [0, 1, 33, 46, 13, 22, 3, 6] ∧ ¬ w.sym.MergesSmallest := by
  have h : (NewWriter.bind (fun w0 => w0.Write [0, 1, 1, 2, 2, 3, 0, 4, 4, 5])).map
      (fun w => (w.sym.root, descend w.sym.mem 53 [true, false],
        (w.sym.mem[48]?).map (fun a => (a.Left, a.Right)),
        (w.sym.mem[22]?).map (fun a => a.Parent),
        w.sym.freq 46, w.sym.freq 47, w.sym.freq 22, w.sym.leaves)) =
      some (some 53, some 48, some (some 46, some 47), some (some 49), 1, 2, 1,
        [0, 1, 33, 46, 13, 22, 3, 6]) := rfl
  cases hw : NewWriter.bind (fun w0 => w0.Write [0, 1, 1, 2, 2, 3, 0, 4, 4, 5]) with
  | none => rw [hw] at h; cases h
  | some w =>
    rw [hw] at h
    simp only [Option.map_some', Option.some.injEq, Prod.mk.injEq] at h
    obtain ⟨h1, h2, h3, h4, h5, h6, h7, h8⟩ := h
    refine ⟨w, rfl, h1, h2, by rw [h3], by rw [h4], h5, h6, h7, h8, ?_⟩
    intro hm
    cases ha : w.sym.mem[48]? with
    | none => rw [ha] at h3; cases h3
    | some a =>
      cases hb : w.sym.mem[22]? with
      | none => rw [hb] at h4; cases h4
      | some b =>
        rw [ha] at h3
        rw [hb] at h4
        simp only [Option.map_some', Option.some.injEq, Prod.mk.injEq] at h3 h4
        have := (hm 53 48 46 47 22 49 [true, false] a b h1 h2 ha h3.1 h3.2
          (by rw [h8]; decide) hb h4 (by decide)).2
        rw [h6, h7] at this
        omega

end huffman

/-! ## Byte-level and bit-level calls -/

namespace bits

/-- C21, evaluated on the code: a fresh reader over the bytes `255, 0` reads
one bit and has 7 pending bits; `ReadBits(3)` then returns the next three bits
but leaves the pending-bit count at 7, and `Align` returns 7 although 4 bits
of the byte are unread.  On a fresh reader over the byte `255`, `ReadBits(3)`
returns `0` and leaves the count at 0, so `Align` returns 0 although 5 bits are
unread.  A reader that only calls `ReadOneBit` three times has 5 pending bits
and `Align` returns 5. -/
theorem Align_after_ReadBits_miscounts :
    ((NewReader [255, 0]).ReadOneBit).1 = .ok true ∧
      ((NewReader [255, 0]).ReadOneBit).2.count = 7 ∧
      (((NewReader [255, 0]).ReadOneBit).2.ReadBits 3).1 = .ok 7 ∧
      (((NewReader [255, 0]).ReadOneBit).2.ReadBits 3).2.count = 7 ∧
      (((NewReader [255, 0]).ReadOneBit).2.ReadBits 3).2.Align.1 = 7 ∧
      (8 - (1 + 3) % 8) % 8 = 4 ∧
      ((NewReader [255]).ReadBits 3).1 = .ok 0 ∧
      ((NewReader [255]).ReadBits 3).2.Align.1 = 0 ∧
      (8 - 3 % 8) % 8 = 5 ∧
      ((NewReader [255]).ReadOneBit).2.ReadOneBit.2.ReadOneBit.2.Align.1 = 5 :=
  ⟨rfl, by decide, rfl, by decide, by decide, by decide, rfl, by decide, by decide, by decide⟩

end bits

namespace bits

theorem WriteBits_eight (w : Writer) (b : Nat) (hb : b < 256) :
    w.WriteBits b 8 = w.WriteBitsUnsafe b 8 := by
  unfold Writer.WriteBits
  rw [mask64 8 (by decide), Nat.and_pow_two_sub_one_eq_mod,
    Nat.mod_eq_of_lt (by simpa using hb)]

theorem WriteBits_one (w : Writer) (x : Bool) :
    w.WriteBits (if x then 1 else 0) 1 = w.WriteBitsUnsafe (if x then 1 else 0) 1 := by
  unfold Writer.WriteBits
  rw [mask64 1 (by decide), Nat.and_pow_two_sub_one_eq_mod]
  cases x <;> rfl

theorem WriteOneBit_eq_WriteBitsUnsafe (w : Writer) (x : Bool) (hc : w.count < 8) :
    w.WriteOneBit x = w.WriteBitsUnsafe (if x then 1 else 0) 1 := by
  obtain ⟨out, buf, count⟩ := w
  have hc1 : count < 8 := hc
  interval_cases count <;> cases x <;>
    simp [Writer.WriteOneBit, Writer.WriteBitsUnsafe, byte, sub8]

/-- C23: in every writer state with 0 to 7 pending bits (the buffer bits below
the pending ones clear), `WriteByte(b)` gives the same writer, bytes written,
buffer and count, as `WriteBits(b, 8)`, and `WriteOneBit(x)` gives the same
writer as `WriteBits` of the bit `x` with length 1. -/
theorem WriteByte_and_WriteOneBit_agree_with_WriteBits (w : Writer) (hw : w.Valid) :
    (∀ b, b < 256 → w.WriteByte b = w.WriteBits b 8) ∧
      (∀ x : Bool, w.WriteOneBit x = w.WriteBits (if x then 1 else 0) 1) := by
  refine ⟨fun b hb => ?_, fun x => ?_⟩
  · rw [WriteBits_eight w b hb]
    exact WriteByte_eq_WriteBitsUnsafe w b hw hb
  · rw [WriteBits_one w x]
    exact WriteOneBit_eq_WriteBitsUnsafe w x hw.1

/-- C23 at a writer holding the three pending bits `101`. -/
theorem WriteByte_and_WriteOneBit_agree_with_WriteBits_example :
    Writer.Valid { out := [7], buf := 160, count := 3 } ∧
      ((∀ b, b < 256 → Writer.WriteByte { out := [7], buf := 160, count := 3 } b =
          Writer.WriteBits { out := [7], buf := 160, count := 3 } b 8) ∧
        (∀ x : Bool, Writer.WriteOneBit { out := [7], buf := 160, count := 3 } x =
          Writer.WriteBits { out := [7], buf := 160, count := 3 } (if x then 1 else 0) 1)) :=
  ⟨⟨by decide, by decide, by decide⟩,
    WriteByte_and_WriteOneBit_agree_with_WriteBits { out := [7], buf := 160, count := 3 }
      ⟨by decide, by decide, by decide⟩⟩

end bits

namespace bits

/-- `ReadOneBit` on a reader with `c + 1` pending bits. -/
theorem ReadOneBit_buffered (src : List Nat) (buf c : Nat) (hc : c + 1 < 8) :
    Reader.ReadOneBit { src := src, buf := buf, count := c + 1 } =
      (.ok (buf.testBit c), { src := src, buf := buf % 2 ^ c, count := c }) := by
  have hsub : sub8 (c + 1) 1 = c := by
    rw [sub8_of_le (by omega) (by omega)]; omega
  have hb : byte (1 <<< c) = 2 ^ c := by
    rw [Nat.one_shiftLeft]
    apply byte_of_lt
    calc 2 ^ c < 2 ^ 8 := Nat.pow_lt_pow_right (by decide) (by omega)
      _ = 256 := by decide
  have hm : sub8 (byte (1 <<< c)) 1 = 2 ^ c - 1 := mask8 c (by omega)
  have hm1 : sub8 (2 ^ c) 1 = 2 ^ c - 1 := by
    have h := hm
    rwa [hb] at h
  simp only [Reader.ReadOneBit, Nat.succ_ne_zero, if_false, hsub, hb, hm1,
    testBit_of_and_two_pow, Nat.and_pow_two_sub_one_eq_mod]

/-- `ReadOneBit` on a reader with no pending bit and a byte in the source. -/
theorem ReadOneBit_fetch (x : Nat) (rest : List Nat) (buf : Nat) :
    Reader.ReadOneBit { src := x :: rest, buf := buf, count := 0 } =
      (.ok (x.testBit 7), { src := rest, buf := x % 2 ^ 7, count := 7 }) := by
  have e1 : (1 <<< 7 : Nat) = 2 ^ 7 := by decide
  simp only [Reader.ReadOneBit, if_true, e1, testBit_of_and_two_pow,
    Nat.and_pow_two_sub_one_eq_mod]

/-- The top bit of a number below `2 ^ (c + 1)` as a number. -/
theorem testBit_top_value (buf c : Nat) (hb : buf < 2 ^ (c + 1)) :
    (if buf.testBit c then 1 else 0) = buf / 2 ^ c := by
  have h2 : buf / 2 ^ c < 2 :=
    Nat.div_lt_of_lt_mul (by rw [← pow_succ]; exact hb)
  rw [Nat.testBit_to_div_mod]
  generalize buf / 2 ^ c = q at h2
  by_cases h1 : q % 2 = 1
  · simp only [h1, decide_True, if_true]; omega
  · simp only [h1, decide_False]; simp only [Bool.false_eq_true, if_false]; omega

/-- Division by `2 ^ (c - k)` splits at bit `c`. -/
theorem div_two_pow_split (buf c k : Nat) (hk : k ≤ c) :
    buf / 2 ^ (c - k) = 2 ^ k * (buf / 2 ^ c) + buf % 2 ^ c / 2 ^ (c - k) := by
  have hpow : 2 ^ c = 2 ^ (c - k) * 2 ^ k := by
    rw [← pow_add]; congr 1; omega
  conv_lhs => rw [← Nat.div_add_mod buf (2 ^ c)]
  conv_lhs => rw [hpow, Nat.mul_assoc]
  rw [Nat.mul_add_div (Nat.two_pow_pos _), ← hpow]

/-- Reading `k` of the `c` pending bits one by one. -/
theorem readBitsOneByOne_buffered (src : List Nat) :
    ∀ (k c buf acc : Nat), k ≤ c → c < 8 → buf < 2 ^ c →
      readBitsOneByOne k { src := src, buf := buf, count := c } acc =
        (.ok (acc * 2 ^ k + buf / 2 ^ (c - k)),
          { src := src, buf := buf % 2 ^ (c - k), count := c - k }) := by
  intro k
  induction k with
  | zero =>
    intro c buf acc _ _ hb
    simp [readBitsOneByOne, Nat.mod_eq_of_lt hb, Nat.div_eq_of_lt hb]
  | succ k ih =>
    intro c buf acc hk hc hb
    obtain ⟨c1, rfl⟩ : ∃ c1, c = c1 + 1 := ⟨c - 1, by omega⟩
    have hlt : buf % 2 ^ c1 < 2 ^ c1 := Nat.mod_lt _ (Nat.two_pow_pos _)
    have hd : c1 + 1 - (k + 1) = c1 - k := by omega
    simp only [readBitsOneByOne, ReadOneBit_buffered src buf c1 hc]
    rw [ih c1 (buf % 2 ^ c1) _ (by omega) (by omega) hlt, hd,
      Nat.mod_mod_of_dvd _ (Nat.pow_dvd_pow 2 (Nat.sub_le c1 k))]
    rw [testBit_top_value buf c1 hb, div_two_pow_split buf c1 k (by omega), pow_succ]
    congr 2
    ring

/-- Reading `a + b` bits one by one is reading `a` bits and then `b` bits. -/
theorem readBitsOneByOne_add (b : Nat) :
    ∀ (a : Nat) (r r1 : Reader) (acc v : Nat), readBitsOneByOne a r acc = (.ok v, r1) →
      readBitsOneByOne (a + b) r acc = readBitsOneByOne b r1 v := by
  intro a
  induction a with
  | zero =>
    intro r r1 acc v h
    simp only [readBitsOneByOne, Prod.mk.injEq, Except.ok.injEq] at h
    rw [Nat.zero_add, h.1, h.2]
  | succ a ih =>
    intro r r1 acc v h
    rw [Nat.succ_add]
    simp only [readBitsOneByOne] at h ⊢
    cases hr : r.ReadOneBit with
    | mk res r2 =>
      rw [hr] at h
      cases res with
      | error e => simp at h
      | ok bit => exact ih r2 r1 _ v h

/-- The result of eight successive `ReadOneBit` calls. -/
theorem readByteBitwise_value (x : Nat) (rest : List Nat) (buf c : Nat) (hc : c < 8)
    (hb : buf < 2 ^ c) (hx : x < 256) :
    Reader.readByteBitwise { src := x :: rest, buf := buf, count := c } =
      (.ok (buf * 2 ^ (8 - c) + x / 2 ^ c), { src := rest, buf := x % 2 ^ c, count := c }) := by
  have h1 := readBitsOneByOne_buffered (x :: rest) c c buf 0 (Nat.le_refl c) hc hb
  simp only [Nat.sub_self, pow_zero, Nat.div_one, Nat.mod_one, Nat.zero_mul, Nat.zero_add] at h1
  have h3 := readBitsOneByOne_buffered rest (7 - c) 7 (x % 2 ^ 7)
    (2 * buf + (if x.testBit 7 then 1 else 0)) (by omega) (by decide)
    (Nat.mod_lt _ (Nat.two_pow_pos _))
  have e7 : 7 - (7 - c) = c := by omega
  rw [e7, Nat.mod_mod_of_dvd _ (Nat.pow_dvd_pow 2 (by omega : c ≤ 7))] at h3
  have h2 : readBitsOneByOne (1 + (7 - c)) { src := x :: rest, buf := 0, count := 0 } buf =
      readBitsOneByOne (7 - c) { src := rest, buf := x % 2 ^ 7, count := 7 }
        (2 * buf + (if x.testBit 7 then 1 else 0)) :=
    readBitsOneByOne_add (7 - c) 1 _ _ _ _ (by
      simp only [readBitsOneByOne, ReadOneBit_fetch])
  have e8 : 8 = c + (1 + (7 - c)) := by omega
  unfold Reader.readByteBitwise
  rw [e8, readBitsOneByOne_add _ c _ _ _ _ h1, h2, h3,
    testBit_top_value x 7 (by simpa using hx)]
  have hsplit := div_two_pow_split x 7 (7 - c) (by omega)
  rw [e7] at hsplit
  have hp : 2 ^ (c + (1 + (7 - c)) - c) = 2 * 2 ^ (7 - c) := by
    rw [← pow_succ']; congr 1; omega
  rw [hsplit, hp]
  congr 2
  ring

/-- The result of `ReadByte` on a reader with `c` pending bits. -/
theorem ReadByte_value (x : Nat) (rest : List Nat) (buf c : Nat) (hc : c < 8)
    (hb : buf < 2 ^ c) (hx : x < 256) :
    Reader.ReadByte { src := x :: rest, buf := buf, count := c } =
      (.ok (buf * 2 ^ (8 - c) + x / 2 ^ c), { src := rest, buf := x % 2 ^ c, count := c }) := by
  by_cases h0 : c = 0
  · subst h0
    have hb0 : buf = 0 := by simpa using hb
    subst hb0
    simp [Reader.ReadByte, Nat.mod_one]
  · have hfree : sub8 8 c = 8 - c := sub8_of_le (by omega) (by decide)
    have hm : sub8 (byte (1 <<< c)) 1 = 2 ^ c - 1 := mask8 c (by omega)
    have h256 : 2 ^ c * 2 ^ (8 - c) = 256 := by
      rw [← pow_add, show c + (8 - c) = 8 by omega]; rfl
    have hsh : byte (buf <<< (8 - c)) = buf <<< (8 - c) := by
      apply byte_of_lt
      rw [Nat.shiftLeft_eq, ← h256]
      exact Nat.mul_lt_mul_of_pos_right hb (Nat.two_pow_pos _)
    have hlt : x / 2 ^ c < 2 ^ (8 - c) :=
      Nat.div_lt_of_lt_mul (by rw [h256]; exact hx)
    simp only [Reader.ReadByte, h0, if_false, Reader.readUnalignedByte, hfree, hm, hsh,
      Nat.and_pow_two_sub_one_eq_mod, Nat.shiftRight_eq_div_pow]
    rw [Nat.shiftLeft_eq, Nat.mul_comm buf, ← Nat.mul_add_lt_is_or hlt]

/-- C24: for a reader with 0 to 7 pending bits, the buffer bits above them
clear, and a source whose next byte is `x`, `ReadByte` returns the same byte
and leaves the same source, buffer and count as eight successive `ReadOneBit`
calls assembled most significant bit first; both succeed, and leave the low
pending bits of `x` in the buffer. -/
theorem ReadByte_agrees_with_eight_ReadOneBit (r : Reader) (x : Nat) (rest : List Nat)
    (hc : r.count < 8) (hb : r.buf < 2 ^ r.count) (hs : r.src = x :: rest) (hx : x < 256) :
    r.ReadByte = r.readByteBitwise ∧
      ∃ v, r.ReadByte = (.ok v, { src := rest, buf := x % 2 ^ r.count, count := r.count }) := by
  obtain ⟨src, buf, c⟩ := r
  simp only at hc hb hs
  subst hs
  rw [ReadByte_value x rest buf c hc hb hx, readByteBitwise_value x rest buf c hc hb hx]
  exact ⟨rfl, _, rfl⟩

/-- C24 at a reader holding the three pending bits `101` before the bytes
`165, 1`: both ways of reading give the byte `180`. -/
theorem ReadByte_agrees_with_eight_ReadOneBit_example :
    Reader.ReadByte { src := [165, 1], buf := 5, count := 3 } =
        Reader.readByteBitwise { src := [165, 1], buf := 5, count := 3 } ∧
      ∃ v, Reader.ReadByte { src := [165, 1], buf := 5, count := 3 } =
        (.ok v, { src := [1], buf := 165 % 2 ^ 3, count := 3 }) :=
  ReadByte_agrees_with_eight_ReadOneBit { src := [165, 1], buf := 5, count := 3 } 165 [1]
    (by decide) (by decide) rfl (by decide)

end bits
